import Mathlib

/-!
Verification development for the ConcurrencyFreaks safe-memory-reclamation core:
the hazard-pointer registry (`HazardPointersConditional.hpp`) and the two MPMC
FIFO queues built on hazard pointers (`MichaelScottQueue.hpp`, `CRTurnQueue.hpp`).

Pointers are modelled as natural-number addresses wrapped in `Option` (`none` is
`nullptr`); the node heap is an explicit partial map `Nat → Option Node`; each
operation is embedded as an executable Lean function that follows the C++
statement by statement, with bounded loops translated as structural recursion on
their loop counter and unbounded `while (true)` loops given explicit fuel.
The execution model is sequential: a single thread runs one complete operation
at a time, so every atomic re-read observes the value of the preceding write.
-/

set_option maxHeartbeats 1000000

namespace HPCond

/-- `HP_MAX_HPS` from HazardPointersConditional.hpp ("K" in the HP paper). -/
def HP_MAX_HPS : Nat := 4

/-- `HP_MAX_THREADS` from HazardPointersConditional.hpp. -/
def HP_MAX_THREADS : Nat := 128

/-- `HP_THRESHOLD_R` from HazardPointersConditional.hpp ("R" in the HP paper). -/
def HP_THRESHOLD_R : Nat := 0

/-- `CLPAD = 128/sizeof(std::atomic<T*>)` on an LP64 platform (pointer size 8). -/
def CLPAD : Nat := 128 / 8

/-- State of a `HazardPointersConditional<T>` instance.  The `hp` matrix is
indexed by (thread, slot); `retired` is the per-thread retirement list of
addresses; `itemOf` gives each node's `item` field (read by `retire`'s scan
as `obj->item.load()`); `maxHPs`/`maxThreads` are the constructor arguments. -/
structure State (α : Type) where
  hp : Nat → Nat → Option Nat
  retired : Nat → List Nat
  itemOf : Nat → Option α
  maxHPs : Nat
  maxThreads : Nat

/-- The `canDelete` double loop of `retire`: `true` iff no hazard slot
`hp[t][i]` with `t < maxThreads`, `i < maxHPs` holds `obj`.  (The C++ walks
`ihp` downwards; the scanned set is identical.) -/
def canDelete (hp : Nat → Nat → Option Nat) (maxHPs maxThreads : Nat) (obj : Nat) : Bool :=
  (List.range maxThreads).all fun t =>
    (List.range maxHPs).all fun i => ! (hp t i == some obj)

/-- The `iret` scan loop of `retire` over the retirement list: an entry with a
non-null `item` is skipped (`iret++`); otherwise, if `canDel` holds, it is
erased from the list and freed; otherwise it is kept.  Returns
(remaining list, freed objects in scan order). -/
def retireScan (itemOf : Nat → Option α) (canDel : Nat → Bool) :
    List Nat → List Nat × List Nat
  | [] => ([], [])
  | obj :: rest =>
    if (itemOf obj).isSome then
      let r := retireScan itemOf canDel rest
      (obj :: r.1, r.2)
    else if canDel obj then
      let r := retireScan itemOf canDel rest
      (r.1, obj :: r.2)
    else
      let r := retireScan itemOf canDel rest
      (obj :: r.1, r.2)

/-- `HazardPointersConditional::retire(ptr, tid)`: push `ptr` onto the caller's
retirement list; if the list size is below `HP_THRESHOLD_R` return, else run
the reclamation scan.  Returns the new state and the list of freed objects. -/
def retire (st : State α) (ptr : Nat) (tid : Nat) : State α × List Nat :=
  let rl := st.retired tid ++ [ptr]
  if rl.length < HP_THRESHOLD_R then
    ({ st with retired := fun t => if t = tid then rl else st.retired t }, [])
  else
    let r := retireScan st.itemOf (canDelete st.hp st.maxHPs st.maxThreads) rl
    ({ st with retired := fun t => if t = tid then r.1 else st.retired t }, r.2)

/-- `HazardPointersConditional::clear(tid)`: null all of the caller's slots. -/
def clear (st : State α) (tid : Nat) : State α :=
  { st with hp := fun t i => if t = tid ∧ i < st.maxHPs then none else st.hp t i }

/-- `HazardPointersConditional::protectPtr(index, ptr, tid)`:
store `ptr` in the caller's slot and return it. -/
def protectPtr (st : State α) (index : Nat) (ptr : Option Nat) (tid : Nat) :
    State α × Option Nat :=
  ({ st with hp := fun t i => if t = tid ∧ i = index then ptr else st.hp t i }, ptr)

/-- The predicate an entry of the retirement list must satisfy to be freed by
the scan: null `item` and no hazard slot holding it. -/
def dropP (itemOf : Nat → Option α) (canDel : Nat → Bool) (a : Nat) : Bool :=
  (itemOf a).isNone && canDel a

theorem retireScan_eq_filter (itemOf : Nat → Option α) (canDel : Nat → Bool)
    (l : List Nat) :
    retireScan itemOf canDel l =
      (l.filter (fun a => ! dropP itemOf canDel a), l.filter (dropP itemOf canDel)) := by
  induction l with
  | nil => rfl
  | cons obj rest ih =>
    cases h : itemOf obj with
    | some v => simp [retireScan, h, ih, dropP, List.filter]
    | none =>
      by_cases hc : canDel obj = true
      · simp [retireScan, h, hc, ih, dropP, List.filter]
      · simp [retireScan, h, hc, ih, dropP, List.filter]

theorem canDelete_spec (hp : Nat → Nat → Option Nat) (maxHPs maxThreads obj : Nat)
    (h : canDelete hp maxHPs maxThreads obj = true) :
    ∀ t < maxThreads, ∀ i < maxHPs, hp t i ≠ some obj := by
  intro t ht i hi
  unfold canDelete at h
  rw [List.all_eq_true] at h
  have h1 := h t (List.mem_range.mpr ht)
  rw [List.all_eq_true] at h1
  have h2 := h1 i (List.mem_range.mpr hi)
  simpa using h2

/-- `protect(index, atom, tid)` under sequential execution: the source atomic
holds a fixed value for the duration of the call, so the retry loop runs at
most once — a null source returns null without storing, otherwise the value is
stored in the caller's slot and returned. -/
def protect (st : State α) (index : Nat) (atomVal : Option Nat) (tid : Nat) :
    State α × Option Nat :=
  match atomVal with
  | none => (st, none)
  | some a => protectPtr st index (some a) tid

/-- A concrete registry state for the C1 counterexample: one thread, one slot,
no hazard slot set, empty retirement lists, and node 5 whose `item` is the
non-null value 7. -/
def cexSt : State Nat :=
  { hp := fun _ _ => none
    retired := fun _ => []
    itemOf := fun a => if a = 5 then some 7 else none
    maxHPs := 1
    maxThreads := 1 }

/-- C1 counterexample: retiring node 5 — referenced by no hazard slot of any
thread — does **not** free it, because its `item` field is non-null; the node
stays on the retirement list.  This refutes "every retired node referenced by
no hazard slot of any thread is freed" for `HazardPointersConditional`. -/
theorem hpcond_unreferenced_retired_node_not_freed :
    HPCond.canDelete HPCond.cexSt.hp HPCond.cexSt.maxHPs HPCond.cexSt.maxThreads 5 = true ∧
    (HPCond.retire HPCond.cexSt 5 0).1.retired 0 = [5] ∧
    (HPCond.retire HPCond.cexSt 5 0).2 = [] := by
  refine ⟨by decide, ?_, ?_⟩ <;>
    simp [HPCond.retire, HPCond.retireScan, HPCond.cexSt, HPCond.HP_THRESHOLD_R,
      HPCond.canDelete]

/-- C1 (amended): `retire(node, tid)` appends the node to thread `tid`'s
retirement list and, the threshold `HP_THRESHOLD_R` being 0, always runs the
scan of every thread's hazard slots; the scan frees exactly those retired
nodes whose `item` field is null **and** which are referenced by no hazard
slot, keeps the rest (in order), leaves other threads' lists untouched, and
a node is freed only when no hazard slot of any thread references it. -/
theorem hpcond_retire_characterization (st : State α) (ptr tid : Nat) :
    (HPCond.retire st ptr tid).1.retired tid =
      (st.retired tid ++ [ptr]).filter
        (fun a => ! HPCond.dropP st.itemOf (HPCond.canDelete st.hp st.maxHPs st.maxThreads) a) ∧
    (HPCond.retire st ptr tid).2 =
      (st.retired tid ++ [ptr]).filter
        (HPCond.dropP st.itemOf (HPCond.canDelete st.hp st.maxHPs st.maxThreads)) ∧
    (∀ t, t ≠ tid → (HPCond.retire st ptr tid).1.retired t = st.retired t) ∧
    (∀ a ∈ (HPCond.retire st ptr tid).2,
      st.itemOf a = none ∧ ∀ t < st.maxThreads, ∀ i < st.maxHPs, st.hp t i ≠ some a) := by
  have hthr : ¬ ((st.retired tid).length + 1 < HPCond.HP_THRESHOLD_R) := by
    simp [HPCond.HP_THRESHOLD_R]
  refine ⟨?_, ?_, ?_, ?_⟩
  · simp [HPCond.retire, hthr, retireScan_eq_filter]
  · simp [HPCond.retire, hthr, retireScan_eq_filter]
  · intro t ht
    simp [HPCond.retire, hthr, retireScan_eq_filter, ht]
  · intro a ha
    simp only [HPCond.retire, hthr, if_neg, retireScan_eq_filter] at ha
    have hmem := List.of_mem_filter ha
    unfold HPCond.dropP at hmem
    have h1 : (st.itemOf a).isNone = true := by
      cases h : (st.itemOf a).isNone <;> simp [h] at hmem ⊢
    have h2 : HPCond.canDelete st.hp st.maxHPs st.maxThreads a = true := by
      cases h : HPCond.canDelete st.hp st.maxHPs st.maxThreads a <;> simp [h] at hmem ⊢
    exact ⟨Option.isNone_iff_eq_none.mp h1, canDelete_spec _ _ _ _ h2⟩

end HPCond

namespace MSQ

/-- `MAX_THREADS` from MichaelScottQueue.hpp: the fixed capacity of the
per-thread tables (the constructor default). -/
def MAX_THREADS : Nat := 128

/-- A `MichaelScottQueue<T>::Node`: the `item` pointer (`none` = nullptr) and
the atomic `next` link (an address, `none` = nullptr). -/
structure Node (α : Type) where
  item : Option α
  next : Option Nat

/-- State of a `MichaelScottQueue<T>` instance together with its embedded
`HazardPointers<Node> hp {2, maxThreads}`: an explicit node heap addressed by
naturals (`none` = freed/unallocated), an allocation counter (fresh addresses
are never reused), the atomic `head`/`tail` pointers, the hazard-slot table,
the per-thread retirement lists (entries are the retired `Node*` values) and
the reclamation threshold of the registry. -/
@[ext]
structure State (α : Type) where
  heap : Nat → Option (Node α)
  alloc : Nat
  head : Option Nat
  tail : Option Nat
  maxThreads : Nat
  hp : Nat → Nat → Option Nat
  retired : Nat → List (Option Nat)
  thresholdR : Nat

/-- Dereference a node pointer. -/
def getNode (st : State α) (p : Option Nat) : Option (Node α) :=
  p.bind st.heap

/-- `p->next.load()`.  A null or dangling dereference — undefined behaviour in
the C++ — is modelled as reading null; no proved statement depends on that
arbitrary choice, every dereference in a proof is backed by the invariant. -/
def getNext (st : State α) (p : Option Nat) : Option Nat :=
  (getNode st p).bind Node.next

/-- `p->item` (same convention for null/dangling dereference). -/
def getItem (st : State α) (p : Option Nat) : Option α :=
  (getNode st p).bind Node.item

/-- `new Node(item)`: allocate a node with null `next` at the next fresh
address; returns the new state and the address. -/
def allocNode (st : State α) (item : Option α) : State α × Nat :=
  ({ st with
      heap := fun b => if b = st.alloc then some { item := item, next := none } else st.heap b
      alloc := st.alloc + 1 },
    st.alloc)

/-- `node->next.compare_exchange_strong(cmp, val)`.  A null or dangling node
pointer (undefined behaviour in C++) is modelled as a failed CAS. -/
def casNext (st : State α) (p : Option Nat) (cmp val : Option Nat) :
    State α × Bool :=
  match p with
  | none => (st, false)
  | some a =>
    match st.heap a with
    | none => (st, false)
    | some nd =>
      if nd.next = cmp then
        ({ st with heap := fun b => if b = a then some { nd with next := val } else st.heap b },
          true)
      else (st, false)

/-- `head.compare_exchange_strong(cmp, val)`. -/
def casHead (st : State α) (cmp val : Option Nat) : State α × Bool :=
  if st.head = cmp then ({ st with head := val }, true) else (st, false)

/-- `tail.compare_exchange_strong(cmp, val)`. -/
def casTail (st : State α) (cmp val : Option Nat) : State α × Bool :=
  if st.tail = cmp then ({ st with tail := val }, true) else (st, false)

/-- `hp.protectPtr(index, ptr, tid)`: store `ptr` in the caller's slot. -/
def hpStore (st : State α) (tid idx : Nat) (p : Option Nat) : State α :=
  { st with hp := fun t i => if t = tid ∧ i = idx then p else st.hp t i }

/-- `hp.protect(index, atom, tid)` under sequential execution: the loop body
runs once when the source is non-null (store, re-read unchanged, exit) and
zero times when it is null (no store). -/
def hpProtect (st : State α) (tid idx : Nat) (p : Option Nat) : State α :=
  match p with
  | none => st
  | some _ => hpStore st tid idx p

/-- `hp.clear(tid)` for the two-slot registry `HazardPointers<Node> hp {2, _}`. -/
def hpClear (st : State α) (tid : Nat) : State α :=
  { st with hp := fun t i => if t = tid ∧ i < 2 then none else st.hp t i }

/-- The registry scan's protection check: some hazard slot of some thread
`t < maxThreads`, slot `i < 2`, holds address `a`. -/
def hpProtectedBy (st : State α) (a : Nat) : Bool :=
  (List.range st.maxThreads).any fun t =>
    (List.range 2).any fun i => st.hp t i == some a

/-- A retired pointer the scan reclaims: a null entry (deleting a null pointer
is a no-op) or an address protected by no hazard slot. -/
def dropRet (st : State α) (q : Option Nat) : Bool :=
  match q with
  | none => true
  | some a => ! hpProtectedBy st a

/-- Modelled from the spec: `HazardPointers.hpp` (the registry both queues
instantiate) is not under src/ — only `HazardPointersConditional.hpp` and
`HazardPointersDL.hpp` are.  Per the spec, `retire(node, tid)` "appends to the
thread's retirement list; once the list exceeds a threshold, scans every
thread's hazard slots and frees any retired node referenced by none of them". -/
def hpRetire (st : State α) (p : Option Nat) (tid : Nat) : State α :=
  if (st.retired tid ++ [p]).length ≤ st.thresholdR then
    { st with retired := fun t => if t = tid then st.retired tid ++ [p] else st.retired t }
  else
    { st with
      heap := fun a =>
        if some a ∈ (st.retired tid ++ [p]).filter (dropRet st) then none else st.heap a
      retired := fun t =>
        if t = tid then (st.retired tid ++ [p]).filter (fun q => ! dropRet st q)
        else st.retired t }

/-- Result of an operation that can throw. -/
inductive Err
  | invalidArgument
  | fuelOut
deriving DecidableEq

/-- The `while (true)` retry loop of `MichaelScottQueue::enqueue`, with
explicit fuel (the loop has no syntactic bound; under the sequential
invariant one iteration suffices). -/
def enqueueLoop (tid newNode : Nat) : Nat → State α → Except Err (State α)
  | 0, _ => .error .fuelOut
  | fuel + 1, st =>
    -- Node* ltail = hp.protectPtr(kHpTail, tail, tid);
    let st1 := hpStore st tid 0 st.tail
    let ltail := st1.tail
    if ltail = st1.tail then          -- if (ltail == tail.load())
      match getNext st1 ltail with    -- Node* lnext = ltail->next.load();
      | none =>
        let r := casNext st1 ltail none (some newNode)  -- ltail->casNext(nullptr, newNode)
        if r.2 then
          let r2 := casTail r.1 ltail (some newNode)    -- casTail(ltail, newNode)
          .ok (hpClear r2.1 tid)                        -- hp.clear(tid); return
        else enqueueLoop tid newNode fuel r.1
      | some lnext =>
        let r := casTail st1 ltail (some lnext)         -- casTail(ltail, lnext)
        enqueueLoop tid newNode fuel r.1
    else enqueueLoop tid newNode fuel st1

/-- `MichaelScottQueue::enqueue(item, tid)`: null check, allocate, retry loop. -/
def enqueue (fuel : Nat) (item : Option α) (tid : Nat) (st : State α) :
    Except Err (State α) :=
  match item with
  | none => .error .invalidArgument   -- throw std::invalid_argument
  | some v =>
    let r := allocNode st (some v)
    enqueueLoop tid r.2 fuel r.1

/-- The `while (node != tail.load())` loop of `MichaelScottQueue::dequeue`,
with explicit fuel; `none` = fuel exhausted (never happens under the
invariant). -/
def dequeueLoop (tid : Nat) : Nat → Option Nat → State α → Option (Option α × State α)
  | 0, _, _ => none
  | fuel + 1, node, st =>
    if node ≠ st.tail then
      -- Node* lnext = hp.protect(kHpNext, node->next, tid);
      let lnext := getNext st node
      let st1 := hpProtect st tid 1 lnext
      let r := casHead st1 node lnext       -- if (casHead(node, lnext))
      if r.2 then
        let item := getItem r.1 lnext       -- T* item = lnext->item;
        let st2 := hpClear r.1 tid          -- hp.clear(tid);
        let st3 := hpRetire st2 node tid    -- hp.retire(node, tid);
        some (item, st3)
      else
        -- node = hp.protect(kHpHead, head, tid);
        let st2 := hpProtect r.1 tid 0 r.1.head
        dequeueLoop tid fuel r.1.head st2
    else some (none, hpClear st tid)        -- hp.clear(tid); return nullptr

/-- `MichaelScottQueue::dequeue(tid)`. -/
def dequeue (fuel tid : Nat) (st : State α) : Option (Option α × State α) :=
  -- Node* node = hp.protect(kHpHead, head, tid);
  let st1 := hpProtect st tid 0 st.head
  dequeueLoop tid fuel st.head st1

/-- The `MichaelScottQueue(maxThreads)` constructor: a single sentinel node
with null item and null next, head and tail pointing at it, empty hazard
table and retirement lists.  `thresholdR` is the reclamation threshold of the
spec-modelled registry. -/
def newQueue (α : Type) (maxThreads thresholdR : Nat) : State α :=
  { heap := fun b => if b = 0 then some { item := none, next := none } else none
    alloc := 1
    head := some 0
    tail := some 0
    maxThreads := maxThreads
    hp := fun _ _ => none
    retired := fun _ => []
    thresholdR := thresholdR }

/-- The node chain of the queue as a predicate on the heap: starting at
address `a`, the addresses in `rest` are the successive `next`-successors and
the final node's `next` is null. -/
def linksOKH (heap : Nat → Option (Node α)) : Nat → List Nat → Prop
  | a, [] => ∃ nd, heap a = some nd ∧ nd.next = none
  | a, b :: rest => ∃ nd, heap a = some nd ∧ nd.next = some b ∧ linksOKH heap b rest

/-- Sequential well-formedness of a `MichaelScottQueue` state: `head` points
at the sentinel `a0`, the chain continues through `rest` up to `tail`, all
chain addresses are distinct and below the allocation counter, addresses at
or above the counter are unallocated, every non-sentinel node carries an
item, and retired pointers are off-chain and below the counter. -/
structure Inv (st : State α) (a0 : Nat) (rest : List Nat) : Prop where
  head_eq : st.head = some a0
  links : linksOKH st.heap a0 rest
  tail_eq : st.tail = some ((a0 :: rest).getLast (List.cons_ne_nil a0 rest))
  nodup : (a0 :: rest).Nodup
  bounded : ∀ a ∈ a0 :: rest, a < st.alloc
  fresh : ∀ a, st.alloc ≤ a → st.heap a = none
  items : ∀ a ∈ rest, (getItem st (some a)).isSome
  retired_disj : ∀ t q, q ∈ st.retired t → ∀ a, q = some a → a ∉ a0 :: rest
  retired_bounded : ∀ t q, q ∈ st.retired t → ∀ a, q = some a → a < st.alloc

/-- The queue's abstract contents relative to a chain: the items of the
non-sentinel nodes, front first. -/
def valsOn (st : State α) (rest : List Nat) : List α :=
  rest.filterMap fun a => getItem st (some a)

/-- Walk the chain from a pointer, with fuel. -/
def chainFrom (st : State α) : Nat → Option Nat → List Nat
  | 0, _ => []
  | _ + 1, none => []
  | fuel + 1, some a =>
    match st.heap a with
    | none => [a]
    | some nd => a :: chainFrom st fuel nd.next

/-- The items currently held in the node chain (everything after the sentinel
head), as a function of the state. -/
def remaining (st : State α) : List α :=
  ((chainFrom st st.alloc st.head).drop 1).filterMap fun a => getItem st (some a)

theorem linksOKH_congr {h h' : Nat → Option (Node α)} :
    ∀ (a0 : Nat) (rest : List Nat), (∀ a ∈ a0 :: rest, h' a = h a) →
      linksOKH h a0 rest → linksOKH h' a0 rest := by
  intro a0 rest
  induction rest generalizing a0 with
  | nil =>
    intro hag ⟨nd, hnd, hnx⟩
    exact ⟨nd, (hag a0 (by simp)).trans hnd, hnx⟩
  | cons b rest ih =>
    intro hag ⟨nd, hnd, hnx, hrest⟩
    refine ⟨nd, (hag a0 (by simp)).trans hnd, hnx, ih b ?_ hrest⟩
    intro a ha
    exact hag a (by simp at ha ⊢; tauto)

theorem linksOKH_last {h : Nat → Option (Node α)} :
    ∀ (a0 : Nat) (rest : List Nat), linksOKH h a0 rest →
      ∃ nd, h ((a0 :: rest).getLast (List.cons_ne_nil a0 rest)) = some nd ∧ nd.next = none := by
  intro a0 rest
  induction rest generalizing a0 with
  | nil => intro hk; simpa using hk
  | cons b rest ih =>
    intro ⟨nd, _, _, hrest⟩
    simpa [List.getLast_cons] using ih b hrest

theorem linksOKH_mem_heap {h : Nat → Option (Node α)} :
    ∀ (a0 : Nat) (rest : List Nat), linksOKH h a0 rest →
      ∀ a ∈ a0 :: rest, ∃ nd, h a = some nd := by
  intro a0 rest
  induction rest generalizing a0 with
  | nil =>
    intro ⟨nd, hnd, _⟩ a ha
    simp at ha; subst ha; exact ⟨nd, hnd⟩
  | cons b rest ih =>
    intro ⟨nd, hnd, _, hrest⟩ a ha
    simp at ha
    rcases ha with rfl | ha
    · exact ⟨nd, hnd⟩
    · exact ih b hrest a (by simpa using ha)

theorem chainFrom_eq (st : State α) :
    ∀ (rest : List Nat) (a : Nat) (fuel : Nat), linksOKH st.heap a rest →
      rest.length < fuel → chainFrom st fuel (some a) = a :: rest := by
  intro rest
  induction rest with
  | nil =>
    intro a fuel ⟨nd, hnd, hnx⟩ hf
    match fuel, hf with
    | f + 1, _ =>
      cases f with
      | zero => simp [chainFrom, hnd, hnx]
      | succ f => simp [chainFrom, hnd, hnx]
  | cons b rest ih =>
    intro a fuel ⟨nd, hnd, hnx, hrest⟩ hf
    match fuel, hf with
    | f + 1, hf =>
      have : rest.length < f := by simpa using hf
      simp [chainFrom, hnd, hnx, ih b f hrest this]

theorem valsOn_congr {st st' : State α} (rest : List Nat)
    (h : ∀ a ∈ rest, getItem st' (some a) = getItem st (some a)) :
    valsOn st' rest = valsOn st rest := by
  unfold valsOn
  induction rest with
  | nil => rfl
  | cons b rest ih =>
    simp only [List.filterMap_cons]
    rw [h b (by simp), ih (fun a ha => h a (by simp [ha]))]

theorem valsOn_append (st : State α) (l1 l2 : List Nat) :
    valsOn st (l1 ++ l2) = valsOn st l1 ++ valsOn st l2 := by
  simp [valsOn, List.filterMap_append]

/-- A nodup list of naturals all below `n` has length at most `n`. -/
theorem length_le_of_nodup_lt {l : List Nat} {n : Nat}
    (hnd : l.Nodup) (hlt : ∀ a ∈ l, a < n) : l.length ≤ n := by
  classical
  have hsub : l.toFinset ⊆ Finset.range n := by
    intro a ha
    simp only [List.mem_toFinset] at ha
    exact Finset.mem_range.mpr (hlt a ha)
  have := Finset.card_le_card hsub
  rwa [List.toFinset_card_of_nodup hnd, Finset.card_range] at this

theorem linksOKH_snoc {h h' : Nat → Option (Node α)} :
    ∀ (a0 : Nat) (rest : List Nat) (w newA : Nat) (newNd : Node α),
      linksOKH h a0 rest →
      w = (a0 :: rest).getLast (List.cons_ne_nil a0 rest) →
      (a0 :: rest).Nodup →
      (∀ a ∈ a0 :: rest, a ≠ newA) →
      (∀ a ∈ a0 :: rest, a ≠ w → h' a = h a) →
      (∀ nd, h w = some nd → h' w = some { nd with next := some newA }) →
      h' newA = some newNd → newNd.next = none →
      linksOKH h' a0 (rest ++ [newA]) := by
  intro a0 rest
  induction rest generalizing a0 with
  | nil =>
    intro w newA newNd ⟨nd, hnd, hnx⟩ hw _ _ _ hupd hnew hnewnx
    have hw' : w = a0 := by simpa using hw
    subst hw'
    exact ⟨{ nd with next := some newA }, hupd nd hnd, rfl, newNd, hnew, hnewnx⟩
  | cons b rest ih =>
    intro w newA newNd ⟨nd, hnd, hnx, hrest⟩ hw hnd2 hfr hag hupd hnew hnewnx
    have hwmem : w ∈ b :: rest := by
      rw [hw, List.getLast_cons (List.cons_ne_nil b rest)]
      exact List.getLast_mem _
    have ha0w : a0 ≠ w := by
      intro hc
      exact (List.nodup_cons.mp hnd2).1 (hc ▸ hwmem)
    refine ⟨nd, (hag a0 (by simp) ha0w).trans hnd, hnx, ?_⟩
    exact ih b w newA newNd hrest
      (by rw [hw, List.getLast_cons (List.cons_ne_nil b rest)])
      (List.nodup_cons.mp hnd2).2
      (fun a ha => hfr a (by simp [List.mem_cons] at ha ⊢; tauto))
      (fun a ha => hag a (by simp [List.mem_cons] at ha ⊢; tauto))
      hupd hnew hnewnx

theorem hpRetire_head (st : State α) (p : Option Nat) (tid : Nat) :
    (hpRetire st p tid).head = st.head := by
  unfold hpRetire; split <;> rfl

theorem hpRetire_tail (st : State α) (p : Option Nat) (tid : Nat) :
    (hpRetire st p tid).tail = st.tail := by
  unfold hpRetire; split <;> rfl

theorem hpRetire_alloc (st : State α) (p : Option Nat) (tid : Nat) :
    (hpRetire st p tid).alloc = st.alloc := by
  unfold hpRetire; split <;> rfl

theorem hpRetire_heap_on (st : State α) (p : Option Nat) (tid : Nat) (a : Nat)
    (h : ∀ q ∈ st.retired tid ++ [p], q ≠ some a) :
    (hpRetire st p tid).heap a = st.heap a := by
  have hm : some a ∉ (st.retired tid ++ [p]).filter (dropRet st) := by
    intro hm
    exact h (some a) (List.mem_of_mem_filter hm) rfl
  unfold hpRetire
  split
  · rfl
  · exact if_neg hm

theorem hpRetire_heap_none_or (st : State α) (p : Option Nat) (tid : Nat) (a : Nat) :
    (hpRetire st p tid).heap a = st.heap a ∨ (hpRetire st p tid).heap a = none := by
  unfold hpRetire
  split
  · left; rfl
  · by_cases hm : some a ∈ (st.retired tid ++ [p]).filter (dropRet st)
    · right; exact if_pos hm
    · left; exact if_neg hm

theorem hpRetire_retired_sub (st : State α) (p : Option Nat) (tid : Nat) :
    ∀ t q, q ∈ (hpRetire st p tid).retired t →
      q ∈ st.retired t ∨ (t = tid ∧ q = p) := by
  intro t q hq
  unfold hpRetire at hq
  split at hq <;> dsimp only at hq <;> by_cases ht : t = tid
  · subst ht
    rw [if_pos rfl] at hq
    rcases List.mem_append.mp hq with h | h
    · exact Or.inl h
    · exact Or.inr ⟨rfl, by simpa using h⟩
  · rw [if_neg ht] at hq
    exact Or.inl hq
  · subst ht
    rw [if_pos rfl] at hq
    rcases List.mem_append.mp (List.mem_of_mem_filter hq) with h | h
    · exact Or.inl h
    · exact Or.inr ⟨rfl, by simpa using h⟩
  · rw [if_neg ht] at hq
    exact Or.inl hq

theorem getLast_cons_append (a0 : Nat) (rest : List Nat) (x : Nat) :
    (a0 :: (rest ++ [x])).getLast (List.cons_ne_nil _ _) = x := by
  induction rest generalizing a0 with
  | nil => rfl
  | cons b rest ih =>
    rw [List.getLast_cons (by simp)]
    exact ih b

theorem enqueue_spec {st : State α} {a0 : Nat} {rest : List Nat}
    (inv : Inv st a0 rest) (v : α) (tid : Nat) :
    ∃ st', enqueue 1 (some v) tid st = .ok st' ∧
      Inv st' a0 (rest ++ [st.alloc]) ∧
      valsOn st' (rest ++ [st.alloc]) = valsOn st rest ++ [v] := by
  obtain ⟨ndw, hw, hwnx⟩ := linksOKH_last a0 rest inv.links
  set w := (a0 :: rest).getLast (List.cons_ne_nil a0 rest) with hwdef
  have hwmem : w ∈ a0 :: rest := List.getLast_mem _
  have hwlt : w < st.alloc := inv.bounded w hwmem
  have hwne : w ≠ st.alloc := Nat.ne_of_lt hwlt
  have hwne2 : st.alloc ≠ w := Ne.symm hwne
  have hanew : ∀ a ∈ a0 :: rest, a ≠ st.alloc := fun a ha => Nat.ne_of_lt (inv.bounded a ha)
  refine ⟨{ st with
      heap := fun b => if b = w then some { ndw with next := some st.alloc }
        else if b = st.alloc then some { item := some v, next := none } else st.heap b
      alloc := st.alloc + 1
      tail := some st.alloc
      hp := fun t i => if t = tid ∧ i < 2 then none
        else if t = tid ∧ i = 0 then st.tail else st.hp t i }, ?_, ?_, ?_⟩
  · simp only [enqueue, allocNode, enqueueLoop, hpStore, getNext, getNode, casNext,
      casTail, hpClear, inv.tail_eq, Option.bind_some]
    simp [hwne, hw, hwnx, inv.tail_eq]
  · refine ⟨by simpa using inv.head_eq, ?_, ?_, ?_, ?_, ?_, ?_, ?_, ?_⟩
    · refine linksOKH_snoc a0 rest w st.alloc { item := some v, next := none }
        inv.links hwdef inv.nodup hanew ?_ ?_ ?_ rfl
      · intro a ha haw
        dsimp only
        rw [if_neg haw, if_neg (hanew a ha)]
      · intro nd hnd
        rw [hw] at hnd
        injection hnd with hnd
        subst hnd
        dsimp only
        rw [if_pos rfl]
      · dsimp only
        rw [if_neg hwne2, if_pos rfl]
    · show some st.alloc = _
      exact congrArg some (getLast_cons_append a0 rest st.alloc).symm
    · have h2 : ((a0 :: rest) ++ [st.alloc]).Nodup := by
        rw [List.nodup_append]
        exact ⟨inv.nodup, by simp,
          fun {a} ha hb => (hanew a ha) (by simpa using hb)⟩
      simpa using h2
    · intro a ha
      show a < st.alloc + 1
      simp at ha
      rcases ha with rfl | ha | rfl
      · exact Nat.lt_succ_of_lt (inv.bounded a (by simp))
      · exact Nat.lt_succ_of_lt (inv.bounded a (by simp [ha]))
      · exact Nat.lt_succ_self _
    · intro a ha
      have ha2 : st.alloc + 1 ≤ a := ha
      have h1 : a ≠ w := by omega
      have h2 : a ≠ st.alloc := by omega
      dsimp only
      rw [if_neg h1, if_neg h2]
      exact inv.fresh a (by omega)
    · intro a ha
      simp at ha
      rcases ha with ha | rfl
      · have halt : a ≠ st.alloc := hanew a (by simp [ha])
        by_cases haw : a = w
        · subst haw
          simpa [getItem, getNode, hw] using inv.items w ha
        · simpa [getItem, getNode, haw, halt] using inv.items a ha
      · simp [getItem, getNode, hwne2]
    · intro t q hq a hqa ha
      have hold := inv.retired_disj t q hq a hqa
      have hbd := inv.retired_bounded t q hq a hqa
      simp at ha
      rcases ha with rfl | ha | rfl
      · exact hold (by simp)
      · exact hold (by simp [ha])
      · omega
    · intro t q hq a hqa
      have := inv.retired_bounded t q hq a hqa
      show a < st.alloc + 1
      omega
  · have h1 : ∀ a ∈ rest, getItem { st with
        heap := fun b => if b = w then some { ndw with next := some st.alloc }
          else if b = st.alloc then some { item := some v, next := none } else st.heap b
        alloc := st.alloc + 1
        tail := some st.alloc
        hp := fun t i => if t = tid ∧ i < 2 then none
          else if t = tid ∧ i = 0 then st.tail else st.hp t i } (some a)
        = getItem st (some a) := by
      intro a ha
      by_cases haw : a = w
      · subst haw
        simp [getItem, getNode, hw]
      · simp [getItem, getNode, haw, hanew a (by simp [ha])]
    rw [valsOn_append, valsOn_congr rest h1]
    congr 1
    simp [valsOn, getItem, getNode, hwne2]

theorem dequeue_empty {st : State α} {a0 : Nat} (inv : Inv st a0 []) (tid : Nat) :
    ∃ st', dequeue 1 tid st = some (none, st') ∧ Inv st' a0 [] ∧
      st'.heap = st.heap ∧ st'.retired = st.retired ∧ st'.alloc = st.alloc := by
  have htl : st.tail = some a0 := by simpa using inv.tail_eq
  refine ⟨{ st with hp := fun t i => if t = tid ∧ i < 2 then none
      else if t = tid ∧ i = 0 then some a0 else st.hp t i }, ?_, ?_, rfl, rfl, rfl⟩
  · simp [dequeue, hpProtect, hpStore, dequeueLoop, hpClear, inv.head_eq, htl]
  · exact ⟨inv.head_eq, inv.links, by simpa using inv.tail_eq, inv.nodup, inv.bounded,
      inv.fresh, inv.items, inv.retired_disj, inv.retired_bounded⟩

theorem dequeue_nonempty {st : State α} {a0 b : Nat} {rest : List Nat}
    (inv : Inv st a0 (b :: rest)) (tid : Nat) :
    ∃ v st', getItem st (some b) = some v ∧
      dequeue 1 tid st = some (some v, st') ∧ Inv st' b rest ∧
      valsOn st' rest = valsOn st rest := by
  obtain ⟨nd0, hnd0, hnx0, hrest⟩ := inv.links
  have hgl : (a0 :: b :: rest).getLast (List.cons_ne_nil _ _)
      = (b :: rest).getLast (List.cons_ne_nil _ _) := List.getLast_cons _
  have htl : st.tail = some ((b :: rest).getLast (List.cons_ne_nil _ _)) := by
    rw [inv.tail_eq]; exact congrArg some hgl
  have ha0 : a0 ∉ b :: rest := (List.nodup_cons.mp inv.nodup).1
  have haw : a0 ≠ (b :: rest).getLast (List.cons_ne_nil _ _) := by
    intro hc
    exact ha0 (hc ▸ List.getLast_mem _)
  obtain ⟨v, hv⟩ := Option.isSome_iff_exists.mp (inv.items b (by simp))
  obtain ⟨ndb, hndb⟩ := linksOKH_mem_heap b rest hrest b (by simp)
  have hvb : ndb.item = some v := by
    simpa [getItem, getNode, hndb] using hv
  have hdisj : ∀ q ∈ st.retired tid ++ [some a0], ∀ a ∈ b :: rest, q ≠ some a := by
    intro q hq a ha
    rcases List.mem_append.mp hq with h | h
    · intro hc
      exact inv.retired_disj tid q h a hc (List.mem_cons_of_mem a0 ha)
    · simp at h
      subst h
      intro hc
      injection hc with hc
      exact ha0 (hc ▸ ha)
  refine ⟨v, hpRetire { st with
      head := some b
      hp := fun t i => if t = tid ∧ i < 2 then none
        else if t = tid ∧ i = 1 then some b
        else if t = tid ∧ i = 0 then some a0 else st.hp t i } (some a0) tid,
    hv, ?_, ?_, ?_⟩
  · simp only [dequeue, hpProtect, hpStore, dequeueLoop, hpClear, getNext, getNode,
      getItem, casHead, inv.head_eq, htl, Option.bind_some]
    simp only [hnd0, hnx0, Option.some_bind]
    rw [if_pos (by simp [haw])]
    simp [hndb, hvb, htl]
  · refine ⟨?_, ?_, ?_, ?_, ?_, ?_, ?_, ?_, ?_⟩
    · rw [hpRetire_head]
    · refine linksOKH_congr b rest ?_ hrest
      intro a ha
      exact hpRetire_heap_on _ (some a0) tid a (fun q hq => hdisj q hq a ha)
    · rw [hpRetire_tail]
      exact htl
    · exact (List.nodup_cons.mp inv.nodup).2
    · intro a ha
      rw [hpRetire_alloc]
      exact inv.bounded a (List.mem_cons_of_mem a0 ha)
    · intro a ha
      rw [hpRetire_alloc] at ha
      rcases hpRetire_heap_none_or { st with
          head := some b
          hp := fun t i => if t = tid ∧ i < 2 then none
            else if t = tid ∧ i = 1 then some b
            else if t = tid ∧ i = 0 then some a0 else st.hp t i } (some a0) tid a with h | h
      · rw [h]
        exact inv.fresh a ha
      · exact h
    · intro a ha
      have heq : ∀ x ∈ b :: rest, (hpRetire { st with
          head := some b
          hp := fun t i => if t = tid ∧ i < 2 then none
            else if t = tid ∧ i = 1 then some b
            else if t = tid ∧ i = 0 then some a0 else st.hp t i } (some a0) tid).heap x = st.heap x :=
        fun x hx => hpRetire_heap_on _ (some a0) tid x (fun q hq => hdisj q hq x hx)
      have := inv.items a (List.mem_cons_of_mem b ha)
      simpa [getItem, getNode, heq a (List.mem_cons_of_mem b ha)] using this
    · intro t q hq a hqa ha
      rcases hpRetire_retired_sub _ (some a0) tid t q hq with h | h
      · exact inv.retired_disj t q h a hqa (List.mem_cons_of_mem a0 ha)
      · have hq0 : q = some a0 := h.2
        rw [hq0] at hqa
        injection hqa with hqa2
        exact ha0 (hqa2 ▸ ha)
    · intro t q hq a hqa
      rw [hpRetire_alloc]
      rcases hpRetire_retired_sub _ (some a0) tid t q hq with h | h
      · exact inv.retired_bounded t q h a hqa
      · have hq0 : q = some a0 := h.2
        rw [hq0] at hqa
        injection hqa with hqa2
        rw [← hqa2]
        exact inv.bounded a0 (by simp)
  · apply valsOn_congr
    intro a ha
    have := hpRetire_heap_on { st with
        head := some b
        hp := fun t i => if t = tid ∧ i < 2 then none
          else if t = tid ∧ i = 1 then some b
          else if t = tid ∧ i = 0 then some a0 else st.hp t i } (some a0) tid a
      (fun q hq => hdisj q hq a (List.mem_cons_of_mem b ha))
    simp [getItem, getNode, this]

/-- No address at or above the allocation counter holds a node. -/
def Fresh (st : State α) : Prop := ∀ a, st.alloc ≤ a → st.heap a = none

/-- Heap-evolution discipline of the queue operations: the allocation
counter only grows, a dead cell below the counter stays dead (addresses are
never reused), and a live node keeps its `next` link once it is non-null —
`next` is written at most once after initialization and never mutated
afterwards. -/
def HeapMono (st st2 : State α) : Prop :=
  st.alloc ≤ st2.alloc ∧
  ∀ a, (st.heap a = none → a < st.alloc → st2.heap a = none) ∧
    ∀ nd, st.heap a = some nd →
      st2.heap a = none ∨ ∃ nd2, st2.heap a = some nd2 ∧
        (nd.next = none ∨ nd2.next = nd.next)

theorem heapMono_of_eq {st st2 : State α} (ha : st2.alloc = st.alloc)
    (hh : ∀ a, st2.heap a = st.heap a) : HeapMono st st2 := by
  refine ⟨by omega, ?_⟩
  intro a
  constructor
  · intro h _
    rw [hh, h]
  · intro nd h
    exact Or.inr ⟨nd, by rw [hh a]; exact h, Or.inr rfl⟩

theorem fresh_of_eq {st st2 : State α} (ha : st2.alloc = st.alloc)
    (hh : ∀ a, st2.heap a = st.heap a) (h : Fresh st) : Fresh st2 := by
  intro a haa
  rw [hh]
  exact h a (by omega)

theorem heapMono_trans {s1 s2 s3 : State α} (f1 : Fresh s1)
    (h1 : HeapMono s1 s2) (h2 : HeapMono s2 s3) : HeapMono s1 s3 := by
  refine ⟨le_trans h1.1 h2.1, ?_⟩
  intro a
  constructor
  · intro h ha
    exact (h2.2 a).1 ((h1.2 a).1 h ha) (lt_of_lt_of_le ha h1.1)
  · intro nd h
    have ha : a < s1.alloc := by
      by_contra hc
      rw [f1 a (by omega)] at h
      exact Option.noConfusion h
    rcases (h1.2 a).2 nd h with h2a | ⟨nd1, hnd1, hx1⟩
    · exact Or.inl ((h2.2 a).1 h2a (lt_of_lt_of_le ha h1.1))
    · rcases (h2.2 a).2 nd1 hnd1 with h3a | ⟨nd2, hnd2, hx2⟩
      · exact Or.inl h3a
      · refine Or.inr ⟨nd2, hnd2, ?_⟩
        rcases hx1 with h | h
        · exact Or.inl h
        · rcases hx2 with h5 | h5
          · exact Or.inl (h ▸ h5)
          · exact Or.inr (h5.trans h)

/-- A single in-place node update whose `next` respects write-once. -/
theorem heapMono_update (st : State α) (c : Nat) (nd nd2 : Node α)
    (hA : st.heap c = some nd)
    (hx : nd.next = none ∨ nd2.next = nd.next) :
    HeapMono st { st with heap := fun b => if b = c then some nd2 else st.heap b } ∧
    (Fresh st → Fresh { st with heap := fun b => if b = c then some nd2 else st.heap b }) := by
  constructor
  · refine ⟨le_refl _, ?_⟩
    intro b
    constructor
    · intro h _
      have hbc : b ≠ c := by
        intro hbc
        rw [hbc, hA] at h
        exact Option.noConfusion h
      show (if b = c then some nd2 else st.heap b) = none
      rw [if_neg hbc]
      exact h
    · intro nd3 h
      by_cases hbc : b = c
      · subst hbc
        rw [hA] at h
        injection h with h
        subst h
        refine Or.inr ⟨nd2, ?_, hx⟩
        show (if b = b then some nd2 else st.heap b) = some nd2
        rw [if_pos rfl]
      · refine Or.inr ⟨nd3, ?_, Or.inr rfl⟩
        show (if b = c then some nd2 else st.heap b) = some nd3
        rw [if_neg hbc]
        exact h
  · intro hf b hb
    have hbc : b ≠ c := by
      intro hbc
      rw [hbc] at hb
      rw [hf c hb] at hA
      exact Option.noConfusion hA
    show (if b = c then some nd2 else st.heap b) = none
    rw [if_neg hbc]
    exact hf b hb

theorem casNext_mono (st : State α) (p val : Option Nat) :
    HeapMono st (casNext st p none val).1 ∧
    (Fresh st → Fresh (casNext st p none val).1) := by
  cases p with
  | none => exact ⟨heapMono_of_eq rfl (fun _ => rfl), fun h => h⟩
  | some c =>
    cases hA : st.heap c with
    | none =>
      have he : (casNext st (some c) none val).1 = st := by
        simp [casNext, hA]
      rw [he]
      exact ⟨heapMono_of_eq rfl (fun _ => rfl), fun h => h⟩
    | some nd =>
      by_cases hc : nd.next = none
      · have he : (casNext st (some c) none val).1
            = { st with heap := fun b => if b = c then some { nd with next := val }
                else st.heap b } := by
          simp [casNext, hA, hc]
        rw [he]
        exact heapMono_update st c nd { nd with next := val } hA (Or.inl hc)
      · have he : (casNext st (some c) none val).1 = st := by
          simp [casNext, hA, hc]
        rw [he]
        exact ⟨heapMono_of_eq rfl (fun _ => rfl), fun h => h⟩

theorem allocNode_mono (st : State α) (v : Option α) (hf : Fresh st) :
    HeapMono st (allocNode st v).1 ∧ Fresh (allocNode st v).1 := by
  constructor
  · refine ⟨Nat.le_succ _, ?_⟩
    intro a
    constructor
    · intro h ha
      show (if a = st.alloc then some { item := v, next := none } else st.heap a) = none
      rw [if_neg (by omega)]
      exact h
    · intro nd h
      have ha : a < st.alloc := by
        by_contra hc
        rw [hf a (by omega)] at h
        exact Option.noConfusion h
      refine Or.inr ⟨nd, ?_, Or.inr rfl⟩
      show (if a = st.alloc then some { item := v, next := none } else st.heap a) = some nd
      rw [if_neg (by omega)]
      exact h
  · intro a ha
    have ha2 : st.alloc + 1 ≤ a := ha
    show (if a = st.alloc then some { item := v, next := none } else st.heap a) = none
    rw [if_neg (by omega)]
    exact hf a (by omega)

theorem hpRetire_mono (st : State α) (p : Option Nat) (tid : Nat) :
    HeapMono st (hpRetire st p tid) ∧ (Fresh st → Fresh (hpRetire st p tid)) := by
  have hh := hpRetire_heap_none_or st p tid
  have ha : (hpRetire st p tid).alloc = st.alloc := hpRetire_alloc st p tid
  constructor
  · refine ⟨by omega, ?_⟩
    intro a
    constructor
    · intro h _
      rcases hh a with h2 | h2
      · rw [h2]
        exact h
      · exact h2
    · intro nd h
      rcases hh a with h2 | h2
      · exact Or.inr ⟨nd, by rw [h2]; exact h, Or.inr rfl⟩
      · exact Or.inl h2
  · intro hf a haa
    rw [ha] at haa
    rcases hh a with h2 | h2
    · rw [h2]
      exact hf a haa
    · exact h2

theorem casHead_state (st : State α) (c v : Option Nat) :
    (casHead st c v).1.heap = st.heap ∧ (casHead st c v).1.alloc = st.alloc := by
  unfold casHead
  split <;> exact ⟨rfl, rfl⟩

theorem casTail_state (st : State α) (c v : Option Nat) :
    (casTail st c v).1.heap = st.heap ∧ (casTail st c v).1.alloc = st.alloc := by
  unfold casTail
  split <;> exact ⟨rfl, rfl⟩

theorem hpProtect_state (st : State α) (tid idx : Nat) (p : Option Nat) :
    (hpProtect st tid idx p).heap = st.heap ∧ (hpProtect st tid idx p).alloc = st.alloc := by
  unfold hpProtect
  cases p <;> exact ⟨rfl, rfl⟩

theorem enqueueLoop_mono (tid nn : Nat) :
    ∀ (fuel : Nat) (st : State α), Fresh st → ∀ st2, enqueueLoop tid nn fuel st = .ok st2 →
      HeapMono st st2 ∧ Fresh st2 := by
  intro fuel
  induction fuel with
  | zero =>
    intro st _ st2 h
    exact absurd h (by simp [enqueueLoop])
  | succ f ih =>
    intro st hf st2 h
    simp only [enqueueLoop] at h
    rw [if_pos trivial] at h
    have hf1 : Fresh (hpStore st tid 0 st.tail) := hf
    cases hnx : getNext (hpStore st tid 0 st.tail) (hpStore st tid 0 st.tail).tail with
    | none =>
      rw [hnx] at h
      have hm1 := casNext_mono (hpStore st tid 0 st.tail) (hpStore st tid 0 st.tail).tail
        (some nn)
      have hm1b : HeapMono st
          (casNext (hpStore st tid 0 st.tail) (hpStore st tid 0 st.tail).tail none
            (some nn)).1 := hm1.1
      by_cases hb : (casNext (hpStore st tid 0 st.tail) (hpStore st tid 0 st.tail).tail
          none (some nn)).2
      · rw [if_pos hb] at h
        injection h with h
        subst h
        have hcs := casTail_state (casNext (hpStore st tid 0 st.tail)
          (hpStore st tid 0 st.tail).tail none (some nn)).1
          (hpStore st tid 0 st.tail).tail (some nn)
        constructor
        · exact heapMono_trans hf hm1b (heapMono_of_eq hcs.2 (fun a => congrFun hcs.1 a))
        · exact fresh_of_eq hcs.2 (fun a => congrFun hcs.1 a) (hm1.2 hf1)
      · rw [if_neg hb] at h
        obtain ⟨hmr, hfr⟩ := ih _ (hm1.2 hf1) st2 h
        exact ⟨heapMono_trans hf hm1b hmr, hfr⟩
    | some lnext =>
      rw [hnx] at h
      have hcs := casTail_state (hpStore st tid 0 st.tail) (hpStore st tid 0 st.tail).tail
        (some lnext)
      have hfr : Fresh (casTail (hpStore st tid 0 st.tail) (hpStore st tid 0 st.tail).tail
          (some lnext)).1 :=
        fresh_of_eq hcs.2 (fun a => congrFun hcs.1 a) hf1
      obtain ⟨hmr, hfr2⟩ := ih _ hfr st2 h
      refine ⟨heapMono_trans hf (heapMono_of_eq hcs.2 (fun a => congrFun hcs.1 a)) hmr, hfr2⟩

/-- `MichaelScottQueue::enqueue` respects the heap discipline: freshness of
unallocated addresses is preserved and no existing node has a non-null
`next` link changed. -/
theorem enqueue_mono (fuel : Nat) (v : α) (tid : Nat) (st : State α) (hf : Fresh st)
    (st2 : State α) (h : enqueue fuel (some v) tid st = .ok st2) :
    HeapMono st st2 ∧ Fresh st2 := by
  simp only [enqueue] at h
  have hm1 := allocNode_mono st (some v) hf
  obtain ⟨hmr, hfr⟩ := enqueueLoop_mono tid (allocNode st (some v)).2 fuel
    (allocNode st (some v)).1 hm1.2 st2 h
  exact ⟨heapMono_trans hf hm1.1 hmr, hfr⟩

theorem dequeueLoop_mono (tid : Nat) :
    ∀ (fuel : Nat) (node : Option Nat) (st : State α), Fresh st →
      ∀ r st2, dequeueLoop tid fuel node st = some (r, st2) →
      HeapMono st st2 ∧ Fresh st2 := by
  intro fuel
  induction fuel with
  | zero =>
    intro node st _ r st2 h
    exact absurd h (by simp [dequeueLoop])
  | succ f ih =>
    intro node st hf r st2 h
    simp only [dequeueLoop] at h
    by_cases hnt : node ≠ st.tail
    · rw [if_pos hnt] at h
      have hps := hpProtect_state st tid 1 (getNext st node)
      have hf1 : Fresh (hpProtect st tid 1 (getNext st node)) :=
        fresh_of_eq hps.2 (fun a => congrFun hps.1 a) hf
      have hcs := casHead_state (hpProtect st tid 1 (getNext st node)) node
        (getNext st node)
      have hch : (casHead (hpProtect st tid 1 (getNext st node)) node
          (getNext st node)).1.heap = st.heap := hcs.1.trans hps.1
      have hca : (casHead (hpProtect st tid 1 (getNext st node)) node
          (getNext st node)).1.alloc = st.alloc := hcs.2.trans hps.2
      by_cases hb : (casHead (hpProtect st tid 1 (getNext st node)) node
          (getNext st node)).2
      · rw [if_pos hb] at h
        injection h with h
        rw [Prod.mk.injEq] at h
        obtain ⟨h1, h2⟩ := h
        subst h2
        have hfr : Fresh (hpClear (casHead (hpProtect st tid 1 (getNext st node)) node
            (getNext st node)).1 tid) :=
          fresh_of_eq hca (fun a => congrFun hch a) hf
        have hm2 := hpRetire_mono (hpClear (casHead (hpProtect st tid 1 (getNext st node))
          node (getNext st node)).1 tid) node tid
        constructor
        · exact heapMono_trans hf (heapMono_of_eq hca (fun a => congrFun hch a)) hm2.1
        · exact hm2.2 hfr
      · rw [if_neg hb] at h
        have hps2 := hpProtect_state (casHead (hpProtect st tid 1 (getNext st node)) node
          (getNext st node)).1 tid 0 (casHead (hpProtect st tid 1 (getNext st node)) node
          (getNext st node)).1.head
        have hfr : Fresh (hpProtect (casHead (hpProtect st tid 1 (getNext st node)) node
            (getNext st node)).1 tid 0 (casHead (hpProtect st tid 1 (getNext st node)) node
            (getNext st node)).1.head) :=
          fresh_of_eq (hps2.2.trans hca) (fun a => congrFun (hps2.1.trans hch) a) hf
        obtain ⟨hmr, hfr2⟩ := ih _ _ hfr r st2 h
        refine ⟨heapMono_trans hf
          (heapMono_of_eq (hps2.2.trans hca) (fun a => congrFun (hps2.1.trans hch) a))
          hmr, hfr2⟩
    · rw [if_neg hnt] at h
      injection h with h
      rw [Prod.mk.injEq] at h
      obtain ⟨h1, h2⟩ := h
      subst h2
      exact ⟨heapMono_of_eq rfl (fun _ => rfl), hf⟩

/-- `MichaelScottQueue::dequeue` respects the heap discipline. -/
theorem dequeue_mono (fuel tid : Nat) (st : State α) (hf : Fresh st)
    (r : Option α) (st2 : State α) (h : dequeue fuel tid st = some (r, st2)) :
    HeapMono st st2 ∧ Fresh st2 := by
  simp only [dequeue] at h
  have hps := hpProtect_state st tid 0 st.head
  have hf1 : Fresh (hpProtect st tid 0 st.head) :=
    fresh_of_eq hps.2 (fun a => congrFun hps.1 a) hf
  obtain ⟨hmr, hfr⟩ := dequeueLoop_mono tid fuel st.head (hpProtect st tid 0 st.head)
    hf1 r st2 h
  exact ⟨heapMono_trans hf (heapMono_of_eq hps.2 (fun a => congrFun hps.1 a)) hmr, hfr⟩

/-- A history operation on the queue: enqueue a value or dequeue. -/
inductive Op (α : Type) where
  | enq (v : α) (tid : Nat)
  | deq (tid : Nat)

/-- The values enqueued by a history, in order. -/
def enqVals : List (Op α) → List α
  | [] => []
  | .enq v _ :: ops => v :: enqVals ops
  | .deq _ :: ops => enqVals ops

/-- Execute a history sequentially, one complete operation at a time; each
dequeue's return value is recorded in order (`none` = Absent = nullptr).
Fuel 1 suffices for each operation from a well-formed state; the fallback
branches are unreachable there. -/
def run : List (Op α) → State α → State α × List (Option α)
  | [], st => (st, [])
  | .enq v tid :: ops, st =>
    match enqueue 1 (some v) tid st with
    | .ok st1 => run ops st1
    | .error _ => run ops st
  | .deq tid :: ops, st =>
    match dequeue 1 tid st with
    | some (r, st1) =>
      let t := run ops st1
      (t.1, r :: t.2)
    | none => run ops st

/-- The non-Absent results among the recorded dequeue outputs. -/
def deqVals (outs : List (Option α)) : List α := outs.filterMap id

theorem newQueue_inv (α : Type) (mt thr : Nat) : Inv (newQueue α mt thr) 0 [] := by
  refine ⟨rfl, ⟨{ item := none, next := none }, rfl, rfl⟩, rfl, by simp, ?_, ?_, ?_, ?_, ?_⟩
  · intro a ha
    simp at ha
    simp [ha, newQueue]
  · intro a ha
    have ha2 : 1 ≤ a := ha
    simp only [newQueue]
    rw [if_neg (by omega)]
  · intro a ha
    simp at ha
  · intro t q hq
    simp [newQueue] at hq
  · intro t q hq
    simp [newQueue] at hq

theorem run_spec : ∀ (ops : List (Op α)) (st : State α) (a0 : Nat) (rest : List Nat),
    Inv st a0 rest →
    ∃ a1 rest1, Inv (run ops st).1 a1 rest1 ∧
      valsOn st rest ++ enqVals ops
        = deqVals (run ops st).2 ++ valsOn (run ops st).1 rest1 := by
  intro ops
  induction ops with
  | nil =>
    intro st a0 rest inv
    exact ⟨a0, rest, inv, by simp [run, enqVals, deqVals]⟩
  | cons op ops ih =>
    intro st a0 rest inv
    cases op with
    | enq v tid =>
      obtain ⟨st1, heq, hinv1, hvals⟩ := enqueue_spec inv v tid
      obtain ⟨a1, rest1, hinv2, hrel⟩ := ih st1 a0 (rest ++ [st.alloc]) hinv1
      have hrun : run (Op.enq v tid :: ops) st = run ops st1 := by
        simp [run, heq]
      refine ⟨a1, rest1, by rw [hrun]; exact hinv2, ?_⟩
      rw [hrun]
      calc valsOn st rest ++ enqVals (Op.enq v tid :: ops)
          = (valsOn st rest ++ [v]) ++ enqVals ops := by simp [enqVals]
        _ = valsOn st1 (rest ++ [st.alloc]) ++ enqVals ops := by rw [hvals]
        _ = deqVals (run ops st1).2 ++ valsOn (run ops st1).1 rest1 := hrel
    | deq tid =>
      cases rest with
      | nil =>
        obtain ⟨st1, heq, hinv1, _, _, _⟩ := dequeue_empty inv tid
        obtain ⟨a1, rest1, hinv2, hrel⟩ := ih st1 a0 [] hinv1
        have hrun : run (Op.deq tid :: ops) st
            = ((run ops st1).1, none :: (run ops st1).2) := by
          simp [run, heq]
        refine ⟨a1, rest1, by rw [hrun]; exact hinv2, ?_⟩
        rw [hrun]
        simpa [enqVals, deqVals, valsOn] using hrel
      | cons b rest' =>
        obtain ⟨v, st1, hvb, heq, hinv1, hvals⟩ := dequeue_nonempty inv tid
        obtain ⟨a1, rest1, hinv2, hrel⟩ := ih st1 b rest' hinv1
        have hrun : run (Op.deq tid :: ops) st
            = ((run ops st1).1, some v :: (run ops st1).2) := by
          simp [run, heq]
        refine ⟨a1, rest1, by rw [hrun]; exact hinv2, ?_⟩
        rw [hrun]
        have hcons : valsOn st (b :: rest') = v :: valsOn st rest' := by
          simp [valsOn, List.filterMap_cons, hvb]
        rw [hcons]
        have : valsOn st rest' ++ enqVals ops
            = deqVals (run ops st1).2 ++ valsOn (run ops st1).1 rest1 := by
          rw [← hvals]; exact hrel
        simpa [enqVals, deqVals] using this

theorem remaining_eq {st : State α} {a0 : Nat} {rest : List Nat} (inv : Inv st a0 rest) :
    remaining st = valsOn st rest := by
  have hlen : (a0 :: rest).length ≤ st.alloc :=
    length_le_of_nodup_lt inv.nodup inv.bounded
  have hchain : chainFrom st st.alloc st.head = a0 :: rest := by
    rw [inv.head_eq]
    exact chainFrom_eq st rest a0 st.alloc inv.links (by simpa using hlen)
  rw [remaining, hchain]
  simp [valsOn]

/-- Sequential conservation for `MichaelScottQueue`: over any history from a
fresh queue, the enqueued values are exactly the dequeued values followed by
the values still in the node chain. -/
theorem ms_run_conservation (ops : List (Op α)) (mt thr : Nat) :
    enqVals ops
      = deqVals (run ops (newQueue α mt thr)).2
        ++ remaining (run ops (newQueue α mt thr)).1 := by
  obtain ⟨a1, rest1, hinv, hrel⟩ := run_spec ops (newQueue α mt thr) 0 [] (newQueue_inv α mt thr)
  rw [remaining_eq hinv]
  simpa [valsOn] using hrel

theorem newQueue_fresh (α : Type) (mt thr : Nat) : Fresh (newQueue α mt thr) := by
  intro a ha
  have ha2 : 1 ≤ a := ha
  simp only [newQueue]
  rw [if_neg (by omega)]

/-- The retry loop of `enqueue` can only fail for lack of fuel, never with
`invalid_argument`: the null check happens before the loop. -/
theorem enqueueLoop_no_invalid (tid nn : Nat) :
    ∀ (fuel : Nat) (st : State α),
      enqueueLoop tid nn fuel st ≠ .error .invalidArgument := by
  intro fuel
  induction fuel with
  | zero =>
    intro st h
    simp [enqueueLoop] at h
  | succ f ih =>
    intro st h
    simp only [enqueueLoop] at h
    rw [if_pos trivial] at h
    cases hnx : getNext (hpStore st tid 0 st.tail) (hpStore st tid 0 st.tail).tail with
    | none =>
      rw [hnx] at h
      by_cases hb : (casNext (hpStore st tid 0 st.tail) (hpStore st tid 0 st.tail).tail
          none (some nn)).2
      · rw [if_pos hb] at h
        exact Except.noConfusion h
      · rw [if_neg hb] at h
        exact ih _ h
    | some lnext =>
      rw [hnx] at h
      exact ih _ h

/-- A `MichaelScottQueue` holding one item: value 42 in node 1 right after
the sentinel 0. -/
def demoQueue : State Nat :=
  { heap := fun a => if a = 0 then some { item := none, next := some 1 }
      else if a = 1 then some { item := some 42, next := none } else none
    alloc := 2
    head := some 0
    tail := some 1
    maxThreads := 1
    hp := fun _ _ => none
    retired := fun _ => []
    thresholdR := 0 }

theorem demoQueue_inv : Inv demoQueue 0 [1] := by
  refine ⟨rfl, ⟨_, rfl, rfl, _, rfl, rfl⟩, rfl, by decide, ?_, ?_, ?_, ?_, ?_⟩
  · intro a ha
    simp at ha
    rcases ha with rfl | rfl <;> decide
  · intro a ha
    have ha2 : 2 ≤ a := ha
    simp only [demoQueue]
    rw [if_neg (by omega), if_neg (by omega)]
  · intro a ha
    simp at ha
    subst ha
    decide
  · intro t q hq
    have hq2 : q ∈ ([] : List (Option Nat)) := hq
    simp at hq2
  · intro t q hq
    have hq2 : q ∈ ([] : List (Option Nat)) := hq
    simp at hq2

end MSQ

namespace CRQ

/-- `MAX_THREADS` from CRTurnQueue.hpp: the fixed capacity of the
`enqueuers`/`deqself`/`deqhelp` arrays (and the constructor default). -/
def MAX_THREADS : Nat := 128

/-- `IDX_NONE` from CRTurnQueue.hpp. -/
def IDX_NONE : Int := -1

/-- A `CRTurnQueue<T>::Node`: item pointer, the (const) enqueuer id, the
atomic one-shot `deqTid` tag (initially `IDX_NONE`), the atomic `next` link. -/
structure Node (α : Type) where
  item : Option α
  enqTid : Nat
  deqTid : Int
  next : Option Nat

/-- State of a `CRTurnQueue<T>` instance with its embedded
`HazardPointers<Node> hp {3, maxThreads}`: node heap and allocation counter,
`head`/`tail`, the `enqueuers`/`deqself`/`deqhelp` announcement arrays, the
`sentinelNode` field remembered for the destructor, the hazard-slot table,
the retirement lists and threshold of the spec-modelled registry, and an
instrumentation counter `casCnt` counting every `compare_exchange_strong`
attempt the operations issue. -/
@[ext]
structure State (α : Type) where
  heap : Nat → Option (Node α)
  alloc : Nat
  head : Option Nat
  tail : Option Nat
  maxThreads : Nat
  enqueuers : Nat → Option Nat
  deqself : Nat → Option Nat
  deqhelp : Nat → Option Nat
  sentinelNode : Option Nat
  hp : Nat → Nat → Option Nat
  retired : Nat → List (Option Nat)
  thresholdR : Nat
  casCnt : Nat

def getNode (st : State α) (p : Option Nat) : Option (Node α) :=
  p.bind st.heap

/-- `p->next.load()` (null/dangling dereference modelled as null, as in
`MSQ.getNext`; never relied on under the invariant). -/
def getNext (st : State α) (p : Option Nat) : Option Nat :=
  (getNode st p).bind Node.next

def getItem (st : State α) (p : Option Nat) : Option α :=
  (getNode st p).bind Node.item

/-- `p->enqTid` (dangling default 0). -/
def getEnqTid (st : State α) (p : Option Nat) : Nat :=
  match getNode st p with
  | some nd => nd.enqTid
  | none => 0

/-- `p->deqTid.load()` (dangling default `IDX_NONE`). -/
def getDeqTid (st : State α) (p : Option Nat) : Int :=
  match getNode st p with
  | some nd => nd.deqTid
  | none => IDX_NONE

/-- `new Node(item, tid)`: `deqTid = IDX_NONE`, `next = nullptr`. -/
def allocNode (st : State α) (item : Option α) (tid : Nat) : State α × Nat :=
  ({ st with
      heap := fun b => if b = st.alloc
        then some { item := item, enqTid := tid, deqTid := IDX_NONE, next := none }
        else st.heap b
      alloc := st.alloc + 1 },
    st.alloc)

/-- `node->next.compare_exchange_strong(cmp, val)`; counts one CAS attempt.
A null/dangling node pointer is modelled as a failed CAS. -/
def casNodeNext (st : State α) (p : Option Nat) (cmp val : Option Nat) :
    State α × Bool :=
  match p with
  | none => ({ st with casCnt := st.casCnt + 1 }, false)
  | some a =>
    match st.heap a with
    | none => ({ st with casCnt := st.casCnt + 1 }, false)
    | some nd =>
      if nd.next = cmp then
        ({ st with
            heap := fun b => if b = a then some { nd with next := val } else st.heap b
            casCnt := st.casCnt + 1 }, true)
      else ({ st with casCnt := st.casCnt + 1 }, false)

/-- `node->casDeqTid(cmp, val)`; counts one CAS attempt. -/
def casDeqTid (st : State α) (p : Option Nat) (cmp val : Int) : State α × Bool :=
  match p with
  | none => ({ st with casCnt := st.casCnt + 1 }, false)
  | some a =>
    match st.heap a with
    | none => ({ st with casCnt := st.casCnt + 1 }, false)
    | some nd =>
      if nd.deqTid = cmp then
        ({ st with
            heap := fun b => if b = a then some { nd with deqTid := val } else st.heap b
            casCnt := st.casCnt + 1 }, true)
      else ({ st with casCnt := st.casCnt + 1 }, false)

/-- `head.compare_exchange_strong(cmp, val)`; counts one CAS attempt. -/
def casHead (st : State α) (cmp val : Option Nat) : State α × Bool :=
  if st.head = cmp then ({ st with head := val, casCnt := st.casCnt + 1 }, true)
  else ({ st with casCnt := st.casCnt + 1 }, false)

/-- `tail.compare_exchange_strong(cmp, val)`; counts one CAS attempt. -/
def casTail (st : State α) (cmp val : Option Nat) : State α × Bool :=
  if st.tail = cmp then ({ st with tail := val, casCnt := st.casCnt + 1 }, true)
  else ({ st with casCnt := st.casCnt + 1 }, false)

/-- `enqueuers[i].compare_exchange_strong(cmp, val)`; counts one CAS attempt. -/
def casEnqueuers (st : State α) (i : Nat) (cmp val : Option Nat) : State α × Bool :=
  if st.enqueuers i = cmp then
    ({ st with
        enqueuers := fun k => if k = i then val else st.enqueuers k
        casCnt := st.casCnt + 1 }, true)
  else ({ st with casCnt := st.casCnt + 1 }, false)

/-- `deqhelp[i].compare_exchange_strong(cmp, val)`; counts one CAS attempt. -/
def casDeqhelp (st : State α) (i : Nat) (cmp val : Option Nat) : State α × Bool :=
  if st.deqhelp i = cmp then
    ({ st with
        deqhelp := fun k => if k = i then val else st.deqhelp k
        casCnt := st.casCnt + 1 }, true)
  else ({ st with casCnt := st.casCnt + 1 }, false)

/-- `hp.protectPtr(index, ptr, tid)`: unconditional store into the slot. -/
def hpStore (st : State α) (tid idx : Nat) (p : Option Nat) : State α :=
  { st with hp := fun t i => if t = tid ∧ i = idx then p else st.hp t i }

/-- `hp.clear(tid)` for the three-slot registry `HazardPointers<Node> hp {3, _}`. -/
def hpClear (st : State α) (tid : Nat) : State α :=
  { st with hp := fun t i => if t = tid ∧ i < 3 then none else st.hp t i }

/-- The registry scan's protection check over the three slots per thread. -/
def hpProtectedBy (st : State α) (a : Nat) : Bool :=
  (List.range st.maxThreads).any fun t =>
    (List.range 3).any fun i => st.hp t i == some a

def dropRet (st : State α) (q : Option Nat) : Bool :=
  match q with
  | none => true
  | some a => ! hpProtectedBy st a

/-- Modelled from the spec: `HazardPointers.hpp` is not under src/; per the
spec, `retire(node, tid)` appends to the thread's retirement list and, once
the list exceeds a threshold, scans every thread's hazard slots and frees any
retired node referenced by none of them. -/
def hpRetire (st : State α) (p : Option Nat) (tid : Nat) : State α :=
  if (st.retired tid ++ [p]).length ≤ st.thresholdR then
    { st with retired := fun t => if t = tid then st.retired tid ++ [p] else st.retired t }
  else
    { st with
      heap := fun a =>
        if some a ∈ (st.retired tid ++ [p]).filter (dropRet st) then none else st.heap a
      retired := fun t =>
        if t = tid then (st.retired tid ++ [p]).filter (fun q => ! dropRet st q)
        else st.retired t }

/-- The `for (int idx = turn+1; idx < turn+maxThreads+1; idx++)` scan of
`searchNext`, recursing on the remaining iteration count with the current
`idx`: skip an index whose thread has no pending request
(`deqself[idDeq] != deqhelp[idDeq]`), otherwise CAS `lnext->deqTid` from
`IDX_NONE` (if still unset) and break. -/
def searchNextScan (st : State α) (lnext : Option Nat) : Int → Nat → State α
  | _, 0 => st
  | idx, count + 1 =>
    let idDeq := (idx % (st.maxThreads : Int)).toNat
    if st.deqself idDeq ≠ st.deqhelp idDeq then
      searchNextScan st lnext (idx + 1) count
    else if getDeqTid st lnext = IDX_NONE then
      (casDeqTid st lnext IDX_NONE (idDeq : Int)).1
    else st

/-- `CRTurnQueue::searchNext(lhead, lnext)`: scan the `maxThreads` indices
starting at `lhead->deqTid + 1`, then return `lnext->deqTid.load()`. -/
def searchNext (st : State α) (lhead lnext : Option Nat) : State α × Int :=
  let turn := getDeqTid st lhead
  let st1 := searchNextScan st lnext (turn + 1) st.maxThreads
  (st1, getDeqTid st1 lnext)

/-- `CRTurnQueue::casDeqAndHead(lhead, lnext, tid)`. -/
def casDeqAndHead (st : State α) (lhead lnext : Option Nat) (tid : Nat) : State α :=
  let ldeqTid := getDeqTid st lnext
  if ldeqTid = (tid : Int) then
    let st1 := { st with deqhelp := fun i => if i = tid then lnext else st.deqhelp i }
    (casHead st1 lhead lnext).1
  else
    let idx := ldeqTid.toNat
    let ldeqhelp := st.deqhelp idx
    let st1 := hpStore st tid 2 ldeqhelp
    let st2 :=
      if ldeqhelp ≠ lnext ∧ lhead = st1.head then (casDeqhelp st1 idx ldeqhelp lnext).1
      else st1
    (casHead st2 lhead lnext).1

/-- `CRTurnQueue::giveUp(myReq, tid)`. -/
def giveUp (st : State α) (myReq : Option Nat) (tid : Nat) : State α :=
  let lhead := st.head
  if st.deqhelp tid ≠ myReq ∨ lhead = st.tail then st
  else
    let st1 := hpStore st tid 0 lhead
    if lhead ≠ st1.head then st1
    else
      let lnext := getNext st1 lhead
      let st2 := hpStore st1 tid 1 lnext
      if lhead ≠ st2.head then st2
      else
        let r := searchNext st2 lhead lnext
        let st3 :=
          if r.2 = IDX_NONE then (casDeqTid r.1 lnext IDX_NONE (tid : Int)).1 else r.1
        casDeqAndHead st3 lhead lnext tid

/-- The `for (int j = 1; j < maxThreads+1; j++)` help loop of `enqueue`:
find the first announced enqueue starting after the tail's enqueuer id and
CAS it into `ltail->next`, then break. -/
def helpEnqScan (st : State α) (ltail : Option Nat) (etid : Nat) : Nat → Nat → State α
  | _, 0 => st
  | j, count + 1 =>
    match st.enqueuers ((j + etid) % st.maxThreads) with
    | none => helpEnqScan st ltail etid (j + 1) count
    | some nodeToHelp => (casNodeNext st ltail none (some nodeToHelp)).1

/-- The `for (int i = 0; i < maxThreads; i++)` helping loop of
`CRTurnQueue::enqueue`; the Bool is true when the loop returned early
(someone completed the operation, `hp.clear` already done). -/
def enqueueLoop (tid : Nat) : Nat → State α → State α × Bool
  | 0, st => (st, false)
  | fuel + 1, st =>
    if st.enqueuers tid = none then (hpClear st tid, true)
    else
      let ltail := st.tail
      let st1 := hpStore st tid 0 ltail      -- hp.protectPtr(kHpTail, tail.load(), tid)
      if ltail ≠ st1.tail then enqueueLoop tid fuel st1
      else
        let etid := getEnqTid st1 ltail
        let st2 :=
          if st1.enqueuers etid = ltail then (casEnqueuers st1 etid ltail none).1
          else st1
        let st3 := helpEnqScan st2 ltail etid 1 st2.maxThreads
        let st4 :=
          match getNext st3 ltail with
          | none => st3
          | some nx => (casTail st3 ltail (some nx)).1
        enqueueLoop tid fuel st4

inductive Err
  | invalidArgument
deriving DecidableEq

/-- `CRTurnQueue::enqueue(item, tid)`: null check, allocate, publish in
`enqueuers[tid]`, run the bounded helping loop, then step 4 (clear the
announcement) and `hp.clear` unless the loop already returned. -/
def enqueue (item : Option α) (tid : Nat) (st : State α) : Except Err (State α) :=
  match item with
  | none => .error .invalidArgument      -- throw std::invalid_argument
  | some v =>
    let r := allocNode st (some v) tid
    let st1 := { r.1 with enqueuers := fun i => if i = tid then some r.2 else r.1.enqueuers i }
    let r2 := enqueueLoop tid st1.maxThreads st1
    if r2.2 then .ok r2.1
    else
      let st2 := { r2.1 with enqueuers := fun i => if i = tid then none else r2.1.enqueuers i }
      .ok (hpClear st2 tid)

/-- The `for (int i = 0; i < maxThreads; i++)` loop of `CRTurnQueue::dequeue`;
the Bool is true when the loop returned `nullptr` early (empty-queue path,
`hp.clear` already done). -/
def dequeueLoop (tid : Nat) (myReq prReq : Option Nat) : Nat → State α → State α × Bool
  | 0, st => (st, false)
  | fuel + 1, st =>
    if st.deqhelp tid ≠ myReq then (st, false)          -- break
    else
      let lhead := st.head
      let st1 := hpStore st tid 0 lhead                 -- hp.protectPtr(kHpHead, head.load(), tid)
      if lhead ≠ st1.head then dequeueLoop tid myReq prReq fuel st1
      else if lhead = st1.tail then
        let st2 := { st1 with deqself := fun i => if i = tid then prReq else st1.deqself i }
        let st3 := giveUp st2 myReq tid
        if st3.deqhelp tid ≠ myReq then
          let st4 := { st3 with deqself := fun i => if i = tid then myReq else st3.deqself i }
          (st4, false)                                  -- break
        else
          (hpClear st3 tid, true)                       -- return nullptr
      else
        let lnext := getNext st1 lhead
        let st2 := hpStore st1 tid 1 lnext              -- hp.protectPtr(kHpNext, ...)
        if lhead ≠ st2.head then dequeueLoop tid myReq prReq fuel st2
        else
          let r := searchNext st2 lhead lnext
          let st3 := if r.2 ≠ IDX_NONE then casDeqAndHead r.1 lhead lnext tid else r.1
          dequeueLoop tid myReq prReq fuel st3

/-- `CRTurnQueue::dequeue(tid)`: publish the request, run the bounded loop,
then do step 4 if needed, clear, retire the previous request node and return
`myNode->item`. -/
def dequeue (tid : Nat) (st : State α) : Option α × State α :=
  let prReq := st.deqself tid
  let myReq := st.deqhelp tid
  let st1 := { st with deqself := fun i => if i = tid then myReq else st.deqself i }
  let r := dequeueLoop tid myReq prReq st1.maxThreads st1
  if r.2 then (none, r.1)
  else
    let st2 := r.1
    let myNode := st2.deqhelp tid
    let lhead := st2.head
    let st3 := hpStore st2 tid 0 lhead
    let st4 :=
      if lhead = st3.head ∧ myNode = getNext st3 lhead then (casHead st3 lhead myNode).1
      else st3
    let st5 := hpClear st4 tid
    let st6 := hpRetire st5 prReq tid
    (getItem st6 myNode, st6)

/-- The `CRTurnQueue(maxThreads)` constructor: sentinel node at address 0,
`head = tail = sentinel`, null `enqueuers`, and fresh dummy nodes
`new Node(nullptr, 0)` in every `deqself[i]`/`deqhelp[i]` (addresses `1+2i`
and `2+2i`). -/
def newQueue (α : Type) (maxThreads thresholdR : Nat) : State α :=
  { heap := fun a => if a < 1 + 2 * maxThreads
      then some { item := none, enqTid := 0, deqTid := IDX_NONE, next := none }
      else none
    alloc := 1 + 2 * maxThreads
    head := some 0
    tail := some 0
    maxThreads := maxThreads
    enqueuers := fun _ => none
    deqself := fun i => some (1 + 2 * i)
    deqhelp := fun i => some (2 + 2 * i)
    sentinelNode := some 0
    hp := fun _ _ => none
    retired := fun _ => []
    thresholdR := thresholdR
    casCnt := 0 }

/-- The node chain of the queue as a predicate on the heap (same shape as
`MSQ.linksOKH`, for the richer CR node type). -/
def linksOKH (heap : Nat → Option (Node α)) : Nat → List Nat → Prop
  | a, [] => ∃ nd, heap a = some nd ∧ nd.next = none
  | a, b :: rest => ∃ nd, heap a = some nd ∧ nd.next = some b ∧ linksOKH heap b rest

/-- The queue's abstract contents relative to a chain. -/
def valsOn (st : State α) (rest : List Nat) : List α :=
  rest.filterMap fun a => getItem st (some a)

/-- Sequential well-formedness of a `CRTurnQueue` state between operations:
the chain from the sentinel `a0` through `rest` to `tail`; address freshness;
every non-sentinel chain node holds an item, a null (`IDX_NONE`) `deqTid` tag
and an in-range `enqTid`; the head node's `deqTid` is in `[-1, maxThreads)`;
no enqueue announcement is pending; each thread's `deqself`/`deqhelp` request
nodes are allocated, mutually distinct, off the chain (`deqhelp` may equal the
sentinel) and distinct across threads; retired pointers are dead: off-chain,
below the allocation counter and unequal to every request pointer. -/
structure Inv (st : State α) (a0 : Nat) (rest : List Nat) : Prop where
  mt_pos : 0 < st.maxThreads
  head_eq : st.head = some a0
  links : linksOKH st.heap a0 rest
  tail_eq : st.tail = some ((a0 :: rest).getLast (List.cons_ne_nil a0 rest))
  nodup : (a0 :: rest).Nodup
  bounded : ∀ a ∈ a0 :: rest, a < st.alloc
  fresh : ∀ a, st.alloc ≤ a → st.heap a = none
  items : ∀ a ∈ rest, (getItem st (some a)).isSome
  head_deqTid : -1 ≤ getDeqTid st (some a0) ∧ getDeqTid st (some a0) < (st.maxThreads : Int)
  rest_deqTid : ∀ a ∈ rest, getDeqTid st (some a) = IDX_NONE
  enqTid_lt : ∀ a ∈ a0 :: rest, getEnqTid st (some a) < st.maxThreads
  enq_none : ∀ t, st.enqueuers t = none
  self_off : ∀ t, t < st.maxThreads → ∃ a, st.deqself t = some a ∧ a < st.alloc ∧ a ∉ a0 :: rest
  help_off : ∀ t, t < st.maxThreads →
      ∃ a, st.deqhelp t = some a ∧ a < st.alloc ∧ (a = a0 ∨ a ∉ a0 :: rest)
  req_ne : ∀ t, st.deqself t ≠ st.deqhelp t
  self_inj : ∀ t, t < st.maxThreads → ∀ u, u < st.maxThreads →
      st.deqself t = st.deqself u → t = u
  help_inj : ∀ t, t < st.maxThreads → ∀ u, u < st.maxThreads →
      st.deqhelp t = st.deqhelp u → t = u
  cross_ne : ∀ t, t < st.maxThreads → ∀ u, u < st.maxThreads → st.deqself t ≠ st.deqhelp u
  retired_off : ∀ t q, q ∈ st.retired t → ∀ a, q = some a →
      a < st.alloc ∧ a ∉ a0 :: rest ∧
      ∀ u, u < st.maxThreads → st.deqself u ≠ some a ∧ st.deqhelp u ≠ some a

theorem cr_linksOKH_congr {h h' : Nat → Option (Node α)} :
    ∀ (a0 : Nat) (rest : List Nat), (∀ a ∈ a0 :: rest, h' a = h a) →
      linksOKH h a0 rest → linksOKH h' a0 rest := by
  intro a0 rest
  induction rest generalizing a0 with
  | nil =>
    intro hag ⟨nd, hnd, hnx⟩
    exact ⟨nd, (hag a0 (by simp)).trans hnd, hnx⟩
  | cons b rest ih =>
    intro hag ⟨nd, hnd, hnx, hrest⟩
    refine ⟨nd, (hag a0 (by simp)).trans hnd, hnx, ih b ?_ hrest⟩
    intro a ha
    exact hag a (by simp at ha ⊢; tauto)

theorem cr_linksOKH_last {h : Nat → Option (Node α)} :
    ∀ (a0 : Nat) (rest : List Nat), linksOKH h a0 rest →
      ∃ nd, h ((a0 :: rest).getLast (List.cons_ne_nil a0 rest)) = some nd ∧ nd.next = none := by
  intro a0 rest
  induction rest generalizing a0 with
  | nil => intro hk; simpa using hk
  | cons b rest ih =>
    intro ⟨nd, _, _, hrest⟩
    simpa [List.getLast_cons] using ih b hrest

theorem cr_linksOKH_mem_heap {h : Nat → Option (Node α)} :
    ∀ (a0 : Nat) (rest : List Nat), linksOKH h a0 rest →
      ∀ a ∈ a0 :: rest, ∃ nd, h a = some nd := by
  intro a0 rest
  induction rest generalizing a0 with
  | nil =>
    intro ⟨nd, hnd, _⟩ a ha
    simp at ha; subst ha; exact ⟨nd, hnd⟩
  | cons b rest ih =>
    intro ⟨nd, hnd, _, hrest⟩ a ha
    simp at ha
    rcases ha with rfl | ha
    · exact ⟨nd, hnd⟩
    · exact ih b hrest a (by simpa using ha)

theorem cr_valsOn_congr {st st' : State α} (rest : List Nat)
    (h : ∀ a ∈ rest, getItem st' (some a) = getItem st (some a)) :
    valsOn st' rest = valsOn st rest := by
  unfold valsOn
  induction rest with
  | nil => rfl
  | cons b rest ih =>
    simp only [List.filterMap_cons]
    rw [h b (by simp), ih (fun a ha => h a (by simp [ha]))]

theorem cr_valsOn_append (st : State α) (l1 l2 : List Nat) :
    valsOn st (l1 ++ l2) = valsOn st l1 ++ valsOn st l2 := by
  simp [valsOn, List.filterMap_append]

theorem cr_hpRetire_head (st : State α) (p : Option Nat) (tid : Nat) :
    (hpRetire st p tid).head = st.head := by
  unfold hpRetire; split <;> rfl

theorem cr_hpRetire_tail (st : State α) (p : Option Nat) (tid : Nat) :
    (hpRetire st p tid).tail = st.tail := by
  unfold hpRetire; split <;> rfl

theorem cr_hpRetire_alloc (st : State α) (p : Option Nat) (tid : Nat) :
    (hpRetire st p tid).alloc = st.alloc := by
  unfold hpRetire; split <;> rfl

theorem hpRetire_mt (st : State α) (p : Option Nat) (tid : Nat) :
    (hpRetire st p tid).maxThreads = st.maxThreads := by
  unfold hpRetire; split <;> rfl

theorem hpRetire_enqueuers (st : State α) (p : Option Nat) (tid : Nat) :
    (hpRetire st p tid).enqueuers = st.enqueuers := by
  unfold hpRetire; split <;> rfl

theorem hpRetire_deqself (st : State α) (p : Option Nat) (tid : Nat) :
    (hpRetire st p tid).deqself = st.deqself := by
  unfold hpRetire; split <;> rfl

theorem hpRetire_deqhelp (st : State α) (p : Option Nat) (tid : Nat) :
    (hpRetire st p tid).deqhelp = st.deqhelp := by
  unfold hpRetire; split <;> rfl

theorem hpRetire_casCnt (st : State α) (p : Option Nat) (tid : Nat) :
    (hpRetire st p tid).casCnt = st.casCnt := by
  unfold hpRetire; split <;> rfl

theorem linksOKH_congr_next {h h' : Nat → Option (Node α)} :
    ∀ (a0 : Nat) (rest : List Nat),
      (∀ a ∈ a0 :: rest, ∀ nd, h a = some nd →
        ∃ nd', h' a = some nd' ∧ nd'.next = nd.next) →
      linksOKH h a0 rest → linksOKH h' a0 rest := by
  intro a0 rest
  induction rest generalizing a0 with
  | nil =>
    intro hag ⟨nd, hnd, hnx⟩
    obtain ⟨nd', hnd', hnx'⟩ := hag a0 (by simp) nd hnd
    exact ⟨nd', hnd', hnx'.trans hnx⟩
  | cons b rest ih =>
    intro hag ⟨nd, hnd, hnx, hrest⟩
    obtain ⟨nd', hnd', hnx'⟩ := hag a0 (by simp) nd hnd
    refine ⟨nd', hnd', hnx'.trans hnx, ih b ?_ hrest⟩
    intro a ha
    exact hag a (by simp at ha ⊢; tauto)

theorem cr_hpRetire_heap_on (st : State α) (p : Option Nat) (tid : Nat) (a : Nat)
    (h : ∀ q ∈ st.retired tid ++ [p], q ≠ some a) :
    (hpRetire st p tid).heap a = st.heap a := by
  have hm : some a ∉ (st.retired tid ++ [p]).filter (dropRet st) := by
    intro hm
    exact h (some a) (List.mem_of_mem_filter hm) rfl
  unfold hpRetire
  split
  · rfl
  · exact if_neg hm

theorem cr_hpRetire_heap_none_or (st : State α) (p : Option Nat) (tid : Nat) (a : Nat) :
    (hpRetire st p tid).heap a = st.heap a ∨ (hpRetire st p tid).heap a = none := by
  unfold hpRetire
  split
  · left; rfl
  · by_cases hm : some a ∈ (st.retired tid ++ [p]).filter (dropRet st)
    · right; exact if_pos hm
    · left; exact if_neg hm

theorem cr_hpRetire_retired_sub (st : State α) (p : Option Nat) (tid : Nat) :
    ∀ t q, q ∈ (hpRetire st p tid).retired t →
      q ∈ st.retired t ∨ (t = tid ∧ q = p) := by
  intro t q hq
  unfold hpRetire at hq
  split at hq <;> dsimp only at hq <;> by_cases ht : t = tid
  · subst ht
    rw [if_pos rfl] at hq
    rcases List.mem_append.mp hq with h | h
    · exact Or.inl h
    · exact Or.inr ⟨rfl, by simpa using h⟩
  · rw [if_neg ht] at hq
    exact Or.inl hq
  · subst ht
    rw [if_pos rfl] at hq
    rcases List.mem_append.mp (List.mem_of_mem_filter hq) with h | h
    · exact Or.inl h
    · exact Or.inr ⟨rfl, by simpa using h⟩
  · rw [if_neg ht] at hq
    exact Or.inl hq

theorem getNode_congr {st st' : State α} (hheap : ∀ a, st'.heap a = st.heap a)
    (p : Option Nat) : getNode st' p = getNode st p := by
  cases p <;> simp [getNode, hheap]

/-- Rebuild the invariant across a state whose observable components agree
pointwise with the old one. -/
theorem Inv.transport {st st' : State α} {a0 : Nat} {rest : List Nat}
    (inv : Inv st a0 rest)
    (hmt : st'.maxThreads = st.maxThreads)
    (hhead : st'.head = st.head)
    (htail : st'.tail = st.tail)
    (halloc : st'.alloc = st.alloc)
    (hheap : ∀ a, st'.heap a = st.heap a)
    (henq : ∀ t, st'.enqueuers t = st.enqueuers t)
    (hself : ∀ t, st'.deqself t = st.deqself t)
    (hhelp : ∀ t, st'.deqhelp t = st.deqhelp t)
    (hret : ∀ t, st'.retired t = st.retired t) :
    Inv st' a0 rest := by
  have hnode : ∀ p, getNode st' p = getNode st p := getNode_congr hheap
  have hitem : ∀ p, getItem st' p = getItem st p := by intro p; simp [getItem, hnode]
  have hdeq : ∀ p, getDeqTid st' p = getDeqTid st p := by intro p; simp [getDeqTid, hnode]
  have henqt : ∀ p, getEnqTid st' p = getEnqTid st p := by intro p; simp [getEnqTid, hnode]
  refine ⟨hmt ▸ inv.mt_pos, hhead ▸ inv.head_eq,
    cr_linksOKH_congr a0 rest (fun a _ => hheap a) inv.links,
    htail ▸ inv.tail_eq, inv.nodup, ?_, ?_, ?_, ?_, ?_, ?_, ?_, ?_, ?_, ?_, ?_, ?_, ?_, ?_⟩
  · intro a ha; rw [halloc]; exact inv.bounded a ha
  · intro a ha; rw [hheap]; exact inv.fresh a (halloc ▸ ha)
  · intro a ha; rw [hitem]; exact inv.items a ha
  · rw [hdeq, hmt]; exact inv.head_deqTid
  · intro a ha; rw [hdeq]; exact inv.rest_deqTid a ha
  · intro a ha; rw [henqt, hmt]; exact inv.enqTid_lt a ha
  · intro t; rw [henq]; exact inv.enq_none t
  · intro t ht
    obtain ⟨a, h1, h2, h3⟩ := inv.self_off t (hmt ▸ ht)
    exact ⟨a, (hself t).trans h1, halloc ▸ h2, h3⟩
  · intro t ht
    obtain ⟨a, h1, h2, h3⟩ := inv.help_off t (hmt ▸ ht)
    exact ⟨a, (hhelp t).trans h1, halloc ▸ h2, h3⟩
  · intro t; rw [hself, hhelp]; exact inv.req_ne t
  · intro t ht u hu h
    exact inv.self_inj t (hmt ▸ ht) u (hmt ▸ hu) ((hself t).symm.trans (h.trans (hself u)))
  · intro t ht u hu h
    exact inv.help_inj t (hmt ▸ ht) u (hmt ▸ hu) ((hhelp t).symm.trans (h.trans (hhelp u)))
  · intro t ht u hu
    rw [hself, hhelp]
    exact inv.cross_ne t (hmt ▸ ht) u (hmt ▸ hu)
  · intro t q hq a hqa
    rw [hret] at hq
    obtain ⟨h1, h2, h3⟩ := inv.retired_off t q hq a hqa
    refine ⟨halloc ▸ h1, h2, ?_⟩
    intro u hu
    rw [hself, hhelp]
    exact h3 u (hmt ▸ hu)

theorem int_emod_small (x mt : Int) (h0 : 0 ≤ x) (h1 : x < 2 * mt) :
    x % mt = if x < mt then x else x - mt := by
  split
  · exact Int.emod_eq_of_lt h0 (by assumption)
  · have h3 : x % mt = ((x - mt) + mt * 1) % mt := by congr 1; ring
    rw [h3, Int.add_mul_emod_self_left]
    exact Int.emod_eq_of_lt (by omega) (by omega)

theorem nat_mod_small (x mt : Nat) (_h0 : 0 < mt) (h1 : x < 2 * mt) :
    x % mt = if x < mt then x else x - mt := by
  split
  · exact Nat.mod_eq_of_lt (by assumption)
  · rw [Nat.mod_eq_sub_mod (by omega)]
    exact Nat.mod_eq_of_lt (by omega)

/-- The `searchNext` scan, started at an index whose first request hit (a
thread `idDeq` with `deqself[idDeq] == deqhelp[idDeq]`) is the caller `tid`
after `k` skipped indices, performs exactly the conditional
`casDeqTid(IDX_NONE, tid)` of the source and stops. -/
theorem searchNextScan_eq (st : State α) (lnext : Option Nat) (tid : Nat)
    (hne : ∀ u, u < st.maxThreads → u ≠ tid → st.deqself u ≠ st.deqhelp u)
    (heq : st.deqself tid = st.deqhelp tid)
    (hmt : 0 < st.maxThreads) :
    ∀ (k : Nat) (count : Nat) (idx : Int),
      k < count →
      (∀ j : Nat, j < k → ((idx + j) % (st.maxThreads : Int)).toNat ≠ tid) →
      ((idx + k) % (st.maxThreads : Int)).toNat = tid →
      searchNextScan st lnext idx count =
        if getDeqTid st lnext = IDX_NONE
        then (casDeqTid st lnext IDX_NONE (tid : Int)).1 else st := by
  intro k
  induction k with
  | zero =>
    intro count idx hkc _ hhit
    match count, hkc with
    | c + 1, _ =>
      simp only [Nat.cast_zero, add_zero] at hhit
      simp only [searchNextScan]
      rw [hhit, if_neg (by simp [heq])]
  | succ k ih =>
    intro count idx hkc hskip hhit
    match count, hkc with
    | c + 1, hkc =>
      have h0 : ((idx + ((0 : Nat) : Int)) % (st.maxThreads : Int)).toNat ≠ tid :=
        hskip 0 (Nat.succ_pos k)
      simp only [Nat.cast_zero, add_zero] at h0
      have hlt : ((idx % (st.maxThreads : Int))).toNat < st.maxThreads := by
        have h1 : 0 ≤ idx % (st.maxThreads : Int) :=
          Int.emod_nonneg idx (by exact_mod_cast hmt.ne')
        have h2 : idx % (st.maxThreads : Int) < (st.maxThreads : Int) :=
          Int.emod_lt_of_pos idx (by exact_mod_cast hmt)
        omega
      simp only [searchNextScan]
      rw [if_pos (hne _ hlt h0)]
      refine ih c (idx + 1) (by omega) ?_ ?_
      · intro j hj
        have h2 := hskip (j + 1) (by omega)
        rw [show idx + ((j + 1 : Nat) : Int) = idx + 1 + (j : Int) by push_cast; ring] at h2
        exact h2
      · have h2 := hhit
        rw [show idx + ((k + 1 : Nat) : Int) = (idx + 1) + ((k : Nat) : Int) by push_cast; ring] at h2
        exact h2

/-- Existence of the first hit (`idDeq = tid`) in the `maxThreads` indices
the `searchNext` scan visits. -/
theorem searchNext_hit_exists (mt tid : Nat) (τ : Int) (hmt : 0 < mt) (htid : tid < mt)
    (hτ1 : -1 ≤ τ) (hτ2 : τ < (mt : Int)) :
    ∃ k : Nat, k < mt ∧ ((τ + 1 + k) % (mt : Int)).toNat = tid ∧
      ∀ j : Nat, j < k → ((τ + 1 + j) % (mt : Int)).toNat ≠ tid := by
  by_cases hc : τ + 1 ≤ (tid : Int)
  · refine ⟨((tid : Int) - (τ + 1)).toNat, by omega, ?_, ?_⟩
    · rw [int_emod_small _ _ (by omega) (by omega)]
      split <;> omega
    · intro j hj
      rw [int_emod_small _ _ (by omega) (by omega)]
      split <;> omega
  · refine ⟨((mt : Int) + tid - (τ + 1)).toNat, by omega, ?_, ?_⟩
    · rw [int_emod_small _ _ (by omega) (by omega)]
      split <;> omega
    · intro j hj
      rw [int_emod_small _ _ (by omega) (by omega)]
      split <;> omega

/-- The enqueue help scan with no pending announcement falls through with no
effect. -/
theorem helpEnqScan_none (st : State α) (ltail : Option Nat) (etid : Nat)
    (h : ∀ u, st.enqueuers u = none) :
    ∀ (count j : Nat), helpEnqScan st ltail etid j count = st := by
  intro count
  induction count with
  | zero => intro j; rfl
  | succ c ih =>
    intro j
    rw [helpEnqScan, h ((j + etid) % st.maxThreads)]
    exact ih (j + 1)

/-- The enqueue help scan, when the only pending announcement is
`enqueuers[tid] = some n` and the first index mapping to `tid` comes after `k`
skipped ones, performs exactly `ltail->next.CAS(nullptr, n)` and stops. -/
theorem helpEnqScan_eq (st : State α) (ltail : Option Nat) (etid tid n : Nat)
    (hother : ∀ u, u ≠ tid → st.enqueuers u = none)
    (hsome : st.enqueuers tid = some n) :
    ∀ (k count j : Nat),
      k < count →
      (∀ i : Nat, i < k → (j + i + etid) % st.maxThreads ≠ tid) →
      (j + k + etid) % st.maxThreads = tid →
      helpEnqScan st ltail etid j count = (casNodeNext st ltail none (some n)).1 := by
  intro k
  induction k with
  | zero =>
    intro count j hkc _ hhit
    match count, hkc with
    | c + 1, _ =>
      simp only [Nat.add_zero] at hhit
      rw [helpEnqScan, hhit, hsome]
  | succ k ih =>
    intro count j hkc hskip hhit
    match count, hkc with
    | c + 1, hkc =>
      have h0 : (j + etid) % st.maxThreads ≠ tid := by
        have := hskip 0 (Nat.succ_pos k)
        simpa using this
      rw [helpEnqScan, hother _ h0]
      refine ih c (j + 1) (by omega) ?_ ?_
      · intro i hi
        have h2 := hskip (i + 1) (by omega)
        rw [show j + (i + 1) + etid = j + 1 + i + etid by omega] at h2
        exact h2
      · rw [show j + 1 + k = j + (k + 1) by omega]
        exact hhit

/-- Existence of the first hit (`(j + etid) % maxThreads = tid`) in the
`maxThreads` indices `j = 1 .. maxThreads` the enqueue help scan visits. -/
theorem helpEnq_hit_exists (mt tid etid : Nat) (hmt : 0 < mt) (htid : tid < mt)
    (hetid : etid < mt) :
    ∃ k : Nat, k < mt ∧ (1 + k + etid) % mt = tid ∧
      ∀ i : Nat, i < k → (1 + i + etid) % mt ≠ tid := by
  by_cases hc : etid < tid
  · refine ⟨tid - etid - 1, by omega, ?_, ?_⟩
    · rw [nat_mod_small _ _ hmt (by omega)]
      split <;> omega
    · intro i hi
      rw [nat_mod_small _ _ hmt (by omega)]
      split <;> omega
  · refine ⟨mt + tid - etid - 1, by omega, ?_, ?_⟩
    · rw [nat_mod_small _ _ hmt (by omega)]
      split <;> omega
    · intro i hi
      rw [nat_mod_small _ _ hmt (by omega)]
      split <;> omega

theorem cr_linksOKH_snoc {h h' : Nat → Option (Node α)} :
    ∀ (a0 : Nat) (rest : List Nat) (w newA : Nat) (newNd : Node α),
      linksOKH h a0 rest →
      w = (a0 :: rest).getLast (List.cons_ne_nil a0 rest) →
      (a0 :: rest).Nodup →
      (∀ a ∈ a0 :: rest, a ≠ newA) →
      (∀ a ∈ a0 :: rest, a ≠ w → h' a = h a) →
      (∀ nd, h w = some nd → h' w = some { nd with next := some newA }) →
      h' newA = some newNd → newNd.next = none →
      linksOKH h' a0 (rest ++ [newA]) := by
  intro a0 rest
  induction rest generalizing a0 with
  | nil =>
    intro w newA newNd ⟨nd, hnd, hnx⟩ hw _ _ _ hupd hnew hnewnx
    have hw' : w = a0 := by simpa using hw
    subst hw'
    exact ⟨{ nd with next := some newA }, hupd nd hnd, rfl, newNd, hnew, hnewnx⟩
  | cons b rest ih =>
    intro w newA newNd ⟨nd, hnd, hnx, hrest⟩ hw hnd2 hfr hag hupd hnew hnewnx
    have hwmem : w ∈ b :: rest := by
      rw [hw, List.getLast_cons (List.cons_ne_nil b rest)]
      exact List.getLast_mem _
    have ha0w : a0 ≠ w := by
      intro hc
      exact (List.nodup_cons.mp hnd2).1 (hc ▸ hwmem)
    refine ⟨nd, (hag a0 (by simp) ha0w).trans hnd, hnx, ?_⟩
    exact ih b w newA newNd hrest
      (by rw [hw, List.getLast_cons (List.cons_ne_nil b rest)])
      (List.nodup_cons.mp hnd2).2
      (fun a ha => hfr a (by simp [List.mem_cons] at ha ⊢; tauto))
      (fun a ha => hag a (by simp [List.mem_cons] at ha ⊢; tauto))
      hupd hnew hnewnx

/-- Transport of the invariant and contents across the canonical effect of a
sequential enqueue: one fresh node (`next = nullptr`, `deqTid = IDX_NONE`)
linked behind the old last node, tail advanced, no announcement pending. -/
theorem inv_append {st st' : State α} {a0 : Nat} {rest : List Nat} {v : α}
    {tid : Nat} {ndw : Node α}
    (inv : Inv st a0 rest) (htid : tid < st.maxThreads)
    (hw : st.heap ((a0 :: rest).getLast (List.cons_ne_nil a0 rest)) = some ndw)
    (hmt : st'.maxThreads = st.maxThreads)
    (hhead : st'.head = st.head)
    (htail : st'.tail = some st.alloc)
    (halloc : st'.alloc = st.alloc + 1)
    (hheap : ∀ b, st'.heap b =
      if b = (a0 :: rest).getLast (List.cons_ne_nil a0 rest)
      then some { ndw with next := some st.alloc }
      else if b = st.alloc
      then some { item := some v, enqTid := tid, deqTid := IDX_NONE, next := none }
      else st.heap b)
    (henq : ∀ t, st'.enqueuers t = none)
    (hself : ∀ t, st'.deqself t = st.deqself t)
    (hhelp : ∀ t, st'.deqhelp t = st.deqhelp t)
    (hret : ∀ t, st'.retired t = st.retired t) :
    Inv st' a0 (rest ++ [st.alloc]) ∧
      valsOn st' (rest ++ [st.alloc]) = valsOn st rest ++ [v] := by
  set w := (a0 :: rest).getLast (List.cons_ne_nil a0 rest) with hwdef
  have hwmem : w ∈ a0 :: rest := List.getLast_mem _
  have hwlt : w < st.alloc := inv.bounded w hwmem
  have hwne : w ≠ st.alloc := Nat.ne_of_lt hwlt
  have hwne2 : st.alloc ≠ w := Ne.symm hwne
  have hanew : ∀ a ∈ a0 :: rest, a ≠ st.alloc := fun a ha => Nat.ne_of_lt (inv.bounded a ha)
  have hsame : ∀ a ∈ a0 :: rest, a ≠ w → st'.heap a = st.heap a := by
    intro a ha haw
    rw [hheap, if_neg haw, if_neg (hanew a ha)]
  have hsamew : st'.heap w = some { ndw with next := some st.alloc } := by
    rw [hheap, if_pos rfl]
  have hsamen : st'.heap st.alloc
      = some { item := some v, enqTid := tid, deqTid := IDX_NONE, next := none } := by
    rw [hheap, if_neg hwne2, if_pos rfl]
  have hitem_pres : ∀ a ∈ a0 :: rest, getItem st' (some a) = getItem st (some a) := by
    intro a ha
    by_cases haw : a = w
    · subst haw
      simp [getItem, getNode, hsamew, hw]
    · simp [getItem, getNode, hsame a ha haw]
  have hdeq_pres : ∀ a ∈ a0 :: rest, getDeqTid st' (some a) = getDeqTid st (some a) := by
    intro a ha
    by_cases haw : a = w
    · subst haw
      simp [getDeqTid, getNode, hsamew, hw]
    · simp [getDeqTid, getNode, hsame a ha haw]
  have henqt_pres : ∀ a ∈ a0 :: rest, getEnqTid st' (some a) = getEnqTid st (some a) := by
    intro a ha
    by_cases haw : a = w
    · subst haw
      simp [getEnqTid, getNode, hsamew, hw]
    · simp [getEnqTid, getNode, hsame a ha haw]
  constructor
  · refine ⟨hmt ▸ inv.mt_pos, hhead ▸ inv.head_eq, ?_, ?_, ?_, ?_, ?_, ?_, ?_, ?_, ?_,
      henq, ?_, ?_, ?_, ?_, ?_, ?_, ?_⟩
    · refine cr_linksOKH_snoc a0 rest w st.alloc
        { item := some v, enqTid := tid, deqTid := IDX_NONE, next := none }
        inv.links hwdef inv.nodup hanew hsame ?_ hsamen rfl
      intro nd hnd
      rw [hw] at hnd
      injection hnd with hnd
      subst hnd
      exact hsamew
    · rw [htail]
      exact congrArg some (MSQ.getLast_cons_append a0 rest st.alloc).symm
    · have h2 : ((a0 :: rest) ++ [st.alloc]).Nodup := by
        rw [List.nodup_append]
        exact ⟨inv.nodup, by simp,
          fun {a} ha hb => (hanew a ha) (by simpa using hb)⟩
      simpa using h2
    · intro a ha
      rw [halloc]
      simp at ha
      rcases ha with rfl | ha | rfl
      · exact Nat.lt_succ_of_lt (inv.bounded a (by simp))
      · exact Nat.lt_succ_of_lt (inv.bounded a (by simp [ha]))
      · exact Nat.lt_succ_self _
    · intro a ha
      rw [halloc] at ha
      rw [hheap, if_neg (by omega), if_neg (by omega)]
      exact inv.fresh a (by omega)
    · intro a ha
      simp at ha
      rcases ha with ha | rfl
      · rw [hitem_pres a (by simp [ha])]
        exact inv.items a ha
      · simp [getItem, getNode, hsamen]
    · rw [hdeq_pres a0 (by simp), hmt]
      exact inv.head_deqTid
    · intro a ha
      simp at ha
      rcases ha with ha | rfl
      · rw [hdeq_pres a (by simp [ha])]
        exact inv.rest_deqTid a ha
      · simp [getDeqTid, getNode, hsamen]
    · intro a ha
      simp at ha
      rcases ha with rfl | ha | rfl
      · rw [henqt_pres a (by simp), hmt]
        exact inv.enqTid_lt a (by simp)
      · rw [henqt_pres a (by simp [ha]), hmt]
        exact inv.enqTid_lt a (by simp [ha])
      · rw [hmt]
        simpa [getEnqTid, getNode, hsamen] using htid
    · intro t ht
      obtain ⟨a, h1, h2, h3⟩ := inv.self_off t (hmt ▸ ht)
      refine ⟨a, (hself t).trans h1, by omega, ?_⟩
      intro hc
      simp at hc
      rcases hc with rfl | hc | rfl
      · exact h3 (by simp)
      · exact h3 (by simp [hc])
      · omega
    · intro t ht
      obtain ⟨a, h1, h2, h3⟩ := inv.help_off t (hmt ▸ ht)
      refine ⟨a, (hhelp t).trans h1, by omega, ?_⟩
      rcases h3 with h3 | h3
      · exact Or.inl h3
      · refine Or.inr ?_
        intro hc
        simp at hc
        rcases hc with rfl | hc | rfl
        · exact h3 (by simp)
        · exact h3 (by simp [hc])
        · omega
    · intro t
      rw [hself, hhelp]
      exact inv.req_ne t
    · intro t ht u hu h
      exact inv.self_inj t (hmt ▸ ht) u (hmt ▸ hu) ((hself t).symm.trans (h.trans (hself u)))
    · intro t ht u hu h
      exact inv.help_inj t (hmt ▸ ht) u (hmt ▸ hu) ((hhelp t).symm.trans (h.trans (hhelp u)))
    · intro t ht u hu
      rw [hself, hhelp]
      exact inv.cross_ne t (hmt ▸ ht) u (hmt ▸ hu)
    · intro t q hq a hqa
      rw [hret] at hq
      obtain ⟨h1, h2, h3⟩ := inv.retired_off t q hq a hqa
      refine ⟨by omega, ?_, ?_⟩
      · intro hc
        simp at hc
        rcases hc with rfl | hc | rfl
        · exact h2 (by simp)
        · exact h2 (by simp [hc])
        · omega
      · intro u hu
        rw [hself, hhelp]
        exact h3 u (hmt ▸ hu)
  · rw [cr_valsOn_append, cr_valsOn_congr rest (fun a ha => hitem_pres a (by simp [ha]))]
    congr 1
    simp [valsOn, getItem, getNode, hsamen]

/-- Effect of one round of the enqueue helping loop run by the announcing
thread itself on a quiescent queue: the announced node gets linked into
`tail->next` (one successful CAS) and the tail advanced (another), after
protecting the tail in slot `kHpTail`. -/
theorem enqueueLoop_step {S : State α} {tid w n : Nat} {ndw : Node α} (fuel : Nat)
    (hpend : S.enqueuers tid = some n)
    (htail : S.tail = some w)
    (hwheap : S.heap w = some ndw)
    (hwnx : ndw.next = none)
    (hwn : w ≠ n)
    (hother : ∀ u, u ≠ tid → S.enqueuers u = none)
    (hmt : 0 < S.maxThreads) (htid : tid < S.maxThreads)
    (hetid : getEnqTid S (some w) < S.maxThreads) :
    enqueueLoop tid (fuel + 1) S =
      enqueueLoop tid fuel
        { S with
          heap := fun b => if b = w then some { ndw with next := some n } else S.heap b
          tail := some n
          hp := fun t i => if t = tid ∧ i = 0 then some w else S.hp t i
          casCnt := S.casCnt + 1 + 1 } := by
  have hetid' : ndw.enqTid < S.maxThreads := by
    simpa [getEnqTid, getNode, hwheap] using hetid
  obtain ⟨k, hk, hhit, hskip⟩ :=
    helpEnq_hit_exists S.maxThreads tid ndw.enqTid hmt htid hetid'
  have hcond : S.enqueuers ndw.enqTid ≠ some w := by
    by_cases he : ndw.enqTid = tid
    · rw [he, hpend]
      simp [Ne.symm hwn]
    · rw [hother _ he]
      simp
  simp only [enqueueLoop, hpend, hpStore]
  rw [if_neg (by simp)]
  rw [if_neg (by simp)]
  simp only [htail, getEnqTid, getNode, Option.some_bind, hwheap]
  rw [if_neg hcond]
  rw [helpEnqScan_eq
    { S with tail := some w, hp := fun t i => if t = tid ∧ i = 0 then some w else S.hp t i }
    (some w) ndw.enqTid tid n (fun u hu => hother u hu) hpend k _ 1 hk
    (fun i hi => hskip i hi) hhit]
  simp only [casNodeNext, hwheap, hwnx, reduceIte]
  simp only [getNext, getNode, Option.some_bind, if_pos rfl]
  simp only [casTail, htail, if_pos rfl]
  rfl

/-- Effect of the second round: the thread observes its own node as the tail
and clears its announcement (step 4) with one successful CAS; the help scan
then finds nothing and the tail is final. -/
theorem enqueueLoop_step2 {S : State α} {tid n : Nat} {N : Node α} (fuel : Nat)
    (hpend : S.enqueuers tid = some n)
    (htail : S.tail = some n)
    (hnheap : S.heap n = some N)
    (hNenq : N.enqTid = tid)
    (hNnx : N.next = none)
    (hother : ∀ u, u ≠ tid → S.enqueuers u = none) :
    enqueueLoop tid (fuel + 1) S =
      enqueueLoop tid fuel
        { S with
          enqueuers := fun i => if i = tid then none else S.enqueuers i
          hp := fun t i => if t = tid ∧ i = 0 then some n else S.hp t i
          casCnt := S.casCnt + 1 } := by
  simp only [enqueueLoop, hpend, hpStore]
  rw [if_neg (by simp)]
  rw [if_neg (by simp)]
  simp only [htail, getEnqTid, getNode, Option.some_bind, hnheap, hNenq]
  rw [if_pos (by simpa using hpend)]
  simp only [casEnqueuers]
  rw [if_pos (by simpa using hpend)]
  rw [helpEnqScan_none _ _ _ ?hall]
  case hall =>
    intro u
    by_cases hu : u = tid
    · simp [hu]
    · simp [hu, hother u hu]
  simp only [getNext, getNode, Option.some_bind, hnheap, hNnx]

/-- Once the announcement is cleared, the remaining rounds and the postlude
of `enqueue` amount to `hp.clear(tid)`. -/
theorem enqueueLoop_done {S : State α} (tid : Nat) (h : S.enqueuers tid = none) (fuel : Nat) :
    (if (enqueueLoop tid fuel S).2 then (enqueueLoop tid fuel S).1
     else hpClear { (enqueueLoop tid fuel S).1 with
        enqueuers := fun i => if i = tid then none
          else (enqueueLoop tid fuel S).1.enqueuers i } tid)
    = hpClear S tid := by
  cases fuel with
  | zero =>
    simp only [enqueueLoop]
    have h2 : (fun i => if i = tid then none else S.enqueuers i) = S.enqueuers := by
      funext i
      by_cases hi : i = tid
      · simp [hi, h]
      · simp [hi]
    simp [h2]
  | succ f =>
    simp only [enqueueLoop, h]
    simp

/-- Sequential `CRTurnQueue::enqueue` on a well-formed queue: returns
normally, appends the announced value to the chain and preserves the
invariant (the loop completes in at most two working rounds; the remaining
rounds are inert). -/
theorem cr_enqueue_spec {st : State α} {a0 : Nat} {rest : List Nat}
    (inv : Inv st a0 rest) (v : α) (tid : Nat) (htid : tid < st.maxThreads) :
    ∃ st', enqueue (some v) tid st = .ok st' ∧
      st'.maxThreads = st.maxThreads ∧
      Inv st' a0 (rest ++ [st.alloc]) ∧
      valsOn st' (rest ++ [st.alloc]) = valsOn st rest ++ [v] := by
  obtain ⟨ndw, hw, hwnx⟩ := cr_linksOKH_last a0 rest inv.links
  set w := (a0 :: rest).getLast (List.cons_ne_nil a0 rest) with hwdef
  have hwmem : w ∈ a0 :: rest := List.getLast_mem _
  have hwlt : w < st.alloc := inv.bounded w hwmem
  have hwne : w ≠ st.alloc := Nat.ne_of_lt hwlt
  have hmtpos : 0 < st.maxThreads := inv.mt_pos
  obtain ⟨m, hm⟩ : ∃ m, st.maxThreads = m + 1 := ⟨st.maxThreads - 1, by omega⟩
  simp only [enqueue, allocNode]
  set ST2 : State α := { st with
      heap := fun b => if b = st.alloc
        then some { item := some v, enqTid := tid, deqTid := IDX_NONE, next := none }
        else st.heap b
      alloc := st.alloc + 1
      enqueuers := fun i => if i = tid then some st.alloc else st.enqueuers i }
    with hST2
  set D1 : State α := { st with
      heap := fun b => if b = w then some { ndw with next := some st.alloc }
        else if b = st.alloc
        then some { item := some v, enqTid := tid, deqTid := IDX_NONE, next := none }
        else st.heap b
      alloc := st.alloc + 1
      tail := some st.alloc
      enqueuers := fun i => if i = tid then some st.alloc else st.enqueuers i
      hp := fun t i => if t = tid ∧ i = 0 then some w else st.hp t i
      casCnt := st.casCnt + 1 + 1 }
    with hD1
  have h1 : enqueueLoop tid st.maxThreads ST2 = enqueueLoop tid m D1 := by
    rw [hm]
    exact enqueueLoop_step m (by simp [hST2]) (by simpa [hST2] using inv.tail_eq)
      (by simp [hST2, hwne, hw]) hwnx hwne
      (fun u hu => by simp [hST2, hu, inv.enq_none u]) hmtpos htid
      (by simpa [hST2, getEnqTid, getNode, hwne, hw] using inv.enqTid_lt w hwmem)
  rw [h1]
  cases m with
  | zero =>
    simp only [enqueueLoop]
    refine ⟨_, rfl, rfl, ?_⟩
    refine inv_append (v := v) inv htid hw rfl rfl rfl rfl (fun b => rfl) ?_ (fun t => rfl)
      (fun t => rfl) (fun t => rfl)
    intro t
    by_cases ht : t = tid
    · simp [hD1, hpClear, ht]
    · simp [hD1, hpClear, ht, inv.enq_none t]
  | succ m2 =>
    have h2 : enqueueLoop tid (m2 + 1) D1 = enqueueLoop tid m2
        { D1 with
          enqueuers := fun i => if i = tid then none else D1.enqueuers i
          hp := fun t i => if t = tid ∧ i = 0 then some st.alloc else D1.hp t i
          casCnt := D1.casCnt + 1 } := by
      refine enqueueLoop_step2
        (N := { item := some v, enqTid := tid, deqTid := IDX_NONE, next := none })
        m2 (by simp [hD1]) (by simp [hD1])
        (by simp [hD1, Ne.symm hwne]) rfl rfl ?_
      intro u hu
      simp [hD1, hu, inv.enq_none u]
    rw [h2]
    have h3 := enqueueLoop_done (S := { D1 with
        enqueuers := fun i => if i = tid then none else D1.enqueuers i
        hp := fun t i => if t = tid ∧ i = 0 then some st.alloc else D1.hp t i
        casCnt := D1.casCnt + 1 }) tid (by simp) m2
    by_cases hflag : (enqueueLoop tid m2 { D1 with
        enqueuers := fun i => if i = tid then none else D1.enqueuers i
        hp := fun t i => if t = tid ∧ i = 0 then some st.alloc else D1.hp t i
        casCnt := D1.casCnt + 1 }).2
    · rw [if_pos hflag] at h3
      refine ⟨_, by rw [if_pos hflag], by rw [h3]; rfl, ?_⟩
      rw [h3]
      refine inv_append (v := v) inv htid hw rfl rfl rfl rfl (fun b => rfl) ?_ (fun t => rfl)
        (fun t => rfl) (fun t => rfl)
      intro t
      by_cases ht : t = tid
      · simp [hD1, hpClear, ht]
      · simp [hD1, hpClear, ht, inv.enq_none t]
    · rw [if_neg hflag] at h3
      refine ⟨_, by rw [if_neg hflag], by rw [h3]; rfl, ?_⟩
      rw [h3]
      refine inv_append (v := v) inv htid hw rfl rfl rfl rfl (fun b => rfl) ?_ (fun t => rfl)
        (fun t => rfl) (fun t => rfl)
      intro t
      by_cases ht : t = tid
      · simp [hD1, hpClear, ht]
      · simp [hD1, hpClear, ht, inv.enq_none t]

/-- Once the caller's request has been satisfied (`deqhelp[tid] != myReq`),
every remaining round of the dequeue loop breaks out immediately. -/
theorem dequeueLoop_break {S : State α} {tid : Nat} {myReq prReq : Option Nat}
    (h : S.deqhelp tid ≠ myReq) :
    ∀ fuel, dequeueLoop tid myReq prReq fuel S = (S, false) := by
  intro fuel
  cases fuel with
  | zero => rfl
  | succ f => simp [dequeueLoop, h]

/-- Effect of the working round of the dequeue loop on a non-empty quiescent
queue: protect head and its next, assign the next node's `deqTid` to the
caller by CAS, satisfy the request (`deqhelp[tid] := lnext`) and advance the
head by CAS; all later rounds break out. -/
theorem dequeueLoop_step {S : State α} {tid a0 b : Nat} {nd0 ndb : Node α}
    {myReq prReq : Option Nat} (fuel : Nat)
    (hmyReq : S.deqhelp tid = myReq)
    (hhead : S.head = some a0)
    (htailne : S.tail ≠ some a0)
    (h0heap : S.heap a0 = some nd0) (h0nx : nd0.next = some b)
    (hbheap : S.heap b = some ndb) (hbdeq : ndb.deqTid = IDX_NONE)
    (hτ1 : -1 ≤ nd0.deqTid) (hτ2 : nd0.deqTid < (S.maxThreads : Int))
    (hmt : 0 < S.maxThreads) (htid : tid < S.maxThreads)
    (hne : ∀ u, u < S.maxThreads → u ≠ tid → S.deqself u ≠ S.deqhelp u)
    (heqt : S.deqself tid = S.deqhelp tid)
    (hbne : myReq ≠ some b) :
    dequeueLoop tid myReq prReq (fuel + 1) S =
      ({ S with
          heap := fun x => if x = b then some { ndb with deqTid := (tid : Int) } else S.heap x
          head := some b
          deqhelp := fun i => if i = tid then some b else S.deqhelp i
          hp := fun t i => if t = tid ∧ i = 1 then some b
            else if t = tid ∧ i = 0 then some a0 else S.hp t i
          casCnt := S.casCnt + 1 + 1 }, false) := by
  obtain ⟨k, hk, hhit, hskip⟩ :=
    searchNext_hit_exists S.maxThreads tid nd0.deqTid hmt htid hτ1 hτ2
  simp only [dequeueLoop, hmyReq, hpStore]
  rw [if_neg (by simp)]
  rw [hhead]
  rw [if_neg (by simp)]
  rw [if_neg (by simpa [hhead] using Ne.symm htailne)]
  simp only [getNext, getNode, Option.some_bind, h0heap, h0nx]
  rw [if_neg (by simp)]
  simp only [searchNext, getDeqTid, getNode, Option.some_bind, h0heap, hbheap]
  rw [searchNextScan_eq
    { S with head := some a0
             hp := fun t i => if t = tid ∧ i = 1 then some b
               else if t = tid ∧ i = 0 then some a0 else S.hp t i }
    (some b) tid (fun u hu hut => hne u hu hut) heqt hmt k S.maxThreads (nd0.deqTid + 1) hk
    (fun j hj => hskip j hj) hhit]
  simp only [getDeqTid, getNode, Option.some_bind, hbheap, hbdeq, eq_self_iff_true, if_true]
  simp only [casDeqTid, hbheap, hbdeq, eq_self_iff_true, if_true]
  rw [if_pos (show ((tid : Nat) : Int) ≠ IDX_NONE by simp only [IDX_NONE]; omega)]
  simp only [casDeqAndHead, getDeqTid, getNode, Option.some_bind, eq_self_iff_true, if_true]
  simp only [casHead, eq_self_iff_true, if_true]
  rw [dequeueLoop_break (by simp [Ne.symm hbne]) fuel]

/-- Sequential `CRTurnQueue::dequeue` on a well-formed non-empty queue:
returns the item of the node after the sentinel, retires the caller's
previous request node, and preserves the invariant with the head advanced. -/
theorem cr_dequeue_nonempty {st : State α} {a0 b : Nat} {rest : List Nat}
    (inv : Inv st a0 (b :: rest)) (tid : Nat) (htid : tid < st.maxThreads) :
    ∃ v st', getItem st (some b) = some v ∧
      dequeue tid st = (some v, st') ∧ st'.maxThreads = st.maxThreads ∧ Inv st' b rest ∧
      valsOn st' rest = valsOn st rest := by
  obtain ⟨nd0, hnd0, hnx0, hrest⟩ := inv.links
  have hgl : (a0 :: b :: rest).getLast (List.cons_ne_nil _ _)
      = (b :: rest).getLast (List.cons_ne_nil _ _) := List.getLast_cons _
  have htl : st.tail = some ((b :: rest).getLast (List.cons_ne_nil _ _)) := by
    rw [inv.tail_eq]; exact congrArg some hgl
  have ha0nm : a0 ∉ b :: rest := (List.nodup_cons.mp inv.nodup).1
  have hawB : a0 ≠ (b :: rest).getLast (List.cons_ne_nil _ _) := by
    intro hc; exact ha0nm (hc ▸ List.getLast_mem _)
  have htailne : st.tail ≠ some a0 := by
    rw [htl]; intro hc; injection hc with hc; exact hawB hc.symm
  have hba0 : b ≠ a0 := by intro hc; exact ha0nm (hc ▸ by simp)
  have hbnr : b ∉ rest := (List.nodup_cons.mp (List.nodup_cons.mp inv.nodup).2).1
  obtain ⟨ndb, hbheap⟩ := cr_linksOKH_mem_heap b rest hrest b (by simp)
  have hbdeq : ndb.deqTid = IDX_NONE := by
    have h2 := inv.rest_deqTid b (by simp)
    simpa [getDeqTid, getNode, hbheap] using h2
  have hbenq : ndb.enqTid < st.maxThreads := by
    have h2 := inv.enqTid_lt b (by simp)
    simpa [getEnqTid, getNode, hbheap] using h2
  have hbnx : ndb.next ≠ some b := by
    cases rest with
    | nil =>
      obtain ⟨ndb', h1, h2⟩ := hrest
      rw [hbheap] at h1; injection h1 with h1; subst h1
      simp [h2]
    | cons c rest' =>
      obtain ⟨ndb', h1, h2, _⟩ := hrest
      rw [hbheap] at h1; injection h1 with h1; subst h1
      rw [h2]
      intro hc; injection hc with hc
      exact hbnr (hc ▸ by simp)
  obtain ⟨v, hv⟩ := Option.isSome_iff_exists.mp (inv.items b (by simp))
  have hvb : ndb.item = some v := by simpa [getItem, getNode, hbheap] using hv
  have hτ1 : -1 ≤ nd0.deqTid := by
    have h2 := inv.head_deqTid.1; simpa [getDeqTid, getNode, hnd0] using h2
  have hτ2 : nd0.deqTid < (st.maxThreads : Int) := by
    have h2 := inv.head_deqTid.2; simpa [getDeqTid, getNode, hnd0] using h2
  obtain ⟨pAddr, hp1, hp2, hp3⟩ := inv.self_off tid htid
  obtain ⟨mAddr, hm1, hm2, hm3⟩ := inv.help_off tid htid
  have hmb : st.deqhelp tid ≠ some b := by
    rw [hm1]; intro hc; injection hc with hc
    rcases hm3 with h | h
    · exact hba0 (hc ▸ h)
    · exact h (hc ▸ List.mem_cons_of_mem a0 (by simp))
  have hpb : ∀ a ∈ b :: rest, st.deqself tid ≠ some a := by
    intro a ha
    rw [hp1]; intro hc; injection hc with hc
    exact hp3 (hc ▸ List.mem_cons_of_mem a0 ha)
  obtain ⟨m, hm⟩ : ∃ m, st.maxThreads = m + 1 := ⟨st.maxThreads - 1, by omega⟩
  simp only [dequeue]
  set REC1 : State α :=
    { st with deqself := fun i => if i = tid then st.deqhelp tid else st.deqself i }
    with hREC1
  set REC5 : State α := { REC1 with
      heap := fun x => if x = b then some { ndb with deqTid := (tid : Int) } else REC1.heap x
      head := some b
      deqhelp := fun i => if i = tid then some b else REC1.deqhelp i
      hp := fun t i => if t = tid ∧ i = 1 then some b
        else if t = tid ∧ i = 0 then some a0 else REC1.hp t i
      casCnt := REC1.casCnt + 1 + 1 } with hREC5
  have hloop : dequeueLoop tid (st.deqhelp tid) (st.deqself tid) st.maxThreads REC1
      = (REC5, false) := by
    rw [hm]
    refine dequeueLoop_step m rfl inv.head_eq htailne hnd0 hnx0 hbheap hbdeq hτ1 hτ2
      inv.mt_pos htid ?_ (by simp [hREC1]) hmb
    intro u hu hut
    simp only [hREC1]
    simp only [ne_eq]
    simp [hut]
    exact inv.req_ne u
  rw [hloop]
  rw [if_neg (by simp : ¬ ((REC5, false).2 = true))]
  have hhelp5 : REC5.deqhelp tid = some b := by simp [hREC5]
  have hheap5b : REC5.heap b = some { ndb with deqTid := (tid : Int) } := by
    simp [hREC5]
  have hheap5 : ∀ a, a ≠ b → REC5.heap a = st.heap a := by
    intro a ha
    simp [hREC5, hREC1, ha]
  have hcondF : ¬ ((REC5, false).1.head = (hpStore (REC5, false).1 tid 0 (REC5, false).1.head).head ∧
      (REC5, false).1.deqhelp tid
        = getNext (hpStore (REC5, false).1 tid 0 (REC5, false).1.head) (REC5, false).1.head) := by
    rintro ⟨_, h2⟩
    rw [hhelp5] at h2
    have h3 : getNext (hpStore (REC5, false).1 tid 0 (REC5, false).1.head) (REC5, false).1.head
        = ndb.next := by
      have h4 : (REC5, false).1.head = some b := by simp [hREC5]
      rw [h4]
      simp [getNext, getNode, hpStore, hheap5b]
    rw [h3] at h2
    exact hbnx h2.symm
  rw [if_neg hcondF]
  set F : State α :=
    hpRetire (hpClear (hpStore (REC5, false).1 tid 0 (REC5, false).1.head) tid)
      (st.deqself tid) tid with hF
  have hFheapOn : ∀ a ∈ b :: rest, F.heap a = REC5.heap a := by
    intro a ha
    refine cr_hpRetire_heap_on _ _ _ a ?_
    intro q hq
    rcases List.mem_append.mp hq with h | h
    · intro hc
      subst hc
      exact (inv.retired_off tid _ h a rfl).2.1 (List.mem_cons_of_mem a0 ha)
    · simp at h
      subst h
      exact hpb a ha
  have hFheapRest : ∀ a ∈ rest, F.heap a = st.heap a := by
    intro a ha
    rw [hFheapOn a (List.mem_cons_of_mem b ha), hheap5 a (fun hc => hbnr (hc ▸ ha))]
  have hFb : F.heap b = some { ndb with deqTid := (tid : Int) } := by
    rw [hFheapOn b (by simp), hheap5b]
  have hitemF : getItem F (some b) = some v := by
    simp [getItem, getNode, hFb, hvb]
  have hFhead : F.head = some b := by
    rw [hF, cr_hpRetire_head]
    simp [hpClear, hpStore, hREC5]
  have hFtail : F.tail = st.tail := by
    rw [hF, cr_hpRetire_tail]
    simp [hpClear, hpStore, hREC5, hREC1]
  have hFalloc : F.alloc = st.alloc := by
    rw [hF, cr_hpRetire_alloc]
    simp [hpClear, hpStore, hREC5, hREC1]
  have hFmt : F.maxThreads = st.maxThreads := by
    rw [hF, hpRetire_mt]
    simp [hpClear, hpStore, hREC5, hREC1]
  have hFenq : F.enqueuers = st.enqueuers := by
    rw [hF, hpRetire_enqueuers]
    simp [hpClear, hpStore, hREC5, hREC1]
  have hFself : ∀ t, F.deqself t = if t = tid then st.deqhelp tid else st.deqself t := by
    intro t
    rw [hF, hpRetire_deqself]
    simp [hpClear, hpStore, hREC5, hREC1]
  have hFhelp : ∀ t, F.deqhelp t = if t = tid then some b else st.deqhelp t := by
    intro t
    rw [hF, hpRetire_deqhelp]
    by_cases ht : t = tid <;> simp [hpClear, hpStore, hREC5, hREC1, ht]
  have hFret : ∀ t q, q ∈ F.retired t → q ∈ st.retired t ∨ (t = tid ∧ q = st.deqself tid) := by
    intro t q hq
    exact cr_hpRetire_retired_sub
      (hpClear (hpStore (REC5, false).1 tid 0 (REC5, false).1.head) tid)
      (st.deqself tid) tid t q hq
  refine ⟨v, F, hv, ?_, hFmt, ?_, ?_⟩
  · rw [hhelp5, hitemF]
  · refine ⟨?_, hFhead, ?_, ?_, ?_, ?_, ?_, ?_, ?_, ?_, ?_, ?_, ?_, ?_, ?_, ?_, ?_, ?_, ?_⟩
    · rw [hFmt]; exact inv.mt_pos
    · refine linksOKH_congr_next b rest ?_ hrest
      intro a ha nd hnd
      by_cases hab : a = b
      · subst hab
        rw [hbheap] at hnd; injection hnd with hnd; subst hnd
        exact ⟨_, hFb, rfl⟩
      · refine ⟨nd, ?_, rfl⟩
        rw [hFheapOn a ha, hheap5 a hab, hnd]
    · rw [hFtail, htl]
    · exact (List.nodup_cons.mp inv.nodup).2
    · intro a ha
      rw [hFalloc]
      exact inv.bounded a (List.mem_cons_of_mem a0 ha)
    · intro a ha
      rw [hFalloc] at ha
      rcases cr_hpRetire_heap_none_or
          (hpClear (hpStore (REC5, false).1 tid 0 (REC5, false).1.head) tid)
          (st.deqself tid) tid a with h | h
      · rw [hF, h]
        show REC5.heap a = none
        have hab : a ≠ b := by
          intro hc
          exact absurd (inv.bounded b (by simp)) (by omega)
        rw [hheap5 a hab]
        exact inv.fresh a ha
      · rw [hF]; exact h
    · intro a ha
      simpa [getItem, getNode, hFheapRest a ha] using inv.items a (by simp [ha])
    · constructor
      · simp [getDeqTid, getNode, hFb]
        omega
      · simp [getDeqTid, getNode, hFb, hFmt]
        omega
    · intro a ha
      have h2 := inv.rest_deqTid a (by simp [ha])
      simpa [getDeqTid, getNode, hFheapRest a ha] using h2
    · intro a ha
      rw [hFmt]
      rcases List.mem_cons.mp ha with rfl | ha
      · simpa [getEnqTid, getNode, hFb] using hbenq
      · have h2 := inv.enqTid_lt a (by simp [ha])
        simpa [getEnqTid, getNode, hFheapRest a ha] using h2
    · intro t
      rw [hFenq]; exact inv.enq_none t
    · intro t ht
      rw [hFmt] at ht
      rw [hFself]
      by_cases htt : t = tid
      · subst htt
        refine ⟨mAddr, by simp [hm1], hFalloc ▸ hm2, ?_⟩
        intro hc
        rcases hm3 with h | h
        · rcases List.mem_cons.mp hc with h2 | h2
          · exact hba0 (h2.symm.trans h)
          · exact ha0nm (h ▸ List.mem_cons_of_mem b h2)
        · exact h (List.mem_cons_of_mem a0 hc)
      · obtain ⟨a, h1, h2, h3⟩ := inv.self_off t ht
        refine ⟨a, by simp [htt, h1], hFalloc ▸ h2, ?_⟩
        intro hc
        exact h3 (List.mem_cons_of_mem a0 hc)
    · intro t ht
      rw [hFmt] at ht
      rw [hFhelp]
      by_cases htt : t = tid
      · subst htt
        exact ⟨b, by simp, hFalloc ▸ inv.bounded b (by simp), Or.inl rfl⟩
      · obtain ⟨a, h1, h2, h3⟩ := inv.help_off t ht
        refine ⟨a, by simp [htt, h1], hFalloc ▸ h2, ?_⟩
        rcases h3 with h | h
        · subst h
          exact Or.inr (fun hc => ha0nm hc)
        · exact Or.inr (fun hc => h (List.mem_cons_of_mem a0 hc))
    · intro t
      rw [hFself, hFhelp]
      by_cases htt : t = tid
      · simp only [htt, if_pos rfl]
        exact hmb
      · simp only [if_neg htt]
        exact inv.req_ne t
    · intro t ht u hu h
      rw [hFmt] at ht hu
      rw [hFself, hFself] at h
      by_cases htt : t = tid <;> by_cases huu : u = tid
      · rw [htt, huu]
      · exfalso
        rw [if_pos htt, if_neg huu] at h
        exact inv.cross_ne u hu tid htid h.symm
      · exfalso
        rw [if_neg htt, if_pos huu] at h
        exact inv.cross_ne t ht tid htid h
      · rw [if_neg htt, if_neg huu] at h
        exact inv.self_inj t ht u hu h
    · intro t ht u hu h
      rw [hFmt] at ht hu
      rw [hFhelp, hFhelp] at h
      by_cases htt : t = tid <;> by_cases huu : u = tid
      · rw [htt, huu]
      · exfalso
        rw [if_pos htt, if_neg huu] at h
        obtain ⟨a, h1, h2, h3⟩ := inv.help_off u hu
        rw [h1] at h
        injection h with h
        rcases h3 with h4 | h4
        · exact hba0 (h ▸ h4 ▸ rfl)
        · exact h4 (h ▸ List.mem_cons_of_mem a0 (by simp))
      · exfalso
        rw [if_neg htt, if_pos huu] at h
        obtain ⟨a, h1, h2, h3⟩ := inv.help_off t ht
        rw [h1] at h
        injection h with h
        rcases h3 with h4 | h4
        · exact hba0 (h.symm ▸ h4 ▸ rfl)
        · exact h4 (h.symm ▸ List.mem_cons_of_mem a0 (by simp))
      · rw [if_neg htt, if_neg huu] at h
        exact inv.help_inj t ht u hu h
    · intro t ht u hu
      rw [hFmt] at ht hu
      rw [hFself, hFhelp]
      by_cases htt : t = tid <;> by_cases huu : u = tid
      · rw [if_pos htt, if_pos huu]
        exact hmb
      · rw [if_pos htt, if_neg huu]
        intro h
        exact huu (inv.help_inj tid htid u hu h).symm
      · rw [if_neg htt, if_pos huu]
        obtain ⟨a, h1, h2, h3⟩ := inv.self_off t ht
        rw [h1]
        intro h
        injection h with h
        exact h3 (by rw [h]; exact List.mem_cons_of_mem a0 (by simp))
      · rw [if_neg htt, if_neg huu]
        exact inv.cross_ne t ht u hu
    · intro t q hq a hqa
      rw [hFmt, hFalloc]
      rcases hFret t q hq with h | ⟨h4, h5⟩
      · obtain ⟨h1, h2, h3⟩ := inv.retired_off t q h a hqa
        refine ⟨h1, fun hc => h2 (List.mem_cons_of_mem a0 hc), ?_⟩
        intro u hu
        rw [hFself, hFhelp]
        by_cases huu : u = tid
        · refine ⟨by simp [huu]; exact (h3 tid htid).2, ?_⟩
          simp only [huu, if_pos rfl]
          intro hc
          injection hc with hc
          exact h2 (hc ▸ List.mem_cons_of_mem a0 (by simp))
        · simp only [if_neg huu]
          exact h3 u hu
      · rw [h5, hp1] at hqa
        injection hqa with hqa
        subst hqa
        refine ⟨hp2, fun hc => hp3 (List.mem_cons_of_mem a0 hc), ?_⟩
        intro u hu
        rw [hFself, hFhelp]
        by_cases huu : u = tid
        · refine ⟨?_, ?_⟩
          · simp only [huu, if_pos rfl]
            rw [← hp1]
            exact (inv.req_ne tid).symm
          · simp only [huu, if_pos rfl]
            intro hc
            injection hc with hc
            exact hp3 (hc ▸ List.mem_cons_of_mem a0 (by simp))
        · simp only [if_neg huu]
          constructor
          · rw [← hp1]
            intro hc
            exact huu (inv.self_inj u hu tid htid hc)
          · rw [← hp1]
            intro hc
            exact inv.cross_ne tid htid u hu hc.symm
  · apply cr_valsOn_congr
    intro a ha
    simp [getItem, getNode, hFheapRest a ha]

/-- Sequential `CRTurnQueue::dequeue` on an empty queue (`head == tail`):
the give-up path re-checks head against tail and returns `nullptr`,
leaving heap, retirement lists, allocation counter and CAS counter
untouched (no CAS is attempted). -/
theorem cr_dequeue_empty {st : State α} {a0 : Nat} (inv : Inv st a0 []) (tid : Nat) :
    ∃ st', dequeue tid st = (none, st') ∧ st'.maxThreads = st.maxThreads ∧
      Inv st' a0 [] ∧ st'.heap = st.heap ∧ st'.retired = st.retired ∧
      st'.alloc = st.alloc ∧ st'.casCnt = st.casCnt := by
  have htl : st.tail = some a0 := by simpa using inv.tail_eq
  obtain ⟨m, hm⟩ : ∃ m, st.maxThreads = m + 1 :=
    ⟨st.maxThreads - 1, by have := inv.mt_pos; omega⟩
  refine ⟨{ st with
      deqself := fun i => if i = tid then st.deqself tid
        else if i = tid then st.deqhelp tid else st.deqself i
      hp := fun t i => if t = tid ∧ i < 3 then none
        else if t = tid ∧ i = 0 then some a0 else st.hp t i }, ?_, rfl, ?_, rfl, rfl, rfl, rfl⟩
  · simp [dequeue, dequeueLoop, giveUp, hpStore, hpClear, inv.head_eq, htl, hm]
  · refine Inv.transport inv rfl rfl rfl rfl (fun _ => rfl) (fun _ => rfl) ?_
      (fun _ => rfl) (fun _ => rfl)
    intro t
    by_cases ht : t = tid <;> simp [ht]

/-- The `CRTurnQueue(maxThreads)` constructor establishes the invariant
(for any positive thread bound): sentinel chain of length one and pairwise
distinct dummy request nodes off the chain. -/
theorem cr_newQueue_inv (α : Type) (mt thr : Nat) (hmt : 0 < mt) :
    Inv (newQueue α mt thr) 0 [] := by
  have hheap0 : (newQueue α mt thr).heap 0
      = some { item := none, enqTid := 0, deqTid := IDX_NONE, next := none } := by
    simp only [newQueue]
    rw [if_pos (by omega)]
  refine ⟨hmt, rfl, ⟨_, hheap0, rfl⟩, rfl, by simp, ?_, ?_, ?_, ?_, ?_, ?_, ?_, ?_, ?_,
      ?_, ?_, ?_, ?_, ?_⟩
  · intro a ha
    simp only [List.mem_singleton] at ha
    subst ha
    show 0 < 1 + 2 * mt
    omega
  · intro a ha
    have ha2 : 1 + 2 * mt ≤ a := ha
    simp only [newQueue]
    rw [if_neg (by omega)]
  · intro a ha
    simp at ha
  · rw [show getDeqTid (newQueue α mt thr) (some 0) = IDX_NONE from by
      simp [getDeqTid, getNode, hheap0]]
    refine ⟨le_refl _, ?_⟩
    simp only [IDX_NONE]
    omega
  · intro a ha
    simp at ha
  · intro a ha
    simp only [List.mem_singleton] at ha
    subst ha
    rw [show getEnqTid (newQueue α mt thr) (some 0) = 0 from by
      simp [getEnqTid, getNode, hheap0]]
    exact hmt
  · intro t
    rfl
  · intro t ht
    refine ⟨1 + 2 * t, rfl, ?_, by simp⟩
    show 1 + 2 * t < 1 + 2 * mt
    have ht2 : t < mt := ht
    omega
  · intro t ht
    refine ⟨2 + 2 * t, rfl, ?_, Or.inr (by simp)⟩
    show 2 + 2 * t < 1 + 2 * mt
    have ht2 : t < mt := ht
    omega
  · intro t
    show some (1 + 2 * t) ≠ some (2 + 2 * t)
    intro h
    injection h with h
    omega
  · intro t ht u hu h
    have h2 : some (1 + 2 * t) = some (1 + 2 * u) := h
    injection h2 with h2
    omega
  · intro t ht u hu h
    have h2 : some (2 + 2 * t) = some (2 + 2 * u) := h
    injection h2 with h2
    omega
  · intro t ht u hu
    show some (1 + 2 * t) ≠ some (2 + 2 * u)
    intro h
    injection h with h
    omega
  · intro t q hq
    have hq2 : q ∈ ([] : List (Option Nat)) := hq
    simp at hq2

/-- A history operation on the queue: enqueue a value or dequeue. -/
inductive Op (α : Type) where
  | enq (v : α) (tid : Nat)
  | deq (tid : Nat)

/-- The caller-supplied thread index of an operation. -/
def opTid : Op α → Nat
  | .enq _ t => t
  | .deq t => t

/-- The values enqueued by a history, in order. -/
def enqVals : List (Op α) → List α
  | [] => []
  | .enq v _ :: ops => v :: enqVals ops
  | .deq _ :: ops => enqVals ops

/-- Execute a history sequentially, one complete operation at a time; each
dequeue's return value is recorded in order (`none` = nullptr). -/
def run : List (Op α) → State α → State α × List (Option α)
  | [], st => (st, [])
  | .enq v tid :: ops, st =>
    match enqueue (some v) tid st with
    | .ok st1 => run ops st1
    | .error _ => run ops st
  | .deq tid :: ops, st =>
    let r := dequeue tid st
    let t := run ops r.2
    (t.1, r.1 :: t.2)

/-- The non-null results among the recorded dequeue outputs. -/
def deqVals (outs : List (Option α)) : List α := outs.filterMap id

theorem cr_run_spec : ∀ (ops : List (Op α)) (st : State α) (a0 : Nat) (rest : List Nat),
    Inv st a0 rest → (∀ op ∈ ops, opTid op < st.maxThreads) →
    ∃ a1 rest1, Inv (run ops st).1 a1 rest1 ∧
      (run ops st).1.maxThreads = st.maxThreads ∧
      valsOn st rest ++ enqVals ops
        = deqVals (run ops st).2 ++ valsOn (run ops st).1 rest1 := by
  intro ops
  induction ops with
  | nil =>
    intro st a0 rest inv htids
    exact ⟨a0, rest, inv, rfl, by simp [run, enqVals, deqVals]⟩
  | cons op ops ih =>
    intro st a0 rest inv htids
    have hoptid : opTid op < st.maxThreads := htids op (by simp)
    have htids2 : ∀ o ∈ ops, opTid o < st.maxThreads :=
      fun o ho => htids o (List.mem_cons_of_mem op ho)
    cases op with
    | enq v tid =>
      obtain ⟨st1, heq, hmt1, hinv1, hvals⟩ := cr_enqueue_spec inv v tid hoptid
      obtain ⟨a1, rest1, hinv2, hmt2, hrel⟩ :=
        ih st1 a0 (rest ++ [st.alloc]) hinv1 (fun o ho => hmt1 ▸ htids2 o ho)
      have hrun : run (Op.enq v tid :: ops) st = run ops st1 := by
        simp [run, heq]
      refine ⟨a1, rest1, by rw [hrun]; exact hinv2, by rw [hrun, hmt2, hmt1], ?_⟩
      rw [hrun]
      calc valsOn st rest ++ enqVals (Op.enq v tid :: ops)
          = (valsOn st rest ++ [v]) ++ enqVals ops := by simp [enqVals]
        _ = valsOn st1 (rest ++ [st.alloc]) ++ enqVals ops := by rw [hvals]
        _ = deqVals (run ops st1).2 ++ valsOn (run ops st1).1 rest1 := hrel
    | deq tid =>
      cases rest with
      | nil =>
        obtain ⟨st1, heq, hmt1, hinv1, _, _, _, _⟩ := cr_dequeue_empty inv tid
        obtain ⟨a1, rest1, hinv2, hmt2, hrel⟩ :=
          ih st1 a0 [] hinv1 (fun o ho => hmt1 ▸ htids2 o ho)
        have hrun : run (Op.deq tid :: ops) st
            = ((run ops st1).1, none :: (run ops st1).2) := by
          simp [run, heq]
        refine ⟨a1, rest1, by rw [hrun]; exact hinv2, by rw [hrun]; simp [hmt2, hmt1], ?_⟩
        rw [hrun]
        simpa [enqVals, deqVals, valsOn] using hrel
      | cons b rest' =>
        obtain ⟨v, st1, hvb, heq, hmt1, hinv1, hvals⟩ := cr_dequeue_nonempty inv tid hoptid
        obtain ⟨a1, rest1, hinv2, hmt2, hrel⟩ :=
          ih st1 b rest' hinv1 (fun o ho => hmt1 ▸ htids2 o ho)
        have hrun : run (Op.deq tid :: ops) st
            = ((run ops st1).1, some v :: (run ops st1).2) := by
          simp [run, heq]
        refine ⟨a1, rest1, by rw [hrun]; exact hinv2, by rw [hrun]; simp [hmt2, hmt1], ?_⟩
        rw [hrun]
        have hcons : valsOn st (b :: rest') = v :: valsOn st rest' := by
          simp [valsOn, List.filterMap_cons, hvb]
        rw [hcons]
        have : valsOn st rest' ++ enqVals ops
            = deqVals (run ops st1).2 ++ valsOn (run ops st1).1 rest1 := by
          rw [← hvals]; exact hrel
        simpa [enqVals, deqVals] using this

/-- Walk the chain from a pointer, with fuel. -/
def chainFrom (st : State α) : Nat → Option Nat → List Nat
  | 0, _ => []
  | _, none => []
  | fuel + 1, some a => a :: chainFrom st fuel (getNext st (some a))

/-- The items currently held in the node chain (everything after the
sentinel head). -/
def remaining (st : State α) : List α :=
  valsOn st ((chainFrom st st.alloc st.head).drop 1)

theorem cr_chainFrom_eq (st : State α) :
    ∀ (rest : List Nat) (a0 fuel : Nat), linksOKH st.heap a0 rest →
      rest.length + 1 ≤ fuel → chainFrom st fuel (some a0) = a0 :: rest := by
  intro rest
  induction rest with
  | nil =>
    intro a0 fuel hl hf
    obtain ⟨nd, hnd, hnx⟩ := hl
    obtain ⟨f, rfl⟩ : ∃ f, fuel = f + 1 := ⟨fuel - 1, by omega⟩
    simp only [chainFrom, getNext, getNode, hnd, hnx, Option.some_bind, Option.none_bind]
    cases f <;> rfl
  | cons b rest ih =>
    intro a0 fuel hl hf
    obtain ⟨nd, hnd, hnx, hrest⟩ := hl
    obtain ⟨f, rfl⟩ : ∃ f, fuel = f + 1 := ⟨fuel - 1, by omega⟩
    simp only [chainFrom, getNext, getNode, hnd, hnx, Option.some_bind]
    rw [ih b f hrest (by simpa using hf)]

theorem cr_remaining_eq {st : State α} {a0 : Nat} {rest : List Nat} (inv : Inv st a0 rest) :
    remaining st = valsOn st rest := by
  have hlen : (a0 :: rest).length ≤ st.alloc :=
    MSQ.length_le_of_nodup_lt inv.nodup inv.bounded
  have hchain : chainFrom st st.alloc st.head = a0 :: rest := by
    rw [inv.head_eq]
    exact cr_chainFrom_eq st rest a0 st.alloc inv.links (by simpa using hlen)
  rw [remaining, hchain]
  simp [valsOn]

/-- Sequential conservation for `CRTurnQueue`: over any history (with
in-range thread indices) from a fresh queue, the enqueued values are exactly
the dequeued values followed by the values still in the node chain. -/
theorem cr_run_conservation (ops : List (Op α)) (mt thr : Nat) (hmt : 0 < mt)
    (htids : ∀ op ∈ ops, opTid op < mt) :
    enqVals ops
      = deqVals (run ops (newQueue α mt thr)).2
        ++ remaining (run ops (newQueue α mt thr)).1 := by
  obtain ⟨a1, rest1, hinv, hmt2, hrel⟩ :=
    cr_run_spec ops (newQueue α mt thr) 0 [] (cr_newQueue_inv α mt thr hmt) htids
  rw [cr_remaining_eq hinv]
  simpa [valsOn] using hrel

/-- No address at or above the allocation counter holds a node. -/
def Fresh (st : State α) : Prop := ∀ a, st.alloc ≤ a → st.heap a = none

/-- Heap-evolution discipline of the queue operations: the allocation
counter only grows, a dead cell below the counter stays dead (addresses are
never reused), and a live node keeps its `next` link once it is non-null and
its `deqTid` tag once it differs from `IDX_NONE` — both are written at most
once after initialization and never mutated afterwards. -/
def HeapMono (st st2 : State α) : Prop :=
  st.alloc ≤ st2.alloc ∧
  ∀ a, (st.heap a = none → a < st.alloc → st2.heap a = none) ∧
    ∀ nd, st.heap a = some nd →
      st2.heap a = none ∨ ∃ nd2, st2.heap a = some nd2 ∧
        (nd.next = none ∨ nd2.next = nd.next) ∧
        (nd.deqTid = IDX_NONE ∨ nd2.deqTid = nd.deqTid)

theorem cr_heapMono_of_eq {st st2 : State α} (ha : st2.alloc = st.alloc)
    (hh : ∀ a, st2.heap a = st.heap a) : HeapMono st st2 := by
  refine ⟨by omega, ?_⟩
  intro a
  constructor
  · intro h _
    rw [hh, h]
  · intro nd h
    exact Or.inr ⟨nd, by rw [hh a]; exact h, Or.inr rfl, Or.inr rfl⟩

theorem cr_fresh_of_eq {st st2 : State α} (ha : st2.alloc = st.alloc)
    (hh : ∀ a, st2.heap a = st.heap a) (h : Fresh st) : Fresh st2 := by
  intro a haa
  rw [hh]
  exact h a (by omega)

theorem cr_heapMono_trans {s1 s2 s3 : State α} (f1 : Fresh s1)
    (h1 : HeapMono s1 s2) (h2 : HeapMono s2 s3) : HeapMono s1 s3 := by
  refine ⟨le_trans h1.1 h2.1, ?_⟩
  intro a
  constructor
  · intro h ha
    exact (h2.2 a).1 ((h1.2 a).1 h ha) (lt_of_lt_of_le ha h1.1)
  · intro nd h
    have ha : a < s1.alloc := by
      by_contra hc
      rw [f1 a (by omega)] at h
      exact Option.noConfusion h
    rcases (h1.2 a).2 nd h with h2a | ⟨nd1, hnd1, hx1, hy1⟩
    · exact Or.inl ((h2.2 a).1 h2a (lt_of_lt_of_le ha h1.1))
    · rcases (h2.2 a).2 nd1 hnd1 with h3a | ⟨nd2, hnd2, hx2, hy2⟩
      · exact Or.inl h3a
      · refine Or.inr ⟨nd2, hnd2, ?_, ?_⟩
        · rcases hx1 with h | h
          · exact Or.inl h
          · rcases hx2 with h5 | h5
            · exact Or.inl (h ▸ h5)
            · exact Or.inr (h5.trans h)
        · rcases hy1 with h | h
          · exact Or.inl h
          · rcases hy2 with h5 | h5
            · exact Or.inl (h ▸ h5)
            · exact Or.inr (h5.trans h)

/-- A single in-place node update that respects write-once `next`/`deqTid`. -/
theorem cr_heapMono_update (st : State α) (c : Nat) (nd nd2 : Node α)
    (hA : st.heap c = some nd)
    (hx : nd.next = none ∨ nd2.next = nd.next)
    (hy : nd.deqTid = IDX_NONE ∨ nd2.deqTid = nd.deqTid) :
    HeapMono st { st with heap := fun b => if b = c then some nd2 else st.heap b } ∧
    (Fresh st → Fresh { st with heap := fun b => if b = c then some nd2 else st.heap b }) := by
  constructor
  · refine ⟨le_refl _, ?_⟩
    intro b
    constructor
    · intro h _
      have hbc : b ≠ c := by
        intro hbc
        rw [hbc, hA] at h
        exact Option.noConfusion h
      show (if b = c then some nd2 else st.heap b) = none
      rw [if_neg hbc]
      exact h
    · intro nd3 h
      by_cases hbc : b = c
      · subst hbc
        rw [hA] at h
        injection h with h
        subst h
        refine Or.inr ⟨nd2, ?_, hx, hy⟩
        show (if b = b then some nd2 else st.heap b) = some nd2
        rw [if_pos rfl]
      · refine Or.inr ⟨nd3, ?_, Or.inr rfl, Or.inr rfl⟩
        show (if b = c then some nd2 else st.heap b) = some nd3
        rw [if_neg hbc]
        exact h
  · intro hf b hb
    have hbc : b ≠ c := by
      intro hbc
      rw [hbc] at hb
      rw [hf c hb] at hA
      exact Option.noConfusion hA
    show (if b = c then some nd2 else st.heap b) = none
    rw [if_neg hbc]
    exact hf b hb

theorem cr_casNodeNext_mono (st : State α) (p val : Option Nat) :
    HeapMono st (casNodeNext st p none val).1 ∧
    (Fresh st → Fresh (casNodeNext st p none val).1) := by
  cases p with
  | none => exact ⟨cr_heapMono_of_eq rfl (fun _ => rfl), fun h => h⟩
  | some c =>
    cases hA : st.heap c with
    | none =>
      have he : (casNodeNext st (some c) none val).1
          = { st with casCnt := st.casCnt + 1 } := by
        simp [casNodeNext, hA]
      rw [he]
      exact ⟨cr_heapMono_of_eq rfl (fun _ => rfl), fun h => h⟩
    | some nd =>
      by_cases hc : nd.next = none
      · have he : (casNodeNext st (some c) none val).1
            = { st with
                heap := fun b => if b = c then some { nd with next := val } else st.heap b
                casCnt := st.casCnt + 1 } := by
          simp [casNodeNext, hA, hc]
        rw [he]
        have h2 := cr_heapMono_update st c nd { nd with next := val } hA (Or.inl hc)
          (Or.inr rfl)
        exact ⟨⟨h2.1.1, h2.1.2⟩, fun hf a ha => h2.2 hf a ha⟩
      · have he : (casNodeNext st (some c) none val).1
            = { st with casCnt := st.casCnt + 1 } := by
          simp [casNodeNext, hA, hc]
        rw [he]
        exact ⟨cr_heapMono_of_eq rfl (fun _ => rfl), fun h => h⟩

theorem cr_casDeqTid_mono (st : State α) (p : Option Nat) (val : Int) :
    HeapMono st (casDeqTid st p IDX_NONE val).1 ∧
    (Fresh st → Fresh (casDeqTid st p IDX_NONE val).1) := by
  cases p with
  | none => exact ⟨cr_heapMono_of_eq rfl (fun _ => rfl), fun h => h⟩
  | some c =>
    cases hA : st.heap c with
    | none =>
      have he : (casDeqTid st (some c) IDX_NONE val).1
          = { st with casCnt := st.casCnt + 1 } := by
        simp [casDeqTid, hA]
      rw [he]
      exact ⟨cr_heapMono_of_eq rfl (fun _ => rfl), fun h => h⟩
    | some nd =>
      by_cases hc : nd.deqTid = IDX_NONE
      · have he : (casDeqTid st (some c) IDX_NONE val).1
            = { st with
                heap := fun b => if b = c then some { nd with deqTid := val } else st.heap b
                casCnt := st.casCnt + 1 } := by
          simp [casDeqTid, hA, hc]
        rw [he]
        have h2 := cr_heapMono_update st c nd { nd with deqTid := val } hA (Or.inr rfl)
          (Or.inl hc)
        exact ⟨⟨h2.1.1, h2.1.2⟩, fun hf a ha => h2.2 hf a ha⟩
      · have he : (casDeqTid st (some c) IDX_NONE val).1
            = { st with casCnt := st.casCnt + 1 } := by
          simp [casDeqTid, hA, hc]
        rw [he]
        exact ⟨cr_heapMono_of_eq rfl (fun _ => rfl), fun h => h⟩

theorem cr_allocNode_mono (st : State α) (v : Option α) (tid : Nat) (hf : Fresh st) :
    HeapMono st (allocNode st v tid).1 ∧ Fresh (allocNode st v tid).1 := by
  constructor
  · refine ⟨Nat.le_succ _, ?_⟩
    intro a
    constructor
    · intro h ha
      show (if a = st.alloc
        then some { item := v, enqTid := tid, deqTid := IDX_NONE, next := none }
        else st.heap a) = none
      rw [if_neg (by omega)]
      exact h
    · intro nd h
      have ha : a < st.alloc := by
        by_contra hc
        rw [hf a (by omega)] at h
        exact Option.noConfusion h
      refine Or.inr ⟨nd, ?_, Or.inr rfl, Or.inr rfl⟩
      show (if a = st.alloc
        then some { item := v, enqTid := tid, deqTid := IDX_NONE, next := none }
        else st.heap a) = some nd
      rw [if_neg (by omega)]
      exact h
  · intro a ha
    have ha2 : st.alloc + 1 ≤ a := ha
    show (if a = st.alloc
      then some { item := v, enqTid := tid, deqTid := IDX_NONE, next := none }
      else st.heap a) = none
    rw [if_neg (by omega)]
    exact hf a (by omega)

theorem cr_hpRetire_mono (st : State α) (p : Option Nat) (tid : Nat) :
    HeapMono st (hpRetire st p tid) ∧ (Fresh st → Fresh (hpRetire st p tid)) := by
  have hh := cr_hpRetire_heap_none_or st p tid
  have ha : (hpRetire st p tid).alloc = st.alloc := cr_hpRetire_alloc st p tid
  constructor
  · refine ⟨by omega, ?_⟩
    intro a
    constructor
    · intro h _
      rcases hh a with h2 | h2
      · rw [h2]
        exact h
      · exact h2
    · intro nd h
      rcases hh a with h2 | h2
      · exact Or.inr ⟨nd, by rw [h2]; exact h, Or.inr rfl, Or.inr rfl⟩
      · exact Or.inl h2
  · intro hf a haa
    rw [ha] at haa
    rcases hh a with h2 | h2
    · rw [h2]
      exact hf a haa
    · exact h2

theorem cr_casHead_state (st : State α) (c v : Option Nat) :
    (casHead st c v).1.heap = st.heap ∧ (casHead st c v).1.alloc = st.alloc := by
  unfold casHead
  split <;> exact ⟨rfl, rfl⟩

theorem cr_casTail_state (st : State α) (c v : Option Nat) :
    (casTail st c v).1.heap = st.heap ∧ (casTail st c v).1.alloc = st.alloc := by
  unfold casTail
  split <;> exact ⟨rfl, rfl⟩

theorem cr_casEnqueuers_state (st : State α) (i : Nat) (c v : Option Nat) :
    (casEnqueuers st i c v).1.heap = st.heap ∧ (casEnqueuers st i c v).1.alloc = st.alloc := by
  unfold casEnqueuers
  split <;> exact ⟨rfl, rfl⟩

theorem cr_casDeqhelp_state (st : State α) (i : Nat) (c v : Option Nat) :
    (casDeqhelp st i c v).1.heap = st.heap ∧ (casDeqhelp st i c v).1.alloc = st.alloc := by
  unfold casDeqhelp
  split <;> exact ⟨rfl, rfl⟩

theorem cr_casDeqAndHead_state (st : State α) (l n : Option Nat) (tid : Nat) :
    (casDeqAndHead st l n tid).heap = st.heap ∧ (casDeqAndHead st l n tid).alloc = st.alloc := by
  simp only [casDeqAndHead]
  split
  · exact cr_casHead_state _ l n
  · split
    · constructor
      · exact ((cr_casHead_state _ l n).1.trans (cr_casDeqhelp_state _ _ _ n).1)
      · exact ((cr_casHead_state _ l n).2.trans (cr_casDeqhelp_state _ _ _ n).2)
    · exact cr_casHead_state _ l n

theorem cr_searchNextScan_mono (st : State α) (lnext : Option Nat) :
    ∀ (count : Nat) (idx : Int), Fresh st →
      HeapMono st (searchNextScan st lnext idx count) ∧
      Fresh (searchNextScan st lnext idx count) := by
  intro count
  induction count with
  | zero =>
    intro idx hf
    exact ⟨cr_heapMono_of_eq rfl (fun _ => rfl), hf⟩
  | succ c ih =>
    intro idx hf
    simp only [searchNextScan]
    split
    · exact ih (idx + 1) hf
    · split
      · exact cr_casDeqTid_mono st lnext _ |>.imp id (fun h => h hf)
      · exact ⟨cr_heapMono_of_eq rfl (fun _ => rfl), hf⟩

theorem cr_searchNext_mono (st : State α) (lhead lnext : Option Nat) (hf : Fresh st) :
    HeapMono st (searchNext st lhead lnext).1 ∧ Fresh (searchNext st lhead lnext).1 := by
  simp only [searchNext]
  exact cr_searchNextScan_mono st lnext st.maxThreads _ hf

theorem cr_giveUp_mono (st : State α) (myReq : Option Nat) (tid : Nat) (hf : Fresh st) :
    HeapMono st (giveUp st myReq tid) ∧ Fresh (giveUp st myReq tid) := by
  simp only [giveUp]
  split
  · exact ⟨cr_heapMono_of_eq rfl (fun _ => rfl), hf⟩
  · split
    · exact ⟨cr_heapMono_of_eq rfl (fun _ => rfl), hf⟩
    · split
      · exact ⟨cr_heapMono_of_eq rfl (fun _ => rfl), hf⟩
      · have hf2 : Fresh (hpStore (hpStore st tid 0 st.head) tid 1
            (getNext (hpStore st tid 0 st.head) st.head)) := hf
        have hsn := cr_searchNext_mono (hpStore (hpStore st tid 0 st.head) tid 1
          (getNext (hpStore st tid 0 st.head) st.head)) st.head
          (getNext (hpStore st tid 0 st.head) st.head) hf2
        have hsnB : HeapMono st (searchNext (hpStore (hpStore st tid 0 st.head) tid 1
            (getNext (hpStore st tid 0 st.head) st.head)) st.head
            (getNext (hpStore st tid 0 st.head) st.head)).1 := hsn.1
        set R := (searchNext (hpStore (hpStore st tid 0 st.head) tid 1
          (getNext (hpStore st tid 0 st.head) st.head)) st.head
          (getNext (hpStore st tid 0 st.head) st.head)) with hR
        have hstep : ∀ S : State α, HeapMono st S → Fresh S →
            HeapMono st (casDeqAndHead S st.head
              (getNext (hpStore st tid 0 st.head) st.head) tid) ∧
            Fresh (casDeqAndHead S st.head
              (getNext (hpStore st tid 0 st.head) st.head) tid) := by
          intro S hm hfS
          have hcs := cr_casDeqAndHead_state S st.head
            (getNext (hpStore st tid 0 st.head) st.head) tid
          constructor
          · exact cr_heapMono_trans hf hm
              (cr_heapMono_of_eq hcs.2 (fun a => congrFun hcs.1 a))
          · exact cr_fresh_of_eq hcs.2 (fun a => congrFun hcs.1 a) hfS
        split
        · have hdm := cr_casDeqTid_mono R.1
            (getNext (hpStore st tid 0 st.head) st.head) ((tid : Nat) : Int)
          exact hstep _ (cr_heapMono_trans hf hsnB hdm.1) (hdm.2 hsn.2)
        · exact hstep R.1 hsnB hsn.2

theorem cr_helpEnqScan_mono (st : State α) (ltail : Option Nat) (etid : Nat) :
    ∀ (count j : Nat), Fresh st →
      HeapMono st (helpEnqScan st ltail etid j count) ∧
      Fresh (helpEnqScan st ltail etid j count) := by
  intro count
  induction count with
  | zero =>
    intro j hf
    exact ⟨cr_heapMono_of_eq rfl (fun _ => rfl), hf⟩
  | succ c ih =>
    intro j hf
    simp only [helpEnqScan]
    split
    · exact ih (j + 1) hf
    · exact (cr_casNodeNext_mono st ltail _).imp id (fun h => h hf)

theorem cr_enqueueLoop_mono (tid : Nat) :
    ∀ (fuel : Nat) (st : State α), Fresh st →
      HeapMono st (enqueueLoop tid fuel st).1 ∧ Fresh (enqueueLoop tid fuel st).1 := by
  intro fuel
  induction fuel with
  | zero =>
    intro st hf
    exact ⟨cr_heapMono_of_eq rfl (fun _ => rfl), hf⟩
  | succ f ih =>
    intro st hf
    simp only [enqueueLoop]
    split
    · exact ⟨cr_heapMono_of_eq rfl (fun _ => rfl), hf⟩
    · split
      · have hf1 : Fresh (hpStore st tid 0 st.tail) := hf
        obtain ⟨hm2, hf2⟩ := ih (hpStore st tid 0 st.tail) hf1
        exact ⟨hm2, hf2⟩
      · have hf1 : Fresh (hpStore st tid 0 st.tail) := hf
        set S1 := hpStore st tid 0 st.tail with hS1
        set S2 := if S1.enqueuers (getEnqTid S1 st.tail) = st.tail
          then (casEnqueuers S1 (getEnqTid S1 st.tail) st.tail none).1 else S1 with hS2
        have hs2 : S2.heap = st.heap ∧ S2.alloc = st.alloc := by
          rw [hS2]
          split
          · exact cr_casEnqueuers_state S1 _ st.tail none
          · exact ⟨rfl, rfl⟩
        have hf2 : Fresh S2 := cr_fresh_of_eq hs2.2 (fun a => congrFun hs2.1 a) hf
        have hm3 := cr_helpEnqScan_mono S2 st.tail (getEnqTid S1 st.tail) S2.maxThreads 1 hf2
        have hm3B : HeapMono st (helpEnqScan S2 st.tail (getEnqTid S1 st.tail) 1
            S2.maxThreads) :=
          cr_heapMono_trans hf (cr_heapMono_of_eq hs2.2 (fun a => congrFun hs2.1 a)) hm3.1
        set S3 := helpEnqScan S2 st.tail (getEnqTid S1 st.tail) 1 S2.maxThreads with hS3
        have hstep : ∀ S4 : State α, HeapMono st S4 → Fresh S4 →
            HeapMono st (enqueueLoop tid f S4).1 ∧ Fresh (enqueueLoop tid f S4).1 := by
          intro S4 hm hfS
          obtain ⟨hm5, hf5⟩ := ih S4 hfS
          exact ⟨cr_heapMono_trans hf hm hm5, hf5⟩
        split
        · exact hstep S3 hm3B hm3.2
        · rename_i nx hnx
          have hcs := cr_casTail_state S3 st.tail (some nx)
          exact hstep _ (cr_heapMono_trans hf hm3B
              (cr_heapMono_of_eq hcs.2 (fun a => congrFun hcs.1 a)))
            (cr_fresh_of_eq hcs.2 (fun a => congrFun hcs.1 a) hm3.2)

/-- `CRTurnQueue::enqueue` respects the heap discipline. -/
theorem cr_enqueue_mono (v : α) (tid : Nat) (st : State α) (hf : Fresh st)
    (st2 : State α) (h : enqueue (some v) tid st = .ok st2) :
    HeapMono st st2 ∧ Fresh st2 := by
  simp only [enqueue] at h
  have hm1 := cr_allocNode_mono st (some v) tid hf
  set S1 : State α := { (allocNode st (some v) tid).1 with
    enqueuers := fun i => if i = tid then some (allocNode st (some v) tid).2
      else (allocNode st (some v) tid).1.enqueuers i } with hS1
  have hf1 : Fresh S1 := hm1.2
  have hm1B : HeapMono st S1 := ⟨hm1.1.1, hm1.1.2⟩
  obtain ⟨hm2, hf2⟩ := cr_enqueueLoop_mono tid S1.maxThreads S1 hf1
  have hm2B : HeapMono st (enqueueLoop tid S1.maxThreads S1).1 :=
    cr_heapMono_trans hf hm1B hm2
  split at h
  · injection h with h
    subst h
    exact ⟨hm2B, hf2⟩
  · injection h with h
    subst h
    exact ⟨hm2B, hf2⟩

theorem cr_dequeueLoop_mono (tid : Nat) (myReq prReq : Option Nat) :
    ∀ (fuel : Nat) (st : State α), Fresh st →
      HeapMono st (dequeueLoop tid myReq prReq fuel st).1 ∧
      Fresh (dequeueLoop tid myReq prReq fuel st).1 := by
  intro fuel
  induction fuel with
  | zero =>
    intro st hf
    exact ⟨cr_heapMono_of_eq rfl (fun _ => rfl), hf⟩
  | succ f ih =>
    intro st hf
    simp only [dequeueLoop]
    split
    · exact ⟨cr_heapMono_of_eq rfl (fun _ => rfl), hf⟩
    · have hf1 : Fresh (hpStore st tid 0 st.head) := hf
      split
      · exact ih (hpStore st tid 0 st.head) hf1
      · split
        · set S2 : State α := { hpStore st tid 0 st.head with
            deqself := fun i => if i = tid then prReq
              else (hpStore st tid 0 st.head).deqself i } with hS2
          have hf2 : Fresh S2 := hf
          have hg := cr_giveUp_mono S2 myReq tid hf2
          have hgB : HeapMono st (giveUp S2 myReq tid) := hg.1
          split
          · exact ⟨hgB, hg.2⟩
          · exact ⟨hgB, hg.2⟩
        · set S2 := hpStore (hpStore st tid 0 st.head) tid 1
            (getNext (hpStore st tid 0 st.head) st.head) with hS2
          have hf2 : Fresh S2 := hf
          split
          · exact ih S2 hf2
          · have hsn := cr_searchNext_mono S2 st.head
              (getNext (hpStore st tid 0 st.head) st.head) hf2
            have hsnB : HeapMono st (searchNext S2 st.head
                (getNext (hpStore st tid 0 st.head) st.head)).1 := hsn.1
            split
            · have hcs := cr_casDeqAndHead_state (searchNext S2 st.head
                (getNext (hpStore st tid 0 st.head) st.head)).1 st.head
                (getNext (hpStore st tid 0 st.head) st.head) tid
              obtain ⟨hm5, hf5⟩ := ih _ (cr_fresh_of_eq hcs.2
                (fun a => congrFun hcs.1 a) hsn.2)
              refine ⟨cr_heapMono_trans hf (cr_heapMono_trans hf hsnB
                (cr_heapMono_of_eq hcs.2 (fun a => congrFun hcs.1 a))) hm5, hf5⟩
            · obtain ⟨hm5, hf5⟩ := ih _ hsn.2
              exact ⟨cr_heapMono_trans hf hsnB hm5, hf5⟩

/-- `CRTurnQueue::dequeue` respects the heap discipline. -/
theorem cr_dequeue_mono (tid : Nat) (st : State α) (hf : Fresh st) :
    HeapMono st (dequeue tid st).2 ∧ Fresh (dequeue tid st).2 := by
  simp only [dequeue]
  set S1 : State α := { st with
    deqself := fun i => if i = tid then st.deqhelp tid else st.deqself i } with hS1
  have hf1 : Fresh S1 := hf
  obtain ⟨hm2, hf2⟩ := cr_dequeueLoop_mono tid (st.deqhelp tid) (st.deqself tid)
    S1.maxThreads S1 hf1
  set R := dequeueLoop tid (st.deqhelp tid) (st.deqself tid) S1.maxThreads S1 with hRdef
  have hm2B : HeapMono st R.1 := hm2
  split
  · exact ⟨hm2B, hf2⟩
  · set S4 := if R.1.head = (hpStore R.1 tid 0 R.1.head).head ∧
        R.1.deqhelp tid = getNext (hpStore R.1 tid 0 R.1.head) R.1.head
      then (casHead (hpStore R.1 tid 0 R.1.head) R.1.head (R.1.deqhelp tid)).1
      else hpStore R.1 tid 0 R.1.head with hS4
    have hs4 : S4.heap = R.1.heap ∧ S4.alloc = R.1.alloc := by
      rw [hS4]
      split
      · exact cr_casHead_state (hpStore R.1 tid 0 R.1.head) R.1.head (R.1.deqhelp tid)
      · exact ⟨rfl, rfl⟩
    have hf4 : Fresh S4 := cr_fresh_of_eq hs4.2 (fun a => congrFun hs4.1 a) hf2
    have hm4 : HeapMono st S4 :=
      cr_heapMono_trans hf hm2B (cr_heapMono_of_eq hs4.2 (fun a => congrFun hs4.1 a))
    have hr := cr_hpRetire_mono (hpClear S4 tid) (st.deqself tid) tid
    have hf5 : Fresh (hpClear S4 tid) := hf4
    exact ⟨cr_heapMono_trans hf hm4 hr.1, hr.2 hf5⟩

theorem cr_casHead_cnt (st : State α) (c v : Option Nat) :
    (casHead st c v).1.casCnt = st.casCnt + 1 := by
  unfold casHead
  split <;> rfl

theorem cr_casDeqhelp_cnt (st : State α) (i : Nat) (c v : Option Nat) :
    (casDeqhelp st i c v).1.casCnt = st.casCnt + 1 := by
  unfold casDeqhelp
  split <;> rfl

theorem cr_casEnqueuers_cnt (st : State α) (i : Nat) (c v : Option Nat) :
    (casEnqueuers st i c v).1.casCnt = st.casCnt + 1 := by
  unfold casEnqueuers
  split <;> rfl

theorem cr_casDeqTid_cnt (st : State α) (p : Option Nat) (cmp val : Int) :
    (casDeqTid st p cmp val).1.casCnt = st.casCnt + 1 := by
  unfold casDeqTid
  split
  · rfl
  · split
    · rfl
    · split <;> rfl

theorem cr_casNodeNext_cnt (st : State α) (p cmp val : Option Nat) :
    (casNodeNext st p cmp val).1.casCnt = st.casCnt + 1 := by
  unfold casNodeNext
  split
  · rfl
  · split
    · rfl
    · split <;> rfl

theorem cr_searchNextScan_cnt (st : State α) (lnext : Option Nat) :
    ∀ (count : Nat) (idx : Int),
      (searchNextScan st lnext idx count).casCnt ≤ st.casCnt + 1 := by
  intro count
  induction count with
  | zero =>
    intro idx
    exact Nat.le_succ _
  | succ c ih =>
    intro idx
    simp only [searchNextScan]
    split
    · exact ih (idx + 1)
    · split
      · rw [cr_casDeqTid_cnt]
      · exact Nat.le_succ _

theorem cr_searchNext_cnt (st : State α) (lhead lnext : Option Nat) :
    (searchNext st lhead lnext).1.casCnt ≤ st.casCnt + 1 := by
  simp only [searchNext]
  exact cr_searchNextScan_cnt st lnext st.maxThreads _

theorem cr_casDeqAndHead_cnt (st : State α) (l n : Option Nat) (tid : Nat) :
    (casDeqAndHead st l n tid).casCnt ≤ st.casCnt + 2 := by
  simp only [casDeqAndHead]
  split
  · rw [cr_casHead_cnt]
    show st.casCnt + 1 ≤ st.casCnt + 2
    omega
  · rw [cr_casHead_cnt]
    split
    · rw [cr_casDeqhelp_cnt]
      show st.casCnt + 1 + 1 ≤ st.casCnt + 2
      omega
    · show st.casCnt + 1 ≤ st.casCnt + 2
      omega

theorem cr_giveUp_cnt (st : State α) (myReq : Option Nat) (tid : Nat) :
    (giveUp st myReq tid).casCnt ≤ st.casCnt + 4 := by
  simp only [giveUp]
  split
  · omega
  · split
    · show st.casCnt ≤ st.casCnt + 4
      omega
    · split
      · show st.casCnt ≤ st.casCnt + 4
        omega
      · set S2 := hpStore (hpStore st tid 0 st.head) tid 1
          (getNext (hpStore st tid 0 st.head) st.head) with hS2
        have h1 : (searchNext S2 st.head
            (getNext (hpStore st tid 0 st.head) st.head)).1.casCnt ≤ st.casCnt + 1 :=
          cr_searchNext_cnt S2 st.head (getNext (hpStore st tid 0 st.head) st.head)
        set R := searchNext S2 st.head (getNext (hpStore st tid 0 st.head) st.head)
          with hR
        have h2 : (if R.2 = IDX_NONE
            then (casDeqTid R.1 (getNext (hpStore st tid 0 st.head) st.head) IDX_NONE
              ((tid : Nat) : Int)).1
            else R.1).casCnt ≤ st.casCnt + 2 := by
          split
          · rw [cr_casDeqTid_cnt]
            omega
          · omega
        exact le_trans (cr_casDeqAndHead_cnt _ st.head
          (getNext (hpStore st tid 0 st.head) st.head) tid) (by omega)

theorem cr_helpEnqScan_cnt (st : State α) (ltail : Option Nat) (etid : Nat) :
    ∀ (count j : Nat), (helpEnqScan st ltail etid j count).casCnt ≤ st.casCnt + 1 := by
  intro count
  induction count with
  | zero =>
    intro j
    exact Nat.le_succ _
  | succ c ih =>
    intro j
    simp only [helpEnqScan]
    split
    · exact ih (j + 1)
    · rw [cr_casNodeNext_cnt]

theorem cr_enqueueLoop_cnt (tid : Nat) :
    ∀ (fuel : Nat) (st : State α),
      (enqueueLoop tid fuel st).1.casCnt ≤ st.casCnt + 3 * fuel := by
  intro fuel
  induction fuel with
  | zero =>
    intro st
    simp [enqueueLoop]
  | succ f ih =>
    intro st
    simp only [enqueueLoop]
    split
    · show st.casCnt ≤ st.casCnt + 3 * (f + 1)
      omega
    · split
      · exact le_trans (ih (hpStore st tid 0 st.tail)) (by show st.casCnt + 3 * f ≤ _; omega)
      · set S1 := hpStore st tid 0 st.tail with hS1
        set S2 := if S1.enqueuers (getEnqTid S1 st.tail) = st.tail
          then (casEnqueuers S1 (getEnqTid S1 st.tail) st.tail none).1 else S1 with hS2
        have h2 : S2.casCnt ≤ st.casCnt + 1 := by
          rw [hS2]
          split
          · rw [cr_casEnqueuers_cnt]
            show st.casCnt + 1 ≤ st.casCnt + 1
            omega
          · show st.casCnt ≤ st.casCnt + 1
            omega
        have h3 : (helpEnqScan S2 st.tail (getEnqTid S1 st.tail) 1
            S2.maxThreads).casCnt ≤ st.casCnt + 2 :=
          le_trans (cr_helpEnqScan_cnt S2 st.tail (getEnqTid S1 st.tail) S2.maxThreads 1)
            (by omega)
        set S3 := helpEnqScan S2 st.tail (getEnqTid S1 st.tail) 1 S2.maxThreads with hS3
        split
        · exact le_trans (ih S3) (by omega)
        · rename_i nx hnx
          have h4 : (casTail S3 st.tail (some nx)).1.casCnt ≤ st.casCnt + 3 := by
            have := congrArg State.casCnt (show (casTail S3 st.tail (some nx)).1
                = (casTail S3 st.tail (some nx)).1 from rfl)
            have h5 : (casTail S3 st.tail (some nx)).1.casCnt = S3.casCnt + 1 := by
              unfold casTail
              split <;> rfl
            omega
          exact le_trans (ih _) (by omega)

/-- A single `CRTurnQueue::enqueue` call issues at most `3 * maxThreads`
CAS attempts (its helping loop is syntactically bounded at `maxThreads`
rounds, each with at most three CAS attempts). -/
theorem cr_enqueue_cnt (v : α) (tid : Nat) (st : State α) (st2 : State α)
    (h : enqueue (some v) tid st = .ok st2) :
    st2.casCnt ≤ st.casCnt + 3 * st.maxThreads := by
  simp only [enqueue] at h
  set S1 : State α := { (allocNode st (some v) tid).1 with
    enqueuers := fun i => if i = tid then some (allocNode st (some v) tid).2
      else (allocNode st (some v) tid).1.enqueuers i } with hS1
  have h1 : (enqueueLoop tid S1.maxThreads S1).1.casCnt
      ≤ st.casCnt + 3 * st.maxThreads := by
    have h2 := cr_enqueueLoop_cnt tid S1.maxThreads S1
    have h3 : S1.casCnt = st.casCnt := rfl
    have h4 : S1.maxThreads = st.maxThreads := rfl
    omega
  split at h
  · injection h with h
    subst h
    exact h1
  · injection h with h
    subst h
    exact h1

theorem cr_dequeueLoop_cnt (tid : Nat) (myReq prReq : Option Nat) :
    ∀ (fuel : Nat) (st : State α),
      (dequeueLoop tid myReq prReq fuel st).1.casCnt ≤ st.casCnt + 4 * fuel := by
  intro fuel
  induction fuel with
  | zero =>
    intro st
    simp [dequeueLoop]
  | succ f ih =>
    intro st
    simp only [dequeueLoop]
    split
    · show st.casCnt ≤ st.casCnt + 4 * (f + 1)
      omega
    · split
      · exact le_trans (ih (hpStore st tid 0 st.head))
          (by show st.casCnt + 4 * f ≤ _; omega)
      · split
        · set S2 : State α := { hpStore st tid 0 st.head with
            deqself := fun i => if i = tid then prReq
              else (hpStore st tid 0 st.head).deqself i } with hS2
          have hg : (giveUp S2 myReq tid).casCnt ≤ st.casCnt + 4 := by
            have h2 := cr_giveUp_cnt S2 myReq tid
            have h3 : S2.casCnt = st.casCnt := rfl
            omega
          split
          · show (giveUp S2 myReq tid).casCnt ≤ st.casCnt + 4 * (f + 1)
            omega
          · show (giveUp S2 myReq tid).casCnt ≤ st.casCnt + 4 * (f + 1)
            omega
        · set S2 := hpStore (hpStore st tid 0 st.head) tid 1
            (getNext (hpStore st tid 0 st.head) st.head) with hS2
          split
          · exact le_trans (ih S2) (by show st.casCnt + 4 * f ≤ _; omega)
          · have h1 : (searchNext S2 st.head
                (getNext (hpStore st tid 0 st.head) st.head)).1.casCnt
                ≤ st.casCnt + 1 :=
              cr_searchNext_cnt S2 st.head (getNext (hpStore st tid 0 st.head) st.head)
            set R := searchNext S2 st.head
              (getNext (hpStore st tid 0 st.head) st.head) with hR
            split
            · have h2 := cr_casDeqAndHead_cnt R.1 st.head
                (getNext (hpStore st tid 0 st.head) st.head) tid
              exact le_trans (ih _) (by omega)
            · exact le_trans (ih R.1) (by omega)

/-- A single `CRTurnQueue::dequeue` call issues at most `4 * maxThreads + 1`
CAS attempts (its loop is syntactically bounded at `maxThreads` rounds, each
with at most four CAS attempts, plus the final head CAS of step 4). -/
theorem cr_dequeue_cnt (tid : Nat) (st : State α) :
    (dequeue tid st).2.casCnt ≤ st.casCnt + (4 * st.maxThreads + 1) := by
  simp only [dequeue]
  set S1 : State α := { st with
    deqself := fun i => if i = tid then st.deqhelp tid else st.deqself i } with hS1
  have h1 : (dequeueLoop tid (st.deqhelp tid) (st.deqself tid)
      S1.maxThreads S1).1.casCnt ≤ st.casCnt + 4 * st.maxThreads := by
    have h2 := cr_dequeueLoop_cnt tid (st.deqhelp tid) (st.deqself tid) S1.maxThreads S1
    have h3 : S1.casCnt = st.casCnt := rfl
    have h4 : S1.maxThreads = st.maxThreads := rfl
    omega
  set R := dequeueLoop tid (st.deqhelp tid) (st.deqself tid) S1.maxThreads S1 with hR
  split
  · show R.1.casCnt ≤ _
    omega
  · rw [hpRetire_casCnt]
    have h5 : (if R.1.head = (hpStore R.1 tid 0 R.1.head).head ∧
          R.1.deqhelp tid = getNext (hpStore R.1 tid 0 R.1.head) R.1.head
        then (casHead (hpStore R.1 tid 0 R.1.head) R.1.head (R.1.deqhelp tid)).1
        else hpStore R.1 tid 0 R.1.head).casCnt ≤ R.1.casCnt + 1 := by
      split
      · rw [cr_casHead_cnt]
        show R.1.casCnt + 1 ≤ R.1.casCnt + 1
        omega
      · show R.1.casCnt ≤ R.1.casCnt + 1
        omega
    show (if R.1.head = (hpStore R.1 tid 0 R.1.head).head ∧
          R.1.deqhelp tid = getNext (hpStore R.1 tid 0 R.1.head) R.1.head
        then (casHead (hpStore R.1 tid 0 R.1.head) R.1.head (R.1.deqhelp tid)).1
        else hpStore R.1 tid 0 R.1.head).casCnt ≤ st.casCnt + (4 * st.maxThreads + 1)
    omega

theorem cr_newQueue_fresh (α : Type) (mt thr : Nat) : Fresh (newQueue α mt thr) := by
  intro a ha
  have ha2 : 1 + 2 * mt ≤ a := ha
  simp only [newQueue]
  rw [if_neg (by omega)]

/-- `delete p` of the C++ destructor: remove the node from the heap. -/
def freeNode (st : State α) (p : Option Nat) : State α :=
  match p with
  | none => st
  | some a => { st with heap := fun b => if b = a then none else st.heap b }

/-- The first statement of `~CRTurnQueue()`: `delete sentinelNode;`, executed
before the drain loop `while (dequeue(0) != nullptr)`. -/
def destructorStep1 (st : State α) : State α := freeNode st st.sentinelNode

/-- A queue holding one item, reached from the constructor by the single
call `enqueue(42, 0)` with `maxThreads = 1`. -/
def oneItemQueue : State Nat :=
  match enqueue (some 42) 0 (newQueue Nat 1 0) with
  | .ok s => s
  | .error _ => newQueue Nat 1 0

/-- A `CRTurnQueue` state holding one item: value 42 in node 3 after the
sentinel 0; nodes 1 and 2 are thread 0's request dummies. -/
def demoQueue : State Nat :=
  { heap := fun a => if a < 4
      then (if a = 0
        then some { item := none, enqTid := 0, deqTid := IDX_NONE, next := some 3 }
        else if a = 3
        then some { item := some 42, enqTid := 0, deqTid := IDX_NONE, next := none }
        else some { item := none, enqTid := 0, deqTid := IDX_NONE, next := none })
      else none
    alloc := 4
    head := some 0
    tail := some 3
    maxThreads := 1
    enqueuers := fun _ => none
    deqself := fun i => some (1 + 2 * i)
    deqhelp := fun i => some (2 + 2 * i)
    sentinelNode := some 0
    hp := fun _ _ => none
    retired := fun _ => []
    thresholdR := 0
    casCnt := 0 }

theorem cr_demoQueue_inv : Inv demoQueue 0 [3] := by
  refine ⟨by decide, rfl, ⟨_, rfl, rfl, _, rfl, rfl⟩, rfl, by decide, ?_, ?_, ?_,
      by decide, ?_, ?_, fun t => rfl, ?_, ?_, ?_, ?_, ?_, ?_, ?_⟩
  · intro a ha
    simp at ha
    rcases ha with rfl | rfl <;> decide
  · intro a ha
    have ha2 : 4 ≤ a := ha
    simp only [demoQueue]
    rw [if_neg (by omega)]
  · intro a ha
    simp at ha
    subst ha
    decide
  · intro a ha
    simp at ha
    subst ha
    decide
  · intro a ha
    simp at ha
    rcases ha with rfl | rfl <;> decide
  · intro t ht
    have ht2 : t = 0 := by
      have ht3 : t < 1 := ht
      omega
    subst ht2
    exact ⟨1, rfl, by decide, by decide⟩
  · intro t ht
    have ht2 : t = 0 := by
      have ht3 : t < 1 := ht
      omega
    subst ht2
    exact ⟨2, rfl, by decide, Or.inr (by decide)⟩
  · intro t h
    have h2 : some (1 + 2 * t) = some (2 + 2 * t) := h
    injection h2 with h2
    omega
  · intro t ht u hu h
    have h2 : some (1 + 2 * t) = some (1 + 2 * u) := h
    injection h2 with h2
    omega
  · intro t ht u hu h
    have h2 : some (2 + 2 * t) = some (2 + 2 * u) := h
    injection h2 with h2
    omega
  · intro t ht u hu h
    have h2 : some (1 + 2 * t) = some (2 + 2 * u) := h
    injection h2 with h2
    omega
  · intro t q hq
    have hq2 : q ∈ ([] : List (Option Nat)) := hq
    simp at hq2

end CRQ


/-! ## The claims -/

/-- C2: FIFO ordering.  Sequentially executed histories on either queue
return dequeued items in exactly the order in which they were enqueued: the
sequence of values returned by dequeues is a prefix of the sequence of
enqueued values (the remainder being the values still in the node chain).
For `CRTurnQueue` the history's thread indices must be in range, as its
contract requires. -/
theorem fifo_order (α : Type) (ops : List (MSQ.Op α)) (opsC : List (CRQ.Op α))
    (mt thr mtC thrC : Nat) (hmt : 0 < mtC)
    (htids : ∀ op ∈ opsC, CRQ.opTid op < mtC) :
    (∃ l, MSQ.enqVals ops
        = MSQ.deqVals (MSQ.run ops (MSQ.newQueue α mt thr)).2 ++ l) ∧
    (∃ l, CRQ.enqVals opsC
        = CRQ.deqVals (CRQ.run opsC (CRQ.newQueue α mtC thrC)).2 ++ l) :=
  ⟨⟨_, MSQ.ms_run_conservation ops mt thr⟩,
    ⟨_, CRQ.cr_run_conservation opsC mtC thrC hmt htids⟩⟩

/-- C2 witness: the three-enqueue/three-dequeue history of the spec's test
scenario on both queues, thread indices 0 in `maxThreads = 4`. -/
theorem fifo_order_witness :
    (∃ l, MSQ.enqVals [MSQ.Op.enq 1 0, MSQ.Op.enq 2 0, MSQ.Op.enq 3 0,
          MSQ.Op.deq 0, MSQ.Op.deq 0, MSQ.Op.deq 0]
        = MSQ.deqVals (MSQ.run [MSQ.Op.enq 1 0, MSQ.Op.enq 2 0, MSQ.Op.enq 3 0,
            MSQ.Op.deq 0, MSQ.Op.deq 0, MSQ.Op.deq 0] (MSQ.newQueue Nat 4 0)).2 ++ l) ∧
    (∃ l, CRQ.enqVals [CRQ.Op.enq 1 0, CRQ.Op.enq 2 0, CRQ.Op.enq 3 0,
          CRQ.Op.deq 0, CRQ.Op.deq 0, CRQ.Op.deq 0]
        = CRQ.deqVals (CRQ.run [CRQ.Op.enq 1 0, CRQ.Op.enq 2 0, CRQ.Op.enq 3 0,
            CRQ.Op.deq 0, CRQ.Op.deq 0, CRQ.Op.deq 0] (CRQ.newQueue Nat 4 0)).2 ++ l) :=
  fifo_order Nat [MSQ.Op.enq 1 0, MSQ.Op.enq 2 0, MSQ.Op.enq 3 0,
      MSQ.Op.deq 0, MSQ.Op.deq 0, MSQ.Op.deq 0]
    [CRQ.Op.enq 1 0, CRQ.Op.enq 2 0, CRQ.Op.enq 3 0,
      CRQ.Op.deq 0, CRQ.Op.deq 0, CRQ.Op.deq 0]
    4 0 4 0 (by decide) (by decide)

/-- C3: no loss / no duplication.  Over every finite sequential history from
a fresh queue, the list of enqueued values equals the list of dequeued values
followed by the values remaining in the node chain — so every enqueued item
is dequeued exactly once or remains, none is returned twice, and the
multisets agree.  For `CRTurnQueue` the history's thread indices must be in
range. -/
theorem conservation_no_loss_no_dup (α : Type) (ops : List (MSQ.Op α))
    (opsC : List (CRQ.Op α)) (mt thr mtC thrC : Nat) (hmt : 0 < mtC)
    (htids : ∀ op ∈ opsC, CRQ.opTid op < mtC) :
    (MSQ.enqVals ops
      = MSQ.deqVals (MSQ.run ops (MSQ.newQueue α mt thr)).2
        ++ MSQ.remaining (MSQ.run ops (MSQ.newQueue α mt thr)).1) ∧
    (CRQ.enqVals opsC
      = CRQ.deqVals (CRQ.run opsC (CRQ.newQueue α mtC thrC)).2
        ++ CRQ.remaining (CRQ.run opsC (CRQ.newQueue α mtC thrC)).1) :=
  ⟨MSQ.ms_run_conservation ops mt thr,
    CRQ.cr_run_conservation opsC mtC thrC hmt htids⟩

/-- C3 witness: the spec's scenario — enqueue 1, 2, 3 and dequeue twice;
the dequeued values followed by the remaining value are exactly 1, 2, 3. -/
theorem conservation_no_loss_no_dup_witness :
    (MSQ.enqVals [MSQ.Op.enq 1 0, MSQ.Op.enq 2 0, MSQ.Op.enq 3 0,
        MSQ.Op.deq 0, MSQ.Op.deq 0]
      = MSQ.deqVals (MSQ.run [MSQ.Op.enq 1 0, MSQ.Op.enq 2 0, MSQ.Op.enq 3 0,
          MSQ.Op.deq 0, MSQ.Op.deq 0] (MSQ.newQueue Nat 4 0)).2
        ++ MSQ.remaining (MSQ.run [MSQ.Op.enq 1 0, MSQ.Op.enq 2 0, MSQ.Op.enq 3 0,
          MSQ.Op.deq 0, MSQ.Op.deq 0] (MSQ.newQueue Nat 4 0)).1) ∧
    (CRQ.enqVals [CRQ.Op.enq 1 0, CRQ.Op.enq 2 0, CRQ.Op.enq 3 0,
        CRQ.Op.deq 0, CRQ.Op.deq 0]
      = CRQ.deqVals (CRQ.run [CRQ.Op.enq 1 0, CRQ.Op.enq 2 0, CRQ.Op.enq 3 0,
          CRQ.Op.deq 0, CRQ.Op.deq 0] (CRQ.newQueue Nat 4 0)).2
        ++ CRQ.remaining (CRQ.run [CRQ.Op.enq 1 0, CRQ.Op.enq 2 0, CRQ.Op.enq 3 0,
          CRQ.Op.deq 0, CRQ.Op.deq 0] (CRQ.newQueue Nat 4 0)).1) :=
  conservation_no_loss_no_dup Nat
    [MSQ.Op.enq 1 0, MSQ.Op.enq 2 0, MSQ.Op.enq 3 0, MSQ.Op.deq 0, MSQ.Op.deq 0]
    [CRQ.Op.enq 1 0, CRQ.Op.enq 2 0, CRQ.Op.enq 3 0, CRQ.Op.deq 0, CRQ.Op.deq 0]
    4 0 4 0 (by decide) (by decide)

/-- C4: wait-free bound for `CRTurnQueue`.  An enqueue with a non-null item
always completes (returns), its helping loop being syntactically bounded at
`maxThreads` rounds (`enqueueLoop tid st.maxThreads`), and the
CAS-instrumentation counter `casCnt` — incremented at every
`compare_exchange_strong` attempt the operations issue — rises by at most
`3 * maxThreads` over any single enqueue and at most `4 * maxThreads + 1`
over any single dequeue, from every state: no call performs more than
O(maxThreads) CAS attempts, failed or not. -/
theorem cr_wait_free_cas_bound (α : Type) (v : α) (tid : Nat) (st : CRQ.State α) :
    (∃ st2, CRQ.enqueue (some v) tid st = .ok st2) ∧
    (∀ st2, CRQ.enqueue (some v) tid st = .ok st2 →
      st2.casCnt ≤ st.casCnt + 3 * st.maxThreads) ∧
    (CRQ.dequeue tid st).2.casCnt ≤ st.casCnt + (4 * st.maxThreads + 1) := by
  refine ⟨?_, fun st2 h => CRQ.cr_enqueue_cnt v tid st st2 h, CRQ.cr_dequeue_cnt tid st⟩
  simp only [CRQ.enqueue]
  split <;> exact ⟨_, rfl⟩

/-- C5: empty-queue determinism.  In a sequential execution (no enqueue in
flight), a dequeue on a structurally empty queue (head = tail, empty sentinel
chain) returns Absent (nullptr) as a normal result, and a dequeue on a
structurally non-empty well-formed queue never returns Absent — in
`CRTurnQueue` the give-up path's re-check of head against tail is part of the
proved empty-queue trace.  Stated for both queues from their sequential
invariants. -/
theorem dequeue_absent_characterization (α : Type) (tid : Nat)
    (stE : MSQ.State α) (aE : Nat) (invE : MSQ.Inv stE aE [])
    (stN : MSQ.State α) (aN bN : Nat) (restN : List Nat)
    (invN : MSQ.Inv stN aN (bN :: restN))
    (stCE : CRQ.State α) (cE : Nat) (invCE : CRQ.Inv stCE cE [])
    (stCN : CRQ.State α) (cN dN : Nat) (restC : List Nat)
    (invCN : CRQ.Inv stCN cN (dN :: restC)) (htid : tid < stCN.maxThreads) :
    (∃ st2, MSQ.dequeue 1 tid stE = some (none, st2)) ∧
    (∃ v st2, MSQ.dequeue 1 tid stN = some (some v, st2)) ∧
    (∃ st2, CRQ.dequeue tid stCE = (none, st2)) ∧
    (∃ v st2, CRQ.dequeue tid stCN = (some v, st2)) := by
  obtain ⟨s1, h1, _⟩ := MSQ.dequeue_empty invE tid
  obtain ⟨v2, s2, _, h2, _⟩ := MSQ.dequeue_nonempty invN tid
  obtain ⟨s3, h3, _⟩ := CRQ.cr_dequeue_empty invCE tid
  obtain ⟨v4, s4, _, h4, _⟩ := CRQ.cr_dequeue_nonempty invCN tid htid
  exact ⟨⟨s1, h1⟩, ⟨v2, s2, h2⟩, ⟨s3, h3⟩, ⟨v4, s4, h4⟩⟩

/-- C5 witness: fresh queues are empty and dequeue Absent; the one-item demo
queues are non-empty and dequeue a value. -/
theorem dequeue_absent_characterization_witness :
    (∃ st2, MSQ.dequeue 1 0 (MSQ.newQueue Nat 1 0) = some (none, st2)) ∧
    (∃ v st2, MSQ.dequeue 1 0 MSQ.demoQueue = some (some v, st2)) ∧
    (∃ st2, CRQ.dequeue 0 (CRQ.newQueue Nat 1 0) = (none, st2)) ∧
    (∃ v st2, CRQ.dequeue 0 CRQ.demoQueue = (some v, st2)) :=
  dequeue_absent_characterization Nat 0 (MSQ.newQueue Nat 1 0) 0
    (MSQ.newQueue_inv Nat 1 0) MSQ.demoQueue 0 1 [] MSQ.demoQueue_inv
    (CRQ.newQueue Nat 1 0) 0 (CRQ.cr_newQueue_inv Nat 1 0 (by decide))
    CRQ.demoQueue 0 3 [] CRQ.cr_demoQueue_inv (by decide)

/-- C6: enqueue of a null item fails synchronously with `invalid_argument`
on both queues — the throw happens before any allocation or pointer write,
so the embedding returns the error with no successor state and the queue is
untouched — and an enqueue of a non-null item never reports
`invalid_argument` (in `MichaelScottQueue` the only other outcome of the
embedded loop is fuel exhaustion; in `CRTurnQueue` it always returns ok). -/
theorem enqueue_null_invalid_argument (α : Type) (v : α) (tid fuel : Nat)
    (stM : MSQ.State α) (stC : CRQ.State α) :
    MSQ.enqueue fuel none tid stM = .error .invalidArgument ∧
    CRQ.enqueue none tid stC = .error .invalidArgument ∧
    MSQ.enqueue fuel (some v) tid stM ≠ .error .invalidArgument ∧
    (∃ st2, CRQ.enqueue (some v) tid stC = .ok st2) := by
  refine ⟨rfl, rfl, ?_, ?_⟩
  · simp only [MSQ.enqueue]
    exact MSQ.enqueueLoop_no_invalid tid (MSQ.allocNode stM (some v)).2 fuel
      (MSQ.allocNode stM (some v)).1
  · simp only [CRQ.enqueue]
    split <;> exact ⟨_, rfl⟩

/-- C7 counterexample: no operation surfaces a `TidOutOfRange` error.
With `maxThreads = 1`, calling enqueue with the out-of-range thread index 5
proceeds and returns normally on `CRTurnQueue`, and dequeue with thread
index 5 returns normally on `MichaelScottQueue` — neither error type even
has a tid variant. -/
theorem tid_out_of_range_not_rejected :
    (∃ st2, CRQ.enqueue (some 42) 5 (CRQ.newQueue Nat 1 0) = .ok st2) ∧
    (∃ r, MSQ.dequeue 1 5 (MSQ.newQueue Nat 1 0) = some r) :=
  ⟨⟨_, rfl⟩, ⟨_, rfl⟩⟩

/-- C7 (amended): the caller-supplied thread index is never validated: the
only synchronous error either queue can raise is `invalid_argument` for a
null item (`CRTurnQueue`'s error type has that single variant), and enqueue
proceeds and completes for every tid, in range or not; supplying
`tid ∈ [0, maxThreads)` is solely the caller's obligation. -/
theorem tid_unchecked_amended (α : Type) (v : α) (tid : Nat) (st : CRQ.State α) :
    (∀ e : CRQ.Err, e = CRQ.Err.invalidArgument) ∧
    (∃ st2, CRQ.enqueue (some v) tid st = .ok st2) := by
  constructor
  · intro e
    cases e
    rfl
  · simp only [CRQ.enqueue]
    split <;> exact ⟨_, rfl⟩

/-- C8: refuted for `CRTurnQueue` — its destructor frees the sentinel BEFORE
draining.  `~CRTurnQueue()` runs `delete sentinelNode;` first and only then
`while (dequeue(0) != nullptr)`.  On a queue holding one item (reached from
the constructor by a single enqueue) the head still points at the sentinel
when it is freed, so the drain's first `dequeue(0)` dereferences freed
memory (`lhead->next.load()` through a dangling pointer): after the delete,
head is non-null and dangling while the queue is still non-empty
(head ≠ tail).  (`~MichaelScottQueue()` drains first and then deletes, as
the spec says.) -/
theorem cr_destructor_frees_sentinel_before_drain :
    CRQ.oneItemQueue.head = CRQ.oneItemQueue.sentinelNode ∧
    CRQ.oneItemQueue.head ≠ CRQ.oneItemQueue.tail ∧
    (CRQ.destructorStep1 CRQ.oneItemQueue).head = some 0 ∧
    (CRQ.destructorStep1 CRQ.oneItemQueue).head
      ≠ (CRQ.destructorStep1 CRQ.oneItemQueue).tail ∧
    CRQ.getNode (CRQ.destructorStep1 CRQ.oneItemQueue)
      (CRQ.destructorStep1 CRQ.oneItemQueue).head = none := by
  refine ⟨rfl, by decide, rfl, by decide, rfl⟩

/-- C9: write-once `next` and `deqTid`.  Every complete enqueue or dequeue
on either queue respects the heap discipline `HeapMono`: a node's `next`
link, once non-null, keeps its value, and (for `CRTurnQueue`) its `deqTid`
tag, once different from `IDX_NONE`, keeps its value — both fields are only
ever CAS'd from their initial value (`nullptr` / `IDX_NONE`) and never
mutated afterwards; freed addresses are never reused (`Fresh` is preserved
and the allocation counter only grows). -/
theorem next_deqtid_write_once (α : Type) (v : α) (tid fuel : Nat)
    (stM : MSQ.State α) (hfM : MSQ.Fresh stM)
    (stC : CRQ.State α) (hfC : CRQ.Fresh stC) :
    (∀ st2, MSQ.enqueue fuel (some v) tid stM = .ok st2 →
      MSQ.HeapMono stM st2 ∧ MSQ.Fresh st2) ∧
    (∀ r st2, MSQ.dequeue fuel tid stM = some (r, st2) →
      MSQ.HeapMono stM st2 ∧ MSQ.Fresh st2) ∧
    (∀ st2, CRQ.enqueue (some v) tid stC = .ok st2 →
      CRQ.HeapMono stC st2 ∧ CRQ.Fresh st2) ∧
    (CRQ.HeapMono stC (CRQ.dequeue tid stC).2 ∧ CRQ.Fresh (CRQ.dequeue tid stC).2) :=
  ⟨fun st2 h => MSQ.enqueue_mono fuel v tid stM hfM st2 h,
    fun r st2 h => MSQ.dequeue_mono fuel tid stM hfM r st2 h,
    fun st2 h => CRQ.cr_enqueue_mono v tid stC hfC st2 h,
    CRQ.cr_dequeue_mono tid stC hfC⟩

/-- C9 witness: the heap discipline at the fresh queues, thread 0, item 42. -/
theorem next_deqtid_write_once_witness :
    CRQ.HeapMono (CRQ.newQueue Nat 1 0) (CRQ.dequeue 0 (CRQ.newQueue Nat 1 0)).2 ∧
    CRQ.Fresh (CRQ.dequeue 0 (CRQ.newQueue Nat 1 0)).2 :=
  (next_deqtid_write_once Nat 42 0 1 (MSQ.newQueue Nat 1 0)
    (MSQ.newQueue_fresh Nat 1 0) (CRQ.newQueue Nat 1 0)
    (CRQ.cr_newQueue_fresh Nat 1 0)).2.2.2

/-- C10: fixed per-thread capacity 128.  The capacity constants of the
hazard-pointer registry and both queues are 128; whenever
`maxThreads ≤ MAX_THREADS`, a direct per-thread access at any
`tid < maxThreads` is in bounds, and so are the computed indices of the
scans — `idx % maxThreads` (as used on `deqself`/`deqhelp` by
`searchNext`) and `(j + enqTid) % maxThreads` (as used on `enqueuers` by
the enqueue help loop); but the constructors accept `maxThreads = 200 > 128`
without any check. -/
theorem array_capacity_128 :
    (HPCond.HP_MAX_THREADS = 128 ∧ MSQ.MAX_THREADS = 128 ∧ CRQ.MAX_THREADS = 128) ∧
    (∀ mt tid : Nat, mt ≤ CRQ.MAX_THREADS → tid < mt → tid < CRQ.MAX_THREADS) ∧
    (∀ (st : CRQ.State Nat) (idx : Int), 0 < st.maxThreads →
      st.maxThreads ≤ CRQ.MAX_THREADS →
      (idx % (st.maxThreads : Int)).toNat < CRQ.MAX_THREADS) ∧
    (∀ (st : CRQ.State Nat) (j e : Nat), 0 < st.maxThreads →
      st.maxThreads ≤ CRQ.MAX_THREADS →
      (j + e) % st.maxThreads < CRQ.MAX_THREADS) ∧
    ((CRQ.newQueue Nat 200 0).maxThreads = 200 ∧
      (MSQ.newQueue Nat 200 0).maxThreads = 200 ∧ CRQ.MAX_THREADS < 200) := by
  refine ⟨⟨rfl, rfl, rfl⟩, ?_, ?_, ?_, rfl, rfl, by decide⟩
  · intro mt tid h1 h2
    simp only [CRQ.MAX_THREADS] at h1 ⊢
    omega
  · intro st idx h1 h2
    have h3 : (0 : Int) ≤ idx % (st.maxThreads : Int) :=
      Int.emod_nonneg idx (by exact_mod_cast h1.ne')
    have h4 : idx % (st.maxThreads : Int) < (st.maxThreads : Int) :=
      Int.emod_lt_of_pos idx (by exact_mod_cast h1)
    simp only [CRQ.MAX_THREADS] at h2 ⊢
    omega
  · intro st j e h1 h2
    have h3 : (j + e) % st.maxThreads < st.maxThreads := Nat.mod_lt _ h1
    simp only [CRQ.MAX_THREADS] at h2 ⊢
    omega
